import Mathlib

/-!
# SQZ unpacker (`sqz_unpacker.cpp`): shallow embedding and verified properties

The three decoders of `namespace sqz` (LZW, Huffman+RLE, DIET), their bit readers and the
dispatcher `unpack` are embedded as Lean functions with explicit state passing.

Conventions of the embedding:
* a byte is a `Nat`; the stream reduces every byte it delivers modulo 256;
* `uint8_t` / `uint16_t` / `size_t` arithmetic is `Nat` arithmetic with explicit `% 2^w`
  (`size_t` is 64 bits, multi-byte reads are little-endian, as on the x86-64 target);
* `std::istream` is the list of bytes not yet consumed together with its `good()` flag
  (in this program `eofbit` and `failbit` are only ever set together);
* a local variable that is read after a failed `stream.read` keeps its previous content; for an
  uninitialised local that content is the parameter `junk`;
* loops that the source does not bound are driven by a fuel argument; running out of fuel is the
  distinguished outcome `Outcome.timeout`;
* an out-of-range `operator[]` is the distinguished outcome `Outcome.undefinedAccess`.
-/

namespace Sqz

/-! ## Outcomes -/

/-- The exceptions thrown by the unpacker (`std::runtime_error` messages). -/
inductive Error where
  | invalidLzwData
  | cannotOpenFile
deriving DecidableEq, Repr

/-- Result of running a piece of the program. -/
inductive Outcome (α : Type) where
  | done (a : α)
  | thrown (e : Error)
  | undefinedAccess
  | timeout
deriving DecidableEq, Repr

/-- Apply a function to the value of a finished run. -/
def Outcome.map {α β : Type} (f : α → β) : Outcome α → Outcome β
  | .done a => .done (f a)
  | .thrown e => .thrown e
  | .undefinedAccess => .undefinedAccess
  | .timeout => .timeout

/-! ## Byte stream -/

/-- A `std::istream`: the bytes not yet consumed and the `good()` flag. -/
structure IStream where
  rest : List Nat
  good : Bool
deriving DecidableEq, Repr

/-- The call `stream.read(buf, n)`: the bytes stored into `buf` (there are `gcount()` of them) and
the stream afterwards. A stream that is not good stores nothing; a short read stores what is
left and sets `eofbit | failbit`. -/
def IStream.read (s : IStream) (n : Nat) : List Nat × IStream :=
  if s.good then
    if n ≤ s.rest.length then
      ((s.rest.take n).map (· % 256), { rest := s.rest.drop n, good := true })
    else
      (s.rest.map (· % 256), { rest := [], good := false })
  else ([], s)

/-- Reading one byte into a `uint8_t` variable whose content was `old`. -/
def IStream.read_u8 (s : IStream) (old : Nat) : Nat × IStream :=
  match s.read 1 with
  | ([b], s1) => (b, s1)
  | (_, s1) => (old % 256, s1)

/-- Reading two bytes into a `uint16_t` variable whose content was `old` (little-endian). -/
def IStream.read_u16 (s : IStream) (old : Nat) : Nat × IStream :=
  match s.read 2 with
  | ([lo, hi], s1) => (lo + 256 * hi, s1)
  | ([lo], s1) => (lo + 256 * (old / 256 % 256), s1)
  | (_, s1) => (old % 65536, s1)

/-- The call `seekg(n, std::ios::cur)`: no effect on a failed stream. -/
def IStream.skip (s : IStream) (n : Nat) : IStream :=
  if s.good then { rest := s.rest.drop n, good := true } else s

/-! ## DIET: 16-bit little-endian bit reader -/

/-- State of `class DietBitReader`. -/
structure DietBitReader where
  stream : IStream
  bit : Nat
  current_word : Nat
deriving DecidableEq, Repr

/-- The constructor `DietBitReader(std::istream&)`: primes `current_word`. -/
def DietBitReader.init (s : IStream) : DietBitReader :=
  let (w, s1) := s.read_u16 0
  { stream := s1, bit := 0, current_word := w }

/-- Method `DietBitReader::read_bit`. -/
def DietBitReader.read_bit (r : DietBitReader) : Bool × DietBitReader :=
  let value := (r.current_word &&& (1 <<< r.bit)) != 0
  let bit := r.bit + 1
  if bit = 16 then
    let (w, s1) := r.stream.read_u16 r.current_word
    (value, { stream := s1, bit := 0, current_word := w })
  else
    (value, { r with bit := bit })

/-- The loop of `DietBitReader::read_3bit_value`, with `n` iterations left. -/
def DietBitReader.read_bits_loop : Nat → Nat → DietBitReader → Nat × DietBitReader
  | 0, value, r => (value, r)
  | n + 1, value, r =>
    let (b, r1) := r.read_bit
    DietBitReader.read_bits_loop n ((value <<< 1) ||| (if b then 1 else 0)) r1

/-- Method `DietBitReader::read_3bit_value`. -/
def DietBitReader.read_3bit_value (r : DietBitReader) : Nat × DietBitReader :=
  DietBitReader.read_bits_loop 3 0 r

/-- Method `DietBitReader::read_next_byte`; the local `b` is uninitialised. -/
def DietBitReader.read_next_byte (junk : Nat) (r : DietBitReader) : Nat × DietBitReader :=
  let (b, s1) := r.stream.read_u8 junk
  (b, { r with stream := s1 })

/-! ## DIET decoder -/

/-- Function `shift_left_add_bit` (result truncated to `uint8_t`). -/
def shift_left_add_bit (b : Nat) (bit : Bool) : Nat :=
  ((b <<< 1) ||| (if bit then 1 else 0)) % 256

/-- The `for` loop of `read_hi_byte_varlen`, with `n` iterations left; yields `b`, `tmp` and
the reader. -/
def read_hi_byte_loop : Nat → Nat → Nat → DietBitReader → Nat × Nat × DietBitReader
  | 0, b, tmp, r => (b, tmp, r)
  | n + 1, b, tmp, r =>
    let (stop, r1) := r.read_bit
    if stop then (b, tmp, r1)
    else
      let (x, r2) := r1.read_bit
      read_hi_byte_loop n (shift_left_add_bit b x) ((tmp <<< 1) % 256) r2

/-- Function `read_hi_byte_varlen`. -/
def read_hi_byte_varlen (r : DietBitReader) : Nat × DietBitReader :=
  let (x, r1) := r.read_bit
  let b := shift_left_add_bit 0xFF x
  let (y, r2) := r1.read_bit
  if !y then
    let (b1, tmp, r3) := read_hi_byte_loop 3 b (1 <<< 1) r2
    ((b1 + 256 - tmp) % 256, r3)
  else (b, r2)

/-- The first `for` loop of `read_repeat_count_varlen`, with `n` iterations left: `some count`
when the loop returned from the function. -/
def read_repeat_count_loop : Nat → Nat → DietBitReader → Option Nat × DietBitReader
  | 0, _, r => (none, r)
  | n + 1, count, r =>
    let (b, r1) := r.read_bit
    if b then (some (count + 1), r1) else read_repeat_count_loop n (count + 1) r1

/-- Function `read_repeat_count_varlen`. -/
def read_repeat_count_varlen (junk : Nat) (r : DietBitReader) : Nat × DietBitReader :=
  match read_repeat_count_loop 4 0 r with
  | (some c, r1) => (c, r1)
  | (none, r1) =>
    let (a, r2) := r1.read_bit
    if a then
      let (b, r3) := r2.read_bit
      (if b then 6 else 5, r3)
    else
      let (c, r3) := r2.read_bit
      if !c then
        let (v, r4) := r3.read_3bit_value
        (7 + v, r4)
      else
        let (v, r4) := r3.read_next_byte junk
        (15 + v, r4)

/-- The variables of `decode_diet` that its loops change. -/
structure DietState where
  reader : DietBitReader
  output : List Nat
  idx : Nat
deriving DecidableEq, Repr

/-- The call `output.resize(n)`. -/
def resize (output : List Nat) (n : Nat) : List Nat :=
  output.take n ++ List.replicate (n - output.length) 0

/-- The literal run `while (bit_reader.read_bit()) { ... }` of `decode_diet`. The flag of the
result is `true` when the function returned from inside the loop. -/
def diet_literal_run (junk payload_size : Nat) : Nat → DietState → Outcome (Bool × DietState)
  | 0, _ => .timeout
  | fuel + 1, st =>
    let (b, r1) := st.reader.read_bit
    if b then
      let (v, r2) := r1.read_next_byte junk
      if st.idx < st.output.length then
        let st1 : DietState := { reader := r2, output := st.output.set st.idx v, idx := st.idx + 1 }
        if st1.idx ≥ payload_size then .done (true, st1)
        else diet_literal_run junk payload_size fuel st1
      else .undefinedAccess
    else .done (false, { st with reader := r1 })

/-- The value of `size_t source_idx = idx + offset` for the `int16_t offset` whose bit pattern
is `(off_hi << 8) | off_lo`. -/
def diet_source_idx (idx off_hi off_lo : Nat) : Nat :=
  let w := ((off_hi <<< 8) ||| off_lo) % 65536
  (idx + (if w ≥ 32768 then 2 ^ 64 - 65536 + w else w)) % 2 ^ 64

/-- The copy loop `for (i = 0; i < repeat_count && idx < payload_size; i++)` of `decode_diet`,
with `n` iterations left. -/
def diet_copy (payload_size : Nat) : Nat → List Nat → Nat → Nat → Outcome (List Nat × Nat)
  | 0, output, idx, _ => .done (output, idx)
  | n + 1, output, idx, source_idx =>
    if idx < payload_size then
      match output[source_idx]? with
      | none => .undefinedAccess
      | some v =>
        if idx < output.length then
          diet_copy payload_size n (output.set idx v) (idx + 1) ((source_idx + 1) % 2 ^ 64)
        else .undefinedAccess
    else .done (output, idx)

/-- The back-reference part of the body of the outer loop of `decode_diet` (from the selector
bit to the copy loop). The flag of the result is `true` when the function returned (sentinel). -/
def diet_backref (junk payload_size : Nat) (st : DietState) : Outcome (Bool × DietState) :=
  let (bit, r1) := st.reader.read_bit
  let (off_lo, r2) := r1.read_next_byte junk
  if !bit then
    let (c, r3) := r2.read_bit
    if c then
      let (v, r4) := r3.read_3bit_value
      let off_hi := ((0xF8 ||| v) + 256 - 1) % 256
      (diet_copy payload_size 2 st.output st.idx (diet_source_idx st.idx off_hi off_lo)).map
        fun p => (false, { reader := r4, output := p.1, idx := p.2 })
    else if off_lo = 0xFF then .done (true, { st with reader := r3 })
    else
      (diet_copy payload_size 2 st.output st.idx (diet_source_idx st.idx 0xFF off_lo)).map
        fun p => (false, { reader := r3, output := p.1, idx := p.2 })
  else
    let (off_hi, r3) := read_hi_byte_varlen r2
    let (c, r4) := read_repeat_count_varlen junk r3
    (diet_copy payload_size (2 + c) st.output st.idx (diet_source_idx st.idx off_hi off_lo)).map
      fun p => (false, { reader := r4, output := p.1, idx := p.2 })

/-- The outer loop `while (idx < payload_size)` of `decode_diet`. -/
def diet_loop (junk payload_size : Nat) : Nat → DietState → Outcome DietState
  | 0, _ => .timeout
  | fuel + 1, st =>
    if st.idx < payload_size then
      match diet_literal_run junk payload_size (payload_size + 1) st with
      | .done (true, st1) => .done st1
      | .done (false, st1) =>
        match diet_backref junk payload_size st1 with
        | .done (true, st2) => .done st2
        | .done (false, st2) => diet_loop junk payload_size fuel st2
        | .thrown e => .thrown e
        | .undefinedAccess => .undefinedAccess
        | .timeout => .timeout
      | .thrown e => .thrown e
      | .undefinedAccess => .undefinedAccess
      | .timeout => .timeout
    else .done st

/-- Function `decode_diet`, with the final state of its variables. Every pass of the outer
loop that does not return advances `idx`, so `payload_size + 1` passes are enough. -/
def decode_diet_run (junk : Nat) (input : IStream) (output : List Nat) (payload_size : Nat) :
    Outcome DietState :=
  diet_loop junk payload_size (payload_size + 1)
    { reader := DietBitReader.init input, output := resize output payload_size, idx := 0 }

/-- Function `decode_diet`: the content of `output` when it returns. -/
def decode_diet (junk : Nat) (input : IStream) (output : List Nat) (payload_size : Nat) :
    Outcome (List Nat) :=
  (decode_diet_run junk input output payload_size).map (·.output)

/-! ## LZW: 24-bit codeword reader -/

/-- State of `class LzwCodeWordReader`. -/
structure LzwCodeWordReader where
  stream : IStream
  buf24 : Nat
  missing_bits : Nat
deriving DecidableEq, Repr

/-- The constructor `LzwCodeWordReader(std::istream&)`; the locals `b1`, `b2`, `b3` are
uninitialised. -/
def LzwCodeWordReader.init (junk : Nat) (s : IStream) : LzwCodeWordReader :=
  let (b1, s1) := s.read_u8 junk
  let (b2, s2) := s1.read_u8 junk
  let (b3, s3) := s2.read_u8 junk
  { stream := s3, buf24 := (b1 <<< 16) ||| (b2 <<< 8) ||| b3, missing_bits := 0 }

/-- The loop `while (missing_bits >= 8 && stream.good())` of `read_codeword`. Every pass
takes 8 from `missing_bits`, so `missing_bits` passes are enough. -/
def LzwCodeWordReader.refill : Nat → LzwCodeWordReader → LzwCodeWordReader
  | 0, r => r
  | fuel + 1, r =>
    if r.missing_bits ≥ 8 ∧ r.stream.good = true then
      let missing := r.missing_bits - 8
      match r.stream.read 1 with
      | ([b], s1) =>
        LzwCodeWordReader.refill fuel
          { stream := s1, buf24 := r.buf24 ||| (b <<< missing), missing_bits := missing }
      | (_, s1) =>
        LzwCodeWordReader.refill fuel { stream := s1, buf24 := r.buf24, missing_bits := missing }
    else r

/-- Method `LzwCodeWordReader::read_codeword`. -/
def LzwCodeWordReader.read_codeword (r : LzwCodeWordReader) (nbit : Nat) :
    Nat × LzwCodeWordReader :=
  let cw := r.buf24 >>> (24 - nbit)
  let buf24 := (r.buf24 <<< nbit) &&& 0xFFFFFF
  let missing_bits := r.missing_bits + nbit
  (cw, LzwCodeWordReader.refill missing_bits
    { stream := r.stream, buf24 := buf24, missing_bits := missing_bits })

/-! ## LZW decoder -/

/-- The dictionary `std::unordered_map<int, std::vector<uint8_t>>`, as an association list
that holds every key once. -/
abbrev Dict := List (Nat × List Nat)

/-- The expression `dict[k]` used as a value: a missing key is first inserted with an empty
vector. -/
def Dict.index (d : Dict) (k : Nat) : List Nat × Dict :=
  match d.lookup k with
  | some v => (v, d)
  | none => ([], d ++ [(k, [])])

/-- The assignment `dict[k] = v`. -/
def Dict.assign (d : Dict) (k : Nat) (v : List Nat) : Dict :=
  match d.lookup k with
  | some _ => d.map fun p => if p.1 = k then (k, v) else p
  | none => d ++ [(k, v)]

/-- The dictionary after `dict.clear()` and the loop `dict[i] = {i}` for `i < 256`. -/
def initial_dict : Dict := (List.range 256).map fun i => (i, [i])

/-- Value of `code_clear`. -/
def code_clear (alt_lzw : Bool) : Nat := if alt_lzw then 0x101 else 0x100

/-- Value of `code_end`. -/
def code_end (alt_lzw : Bool) : Nat := if alt_lzw then 0x100 else 0x101

/-- Constant `dict_size_initial`. -/
def dict_size_initial : Nat := 0x102

/-- Constant `dict_limit`. -/
def dict_limit : Nat := 0x1000

/-- The variables of `decode_lzw`. -/
structure LzwState where
  reader : LzwCodeWordReader
  nbit : Nat
  dictsize : Nat
  dict : Dict
  prev : Nat
  output : List Nat
deriving DecidableEq, Repr

/-- The block `if (prev == code_clear) { ... }` at the head of the loop body. -/
def lzw_reset (alt_lzw : Bool) (st : LzwState) : LzwState :=
  if st.prev = code_clear alt_lzw then
    { st with nbit := 9, dictsize := dict_size_initial, dict := initial_dict }
  else st

/-- The element `v[0]` of a vector. -/
def front (v : List Nat) : Outcome Nat :=
  match v with
  | [] => .undefinedAccess
  | b :: _ => .done b

/-- The computation of `newbyte` for a codeword `cw` that is neither sentinel: the byte and the
dictionary afterwards. -/
def lzw_newbyte (alt_lzw : Bool) (st : LzwState) (cw : Nat) : Outcome (Nat × Dict) :=
  if cw < st.dictsize then
    let (v, d) := st.dict.index cw
    (front v).map fun b => (b, d)
  else if st.prev = code_clear alt_lzw ∨ st.dictsize ≥ dict_limit ∨ cw ≠ st.dictsize then
    .thrown .invalidLzwData
  else
    let (v, d) := st.dict.index st.prev
    (front v).map fun b => (b, d)

/-- The block `if ((prev != code_clear) && (dictsize < dict_limit)) { ... }`: the new
dictionary entry and the growth of `dictsize` and `nbit`. -/
def lzw_learn (alt_lzw : Bool) (st : LzwState) (newbyte : Nat) : LzwState :=
  if st.prev ≠ code_clear alt_lzw ∧ st.dictsize < dict_limit then
    let (v, d) := st.dict.index st.prev
    let new_entry := v ++ [newbyte]
    let d1 := Dict.assign d st.dictsize new_entry
    let dictsize := st.dictsize + 1
    let max_dict_size := 1 <<< st.nbit
    { st with dict := d1, dictsize := dictsize,
              nbit := if dictsize = max_dict_size ∧ st.nbit < 12 then st.nbit + 1 else st.nbit }
  else st

/-- The body of the loop of `decode_lzw` after the codeword `cw` was read by the reader that
is now `rd`. -/
def lzw_process (alt_lzw : Bool) (st : LzwState) (cw : Nat) (rd : LzwCodeWordReader) :
    Outcome LzwState :=
  if cw ≠ code_end alt_lzw ∧ cw ≠ code_clear alt_lzw then
    match lzw_newbyte alt_lzw st cw with
    | .done (newbyte, d) =>
      let st1 := lzw_learn alt_lzw { st with dict := d } newbyte
      let (out_data, d2) := st1.dict.index cw
      .done { st1 with reader := rd, dict := d2, output := st1.output ++ out_data, prev := cw }
    | .thrown e => .thrown e
    | .undefinedAccess => .undefinedAccess
    | .timeout => .timeout
  else .done { st with reader := rd, prev := cw }

/-- One pass of the body of the loop `while (prev != code_end)` of `decode_lzw`. -/
def lzw_body (alt_lzw : Bool) (st : LzwState) : Outcome LzwState :=
  let st0 := lzw_reset alt_lzw st
  let (cw, rd) := st0.reader.read_codeword st0.nbit
  lzw_process alt_lzw st0 cw rd

/-- The loop `while (prev != code_end)` of `decode_lzw`. -/
def lzw_loop (alt_lzw : Bool) : Nat → LzwState → Outcome LzwState
  | 0, _ => .timeout
  | fuel + 1, st =>
    if st.prev ≠ code_end alt_lzw then
      match lzw_body alt_lzw st with
      | .done st1 => lzw_loop alt_lzw fuel st1
      | .thrown e => .thrown e
      | .undefinedAccess => .undefinedAccess
      | .timeout => .timeout
    else .done st

/-- The variables of `decode_lzw` when its loop is entered. -/
def lzw_start (alt_lzw : Bool) (junk : Nat) (input : IStream) (output : List Nat) : LzwState :=
  { reader := LzwCodeWordReader.init junk input, nbit := 9, dictsize := dict_size_initial,
    dict := initial_dict, prev := code_clear alt_lzw, output := output }

/-- Function `decode_lzw`, with the final state of its variables. -/
def decode_lzw_run (alt_lzw : Bool) (fuel junk : Nat) (input : IStream) (output : List Nat) :
    Outcome LzwState :=
  lzw_loop alt_lzw fuel (lzw_start alt_lzw junk input output)

/-- Function `decode_lzw`: the content of `output` when it returns. -/
def decode_lzw (alt_lzw : Bool) (fuel junk : Nat) (input : IStream) (output : List Nat) :
    Outcome (List Nat) :=
  (decode_lzw_run alt_lzw fuel junk input output).map (·.output)

/-! ## Huffman: MSB-first single-bit reader -/

/-- State of `class BitReader`. -/
structure BitReader where
  stream : IStream
  bit : Nat
  current_byte : Nat
deriving DecidableEq, Repr

/-- The constructor `BitReader(std::istream&)` (member initialisers `bit = 8`,
`current_byte = 0`). -/
def BitReader.init (s : IStream) : BitReader :=
  { stream := s, bit := 8, current_byte := 0 }

/-- Method `BitReader::is_eof`. -/
def BitReader.is_eof (r : BitReader) : Bool :=
  r.bit == 8 && !r.stream.good

/-- Method `BitReader::read_bit`. -/
def BitReader.read_bit (r : BitReader) (big_endian : Bool) : Bool × BitReader :=
  let r1 : BitReader :=
    if r.bit = 8 then
      let (b, s1) := r.stream.read_u8 r.current_byte
      { stream := s1, bit := 0, current_byte := b }
    else r
  let shift := if big_endian then 7 - r1.bit else r1.bit
  let value := (r1.current_byte &&& (1 <<< shift)) != 0
  (value, { r1 with bit := r1.bit + 1 })

/-- Number of calls of `read_bit` after which `is_eof` holds: the bits left in the current
byte, the bits of the bytes left in the stream, and the 8 bits that are delivered once more
when the read that meets the end of the stream leaves `current_byte` as it was. -/
def BitReader.bits_left (r : BitReader) : Nat :=
  (8 - r.bit) + (if r.stream.good then 8 * (r.stream.rest.length + 1) else 0)

/-! ## Huffman tree reader -/

/-- Method `TtfHuffmanReader::is_parent_node`. -/
def is_parent_node (node : Nat) : Bool :=
  (node &&& 0x8000) == 0

/-- The loop of the constructor `TtfHuffmanReader(std::istream&)` that reads the nodes, with `n`
iterations left; the local `node` is uninitialised. -/
def read_tree_nodes (junk : Nat) : Nat → IStream → List Nat × IStream
  | 0, s => ([], s)
  | n + 1, s =>
    let (node, s1) := s.read_u16 junk
    let v := if is_parent_node node then node >>> 1 else node
    let (t, s2) := read_tree_nodes junk n s1
    (v :: t, s2)

/-- State of `class TtfHuffmanReader`. -/
structure TtfHuffmanReader where
  huffman_tree : List Nat
  bit_reader : BitReader
deriving DecidableEq, Repr

/-- The constructor `TtfHuffmanReader(std::istream&)`; the local `tree_size_bytes` is
uninitialised. -/
def TtfHuffmanReader.init (junk : Nat) (s : IStream) : TtfHuffmanReader :=
  let (tree_size_bytes, s1) := s.read_u16 junk
  let tree_size := tree_size_bytes >>> 1
  let (tree, s2) := read_tree_nodes junk tree_size s1
  { huffman_tree := tree, bit_reader := BitReader.init s2 }

/-- The loop `while (!bit_reader.is_eof())` of `TtfHuffmanReader::read_codeword`; the result
`none` is the return value `-1`. -/
def read_codeword_loop (tree : List Nat) : Nat → BitReader → Nat → Outcome (Option Nat × BitReader)
  | 0, _, _ => .timeout
  | fuel + 1, r, node_idx =>
    if r.is_eof then .done (none, r)
    else
      let (b, r1) := r.read_bit true
      let choose_first := !b
      match tree[if choose_first then node_idx else node_idx + 1]? with
      | none => .undefinedAccess
      | some current_node =>
        if is_parent_node current_node then read_codeword_loop tree fuel r1 current_node
        else .done (some (current_node &&& 0x7FFF), r1)

/-- Method `TtfHuffmanReader::read_codeword`. Every pass of its loop takes a bit, so
`bits_left + 1` passes are enough. -/
def TtfHuffmanReader.read_codeword (tree : List Nat) (r : BitReader) :
    Outcome (Option Nat × BitReader) :=
  read_codeword_loop tree (r.bits_left + 1) r 0

/-! ## Huffman + RLE decoder -/

/-- The variables of `decode_huffman_rle`. -/
structure RleState where
  reader : BitReader
  last : Nat
  output : List Nat
deriving DecidableEq, Repr

/-- The computation of `count` in the `switch (lo)` of `decode_huffman_rle`, for a run symbol
with low byte `lo`: `none` when the function returned because a codeword was `-1`. -/
def rle_count (tree : List Nat) (r : BitReader) (lo : Nat) : Outcome (Option Nat × BitReader) :=
  match lo with
  | 0 =>
    match TtfHuffmanReader.read_codeword tree r with
    | .done (none, r1) => .done (none, r1)
    | .done (some cw, r1) => .done (some cw, r1)
    | .thrown e => .thrown e
    | .undefinedAccess => .undefinedAccess
    | .timeout => .timeout
  | 1 =>
    match TtfHuffmanReader.read_codeword tree r with
    | .done (none, r1) => .done (none, r1)
    | .done (some cw1, r1) =>
      let count_hi := cw1 &&& 0xFF
      match TtfHuffmanReader.read_codeword tree r1 with
      | .done (none, r2) => .done (none, r2)
      | .done (some cw2, r2) =>
        let count_lo := cw2 &&& 0xFF
        .done (some ((count_hi <<< 8) ||| count_lo), r2)
      | .thrown e => .thrown e
      | .undefinedAccess => .undefinedAccess
      | .timeout => .timeout
    | .thrown e => .thrown e
    | .undefinedAccess => .undefinedAccess
    | .timeout => .timeout
  | _ => .done (some lo, r)

/-- The body of the loop of `decode_huffman_rle` for the codeword `cw` (not `-1`) read by the
reader that is now `r`. The flag of the result is `true` when the function returned. -/
def rle_process (tree : List Nat) (st : RleState) (cw : Nat) (r : BitReader) :
    Outcome (Bool × RleState) :=
  let lo := cw &&& 0x00FF
  let hi := cw &&& 0xFF00
  if hi = 0 then
    .done (false, { reader := r, last := lo % 256, output := st.output ++ [lo % 256] })
  else
    match rle_count tree r lo with
    | .done (none, r1) => .done (true, { st with reader := r1 })
    | .done (some count, r1) =>
      .done (false, { st with reader := r1, output := st.output ++ List.replicate count st.last })
    | .thrown e => .thrown e
    | .undefinedAccess => .undefinedAccess
    | .timeout => .timeout

/-- The loop `while ((cw = huffman_reader.read_codeword()) != -1)` of `decode_huffman_rle`. -/
def rle_loop (tree : List Nat) : Nat → RleState → Outcome RleState
  | 0, _ => .timeout
  | fuel + 1, st =>
    match TtfHuffmanReader.read_codeword tree st.reader with
    | .done (none, r1) => .done { st with reader := r1 }
    | .done (some cw, r1) =>
      match rle_process tree st cw r1 with
      | .done (true, st1) => .done st1
      | .done (false, st1) => rle_loop tree fuel st1
      | .thrown e => .thrown e
      | .undefinedAccess => .undefinedAccess
      | .timeout => .timeout
    | .thrown e => .thrown e
    | .undefinedAccess => .undefinedAccess
    | .timeout => .timeout

/-- Function `decode_huffman_rle`, with the final state of its variables. Every pass of the
loop takes a bit or ends it, so `bits_left + 1` passes are enough. -/
def decode_huffman_rle_run (junk : Nat) (input : IStream) (output : List Nat) : Outcome RleState :=
  let h := TtfHuffmanReader.init junk input
  rle_loop h.huffman_tree (h.bit_reader.bits_left + 1)
    { reader := h.bit_reader, last := 0, output := output }

/-- Function `decode_huffman_rle`: the content of `output` when it returns. -/
def decode_huffman_rle (junk : Nat) (input : IStream) (output : List Nat) : Outcome (List Nat) :=
  (decode_huffman_rle_run junk input output).map (·.output)

/-! ## Dispatcher -/

/-- What `unpack` has read from the header before it calls a decoder. -/
inductive Header where
  | diet (payload_size : Nat) (body : IStream)
  | ttf (payload_size : Nat) (type : Nat) (body : IStream)
deriving DecidableEq, Repr

/-- The header part of `unpack` on an opened file: the signature peek, `seekg(0)` (which has
no effect on a failed stream) and the header fields; the locals read are uninitialised. -/
def read_header (junk : Nat) (bytes : List Nat) : Header :=
  let file : IStream := { rest := bytes, good := true }
  let (signature, f1) := file.read_u16 junk
  let f2 := if f1.good then file else f1
  if signature = 0x4CB4 then
    let (_, f3) := f2.read 9
    let f4 := f3.skip 1
    let f5 := f4.skip 4
    let (size_hi_byte, f6) := f5.read_u8 junk
    let payload_size_hi := (size_hi_byte >>> 2) &&& 0x1F
    let (payload_size_lo, f7) := f6.read_u16 junk
    .diet ((payload_size_hi <<< 16) ||| payload_size_lo) f7
  else
    let (first_byte, f3) := f2.read_u8 junk
    let payload_size_hi := first_byte &&& 0x0F
    let (type, f4) := f3.read_u8 junk
    let (payload_size_lo, f5) := f4.read_u16 junk
    .ttf ((payload_size_hi <<< 16) ||| payload_size_lo) type f5

/-- Function `unpack`. The file is `none` when it cannot be opened; `fuel` bounds the passes
of the LZW loop. -/
def unpack (fuel junk : Nat) (file : Option (List Nat)) : Outcome (List Nat) :=
  match file with
  | none => .thrown .cannotOpenFile
  | some bytes =>
    match read_header junk bytes with
    | .diet payload_size body => decode_diet junk body [] payload_size
    | .ttf _ type body =>
      if type = 0x10 then decode_lzw false fuel junk body []
      else decode_huffman_rle junk body []

/-! ## Predicates used in the statements -/

/-- The run finished with a value satisfying `P`, or stopped at an out-of-range access; it
neither threw nor ran out of fuel. -/
def Outcome.Holds {α : Type} (P : α → Prop) : Outcome α → Prop
  | .done a => P a
  | .undefinedAccess => True
  | .thrown _ => False
  | .timeout => False

/-- The state at the head of the loop of `decode_lzw` after `k` complete passes from `st`,
when the loop makes that many passes. -/
def lzw_after (alt_lzw : Bool) : Nat → LzwState → Option LzwState
  | 0, st => some st
  | k + 1, st =>
    if st.prev ≠ code_end alt_lzw then
      match lzw_body alt_lzw st with
      | .done st1 => lzw_after alt_lzw k st1
      | _ => none
    else none

/-- The codeword read in the pass of the loop of `decode_lzw` that starts at `st`. -/
def lzw_codeword (alt_lzw : Bool) (st : LzwState) : Nat :=
  ((lzw_reset alt_lzw st).reader.read_codeword (lzw_reset alt_lzw st).nbit).1

/-- The reader after the codeword of the pass that starts at `st` was read. -/
def lzw_reader_after (alt_lzw : Bool) (st : LzwState) : LzwCodeWordReader :=
  ((lzw_reset alt_lzw st).reader.read_codeword (lzw_reset alt_lzw st).nbit).2

/-- Well-formedness of the dictionary with respect to a bound: every key is below `n` and
occurs once. -/
def DictOk (n : Nat) (d : Dict) : Prop :=
  (∀ p ∈ d, p.1 < n) ∧ (d.map Prod.fst).Nodup

/-- Invariant of the loop of `decode_lzw`: `dictsize` is within the limit, every key of the
dictionary is below `dictsize` and occurs once, and `prev` is a sentinel or a code below
`dictsize`. -/
def LzwInv (alt_lzw : Bool) (st : LzwState) : Prop :=
  st.dictsize ≤ dict_limit ∧ DictOk st.dictsize st.dict ∧
    (st.prev = code_clear alt_lzw ∨ st.prev = code_end alt_lzw ∨ st.prev < st.dictsize)

/-- The values that the variables of `decode_lzw` take inside the pass of the loop that starts
at `st` (none when the loop has ended): after the reset block, after `newbyte` was computed,
and after the new entry was learned (the value at the end of the pass is the start of the next
pass). -/
def lzw_pass_states (alt_lzw : Bool) (st : LzwState) : List LzwState :=
  let st0 := lzw_reset alt_lzw st
  let cw := lzw_codeword alt_lzw st
  if st.prev = code_end alt_lzw then []
  else if cw ≠ code_end alt_lzw ∧ cw ≠ code_clear alt_lzw then
    match lzw_newbyte alt_lzw st0 cw with
    | .done (newbyte, d) =>
      [st0, { st0 with dict := d }, lzw_learn alt_lzw { st0 with dict := d } newbyte]
    | _ => [st0]
  else [st0]

/-- The bits that `read_bit(true)` delivers from `r` until `is_eof` holds (at most `n` of
them). -/
def BitReader.drain : Nat → BitReader → List Bool
  | 0, _ => []
  | n + 1, r =>
    if r.is_eof then []
    else
      let (b, r1) := r.read_bit true
      b :: BitReader.drain n r1

/-- Invariant of the loop of `decode_lzw` about the dictionary entries: `dictsize` is at least
258, every code below `dictsize` other than 256 and 257 (the two sentinels, which have no
entry) has a non-empty entry, and `prev` is below `dictsize`. -/
def LzwEntries (st : LzwState) : Prop :=
  dict_size_initial ≤ st.dictsize ∧
    (∀ k, k < st.dictsize → k ≠ 0x100 → k ≠ 0x101 → ∃ b v, st.dict.lookup k = some (b :: v)) ∧
    st.prev < st.dictsize

/-- The first `n` little-endian 16-bit words of a byte sequence. -/
def le16_words : Nat → List Nat → List Nat
  | n + 1, lo :: hi :: rest => (lo % 256 + 256 * (hi % 256)) :: le16_words n rest
  | _, _ => []

/-- The value stored in `huffman_tree` for the serialized node `w`, told by bit 15. -/
def stored_node (w : Nat) : Nat :=
  if w.testBit 15 then w else w >>> 1

/-- The next `n` bits that `read_bit` delivers from `r`, and the reader after them. -/
def DietBitReader.read_bits : Nat → DietBitReader → List Bool × DietBitReader
  | 0, r => ([], r)
  | n + 1, r =>
    let (b, r1) := r.read_bit
    let (bs, r2) := DietBitReader.read_bits n r1
    (b :: bs, r2)

/-- The repeat count of the variable-length encoding as a function of the bits that follow
(a look-ahead of nine bits), with the reader after the bits, and the byte, that the code
uses up. -/
def repeat_count_of_bits (junk : Nat) (r : DietBitReader) : Nat × DietBitReader :=
  match (r.read_bits 9).1 with
  | true :: _ => (1, (r.read_bits 1).2)
  | false :: true :: _ => (2, (r.read_bits 2).2)
  | false :: false :: true :: _ => (3, (r.read_bits 3).2)
  | false :: false :: false :: true :: _ => (4, (r.read_bits 4).2)
  | false :: false :: false :: false :: true :: b :: _ =>
    (if b then 6 else 5, (r.read_bits 6).2)
  | false :: false :: false :: false :: false :: false :: b1 :: b2 :: b3 :: _ =>
    (7 + (4 * b1.toNat + 2 * b2.toNat + b3.toNat), (r.read_bits 9).2)
  | false :: false :: false :: false :: false :: true :: _ =>
    (15 + ((r.read_bits 6).2.read_next_byte junk).1, ((r.read_bits 6).2.read_next_byte junk).2)
  | _ => (0, r)

/-- Bit `i` of the bit string of a byte stream, taken MSB-first within each byte; the bits
past the end of the stream are 0. -/
def stream_bit (bytes : List Nat) (i : Nat) : Bool :=
  (bytes.getD (i / 8) 0 % 256).testBit (7 - i % 8)

/-- The integer formed by the `n` bits `p, p + 1, ..., p + n - 1` of a bit string, the first
one being the most significant. -/
def bits_value (bit : Nat → Bool) (p : Nat) : Nat → Nat
  | 0 => 0
  | n + 1 => 2 * bits_value bit p n + (bit (p + n)).toNat

/-- Successive calls `read_codeword(n)` for the widths of a list: the codewords returned and
the reader afterwards. -/
def LzwCodeWordReader.read_codewords :
    List Nat → LzwCodeWordReader → List Nat × LzwCodeWordReader
  | [], r => ([], r)
  | n :: ns, r =>
    let (cw, r1) := r.read_codeword n
    let (cws, r2) := LzwCodeWordReader.read_codewords ns r1
    (cw :: cws, r2)

/-- The codewords of the widths of a list cut from the bit string of a byte stream, from bit
`p` on. -/
def codewords_of_bits (bytes : List Nat) : Nat → List Nat → List Nat
  | _, [] => []
  | p, n :: ns => bits_value (stream_bit bytes) p n :: codewords_of_bits bytes (p + n) ns

/-- What the 24-bit buffer of the codeword reader holds when `p` bits of the stream `bytes`
have been handed out: while the stream is good, the bits `p ...` of the stream above
`missing_bits` zero bits, the stream standing right after the last buffered bit; once a read
has failed, the 24 bits `p ...` of the stream padded with zeros. -/
def WindowInv (bytes : List Nat) (p : Nat) (r : LzwCodeWordReader) : Prop :=
  (r.stream.good = true ∧ r.missing_bits ≤ 24 ∧
      (∃ c, r.stream.rest = bytes.drop c ∧ 8 * c + r.missing_bits = p + 24) ∧
      ∀ i, r.buf24.testBit i =
        (decide (i < 24) && decide (r.missing_bits ≤ i) && stream_bit bytes (p + 23 - i))) ∨
    (r.stream.good = false ∧ 8 * bytes.length ≤ p + 24 ∧
      ∀ i, r.buf24.testBit i = (decide (i < 24) && stream_bit bytes (p + 23 - i)))

/-! ## DIET: the parts of a back-reference -/

/-- The value of `static_cast<int16_t>((off_hi << 8) | off_lo)`. -/
def diet_offset (off_hi off_lo : Nat) : Int :=
  let w := ((off_hi <<< 8) ||| off_lo) % 65536
  if w ≥ 32768 then (w : Int) - 65536 else (w : Int)

/-- The part of a back-reference of `decode_diet` that follows the reads of the selector bit
`bit` and of `off_lo` (the `if (!bit) ... else ...` statement): `off_hi` and `repeat_count`,
or `none` when the function returns at the end-of-stream sentinel, and the reader afterwards. -/
def diet_offset_and_count (junk : Nat) (bit : Bool) (off_lo : Nat) (r : DietBitReader) :
    Option (Nat × Nat) × DietBitReader :=
  if !bit then
    let (c, r1) := r.read_bit
    if c then
      let (v, r2) := r1.read_3bit_value
      (some (((0xF8 ||| v) + 256 - 1) % 256, 2), r2)
    else if off_lo = 0xFF then (none, r1)
    else (some (0xFF, 2), r1)
  else
    let (off_hi, r1) := read_hi_byte_varlen r
    let (c, r2) := read_repeat_count_varlen junk r1
    (some (off_hi, 2 + c), r2)

/-- A back-reference of `decode_diet` from the point where the selector bit `bit` and `off_lo`
have been read and the reader is `r`. -/
def diet_backref_tail (junk payload_size : Nat) (output : List Nat) (idx : Nat) (bit : Bool)
    (off_lo : Nat) (r : DietBitReader) : Outcome (Bool × DietState) :=
  match diet_offset_and_count junk bit off_lo r with
  | (none, r1) => .done (true, { reader := r1, output := output, idx := idx })
  | (some (off_hi, repeat_count), r1) =>
    (diet_copy payload_size repeat_count output idx (diet_source_idx idx off_hi off_lo)).map
      fun p => (false, { reader := r1, output := p.1, idx := p.2 })

/-- The fields of the back-reference that `decode_diet` decodes from the reader `r`: the
selector bit, `off_lo`, then `off_hi` and `repeat_count` (`none` at the end-of-stream
sentinel), and the reader afterwards. -/
def diet_backref_fields (junk : Nat) (r : DietBitReader) :
    Bool × Nat × Option (Nat × Nat) × DietBitReader :=
  let (bit, r1) := r.read_bit
  let (off_lo, r2) := r1.read_next_byte junk
  let (f, r3) := diet_offset_and_count junk bit off_lo r2
  (bit, off_lo, f, r3)

/-- One pass of the body of the outer loop `while (idx < payload_size)` of `decode_diet`: the
literal run, then the back-reference. The flag of the result is `true` when the function
returned during the pass. -/
def diet_pass (junk payload_size : Nat) (st : DietState) : Outcome (Bool × DietState) :=
  match diet_literal_run junk payload_size (payload_size + 1) st with
  | .done (true, st1) => .done (true, st1)
  | .done (false, st1) => diet_backref junk payload_size st1
  | .thrown e => .thrown e
  | .undefinedAccess => .undefinedAccess
  | .timeout => .timeout

/-- The accesses of the copy loop of `decode_diet`, with `n` iterations left: for every
iteration that the loop makes, the index read (`source_idx`) and the index written (`idx`). -/
def diet_copy_accesses (payload_size : Nat) : Nat → Nat → Nat → List (Nat × Nat)
  | 0, _, _ => []
  | n + 1, idx, source_idx =>
    if idx < payload_size then
      (source_idx, idx) ::
        diet_copy_accesses payload_size n (idx + 1) ((source_idx + 1) % 2 ^ 64)
    else []

/-- The back-references that the outer loop of `decode_diet` decodes and copies from the state
`st` on, in order: for each one the write position `idx` at which it is decoded, `off_hi`,
`off_lo` and `repeat_count`. -/
def diet_backrefs (junk payload_size : Nat) : Nat → DietState → List (Nat × Nat × Nat × Nat)
  | 0, _ => []
  | fuel + 1, st =>
    if st.idx < payload_size then
      match diet_literal_run junk payload_size (payload_size + 1) st with
      | .done (false, st1) =>
        match diet_backref_fields junk st1.reader with
        | (_, off_lo, some (off_hi, repeat_count), _) =>
          (st1.idx, off_hi, off_lo, repeat_count) ::
            (match diet_backref junk payload_size st1 with
              | .done (false, st2) => diet_backrefs junk payload_size fuel st2
              | _ => [])
        | _ => []
      | _ => []
    else []

/-- Invariant of the loop of `decode_lzw` about the codeword width: `nbit` is between 9 and
12, `dictsize` is at least `2^(nbit-1)`, and `dictsize` is below `2^nbit` unless `nbit = 12`
and `dictsize = 4096`. -/
def LzwWidth (st : LzwState) : Prop :=
  9 ≤ st.nbit ∧ st.nbit ≤ 12 ∧ 2 ^ (st.nbit - 1) ≤ st.dictsize ∧
    (st.dictsize < 2 ^ st.nbit ∨ (st.nbit = 12 ∧ st.dictsize = 4096))

/-! ## Huffman: traversal of the tree -/

/-- The reader after `n` calls of `read_bit(true)`. -/
def BitReader.advance : Nat → BitReader → BitReader
  | 0, r => r
  | n + 1, r => BitReader.advance n (r.read_bit true).2

/-- The condition on a parsed tree under which the indices stay in range: it has at least 2
nodes, and the stored index `c` of every internal node has `c + 1` below the node count. -/
def TreeInRange (tree : List Nat) : Prop :=
  2 ≤ tree.length ∧ ∀ c ∈ tree, is_parent_node c = true → c + 1 < tree.length

/-- Result of following a bit string down a tree: a leaf symbol reached after `depth` bits,
the bits running out before a leaf is reached, or a selected node that the tree does not
have. -/
inductive Walk where
  | leaf (symbol depth : Nat)
  | exhausted
  | outOfRange
deriving DecidableEq, Repr

/-- The traversal in the words of the specification: from the child-pair index `index`, each
bit selects the node at `index` (bit clear) or at `index + 1` (bit set); when the selected
node is internal (bit 15 clear) the traversal continues from its stored index, when it is a
leaf the symbol is its low 15 bits. -/
def tree_walk (tree : List Nat) : List Bool → Nat → Walk
  | [], _ => .exhausted
  | b :: bs, index =>
    match tree[if b then index + 1 else index]? with
    | none => .outOfRange
    | some node =>
      if node.testBit 15 then .leaf (node % 0x8000) 1
      else
        match tree_walk tree bs node with
        | .leaf symbol depth => .leaf symbol (depth + 1)
        | .exhausted => .exhausted
        | .outOfRange => .outOfRange

/-- What the MSB-first bit reader holds when `p` bits of the good stream `bytes` have been
handed out: between two bytes (`bit = 8`) the stream stands at byte `p / 8`; inside a byte,
`current_byte` is byte `p / 8`, `bit` is `p % 8` and the stream stands at the next byte. -/
def BitPos (bytes : List Nat) (p : Nat) (r : BitReader) : Prop :=
  r.stream.good = true ∧
    ((r.bit = 8 ∧ p % 8 = 0 ∧ r.stream.rest = bytes.drop (p / 8)) ∨
      (r.bit < 8 ∧ r.bit = p % 8 ∧ r.current_byte = bytes.getD (p / 8) 0 % 256 ∧
        r.stream.rest = bytes.drop (p / 8 + 1)))

/-! ## Verified properties -/

set_option maxRecDepth 100000

/-! ### DIET: termination and length of the output (C1) -/

theorem Outcome.Holds.imp {α : Type} {P Q : α → Prop} {o : Outcome α} (h : o.Holds P)
    (hPQ : ∀ a, P a → Q a) : o.Holds Q := by
  cases o <;> simp_all [Outcome.Holds]

theorem Outcome.holds_map {α β : Type} {P : β → Prop} {f : α → β} {o : Outcome α} :
    (o.map f).Holds P ↔ o.Holds (fun a => P (f a)) := by
  cases o <;> simp [Outcome.Holds, Outcome.map]

theorem diet_copy_holds (n : Nat) : ∀ (c : Nat) (out : List Nat) (idx src : Nat),
    (diet_copy n c out idx src).Holds fun p =>
      p.1.length = out.length ∧ idx ≤ p.2 ∧ (0 < c → idx < n → idx < p.2) := by
  intro c
  induction c with
  | zero => intro out idx src; simp [diet_copy, Outcome.Holds]
  | succ c ih =>
    intro out idx src
    unfold diet_copy
    split
    · split
      · trivial
      · split
        · refine (ih _ _ _).imp ?_
          intro p hp
          simp only [List.length_set] at hp
          omega
        · trivial
    · rename_i h
      exact ⟨rfl, le_refl _, fun _ h2 => absurd h2 h⟩

theorem diet_literal_run_holds (junk n : Nat) : ∀ (fuel : Nat) (st : DietState),
    st.idx < n → n < st.idx + fuel →
    (diet_literal_run junk n fuel st).Holds fun p =>
      p.2.output.length = st.output.length ∧ st.idx ≤ p.2.idx ∧ (p.1 = false → p.2.idx < n) := by
  intro fuel
  induction fuel with
  | zero => intro st h1 h2; omega
  | succ fuel ih =>
    intro st h1 h2
    unfold diet_literal_run
    rcases hb : st.reader.read_bit with ⟨b, r1⟩
    simp only
    split
    · rcases hv : r1.read_next_byte junk with ⟨v, r2⟩
      simp only
      split
      · split
        · simp [Outcome.Holds]
        · rename_i h3 h4
          refine (ih _ (by simp only; omega) (by simp only; omega)).imp ?_
          intro p hp
          simp only [List.length_set] at hp
          exact ⟨hp.1, by omega, hp.2.2⟩
      · trivial
    · exact ⟨rfl, le_refl _, fun _ => h1⟩

theorem diet_backref_holds (junk n : Nat) (st : DietState) :
    (diet_backref junk n st).Holds fun p =>
      p.2.output.length = st.output.length ∧ st.idx ≤ p.2.idx ∧
        (p.1 = false → st.idx < n → st.idx < p.2.idx) := by
  unfold diet_backref
  rcases st.reader.read_bit with ⟨bit, r1⟩
  dsimp only
  rcases r1.read_next_byte junk with ⟨off_lo, r2⟩
  dsimp only
  split
  · rcases r2.read_bit with ⟨c, r3⟩
    dsimp only
    split
    · rcases r3.read_3bit_value with ⟨v, r4⟩
      simp only [Outcome.holds_map]
      refine (diet_copy_holds _ _ _ _ _).imp ?_
      intro p hp
      exact ⟨hp.1, hp.2.1, fun _ => hp.2.2 (by decide)⟩
    · split
      · simp [Outcome.Holds]
      · simp only [Outcome.holds_map]
        refine (diet_copy_holds _ _ _ _ _).imp ?_
        intro p hp
        exact ⟨hp.1, hp.2.1, fun _ => hp.2.2 (by decide)⟩
  · rcases read_hi_byte_varlen r2 with ⟨off_hi, r3⟩
    dsimp only
    rcases read_repeat_count_varlen junk r3 with ⟨c, r4⟩
    simp only [Outcome.holds_map]
    refine (diet_copy_holds _ _ _ _ _).imp ?_
    intro p hp
    exact ⟨hp.1, hp.2.1, fun _ => hp.2.2 (by omega)⟩

theorem diet_loop_holds (junk n : Nat) : ∀ (fuel : Nat) (st : DietState),
    n - st.idx < fuel → st.output.length = n →
    (diet_loop junk n fuel st).Holds fun st1 => st1.output.length = n := by
  intro fuel
  induction fuel with
  | zero => intro st h1 h2; omega
  | succ fuel ih =>
    intro st h1 h2
    unfold diet_loop
    split
    · rename_i hlt
      have hl := diet_literal_run_holds junk n (n + 1) st hlt (by omega)
      split
      · rename_i st1 heq
        rw [heq] at hl
        exact hl.1.trans h2
      · rename_i st1 heq
        rw [heq] at hl
        have hb := diet_backref_holds junk n st1
        have hlen : st1.output.length = n := hl.1.trans h2
        have hidx : st1.idx < n := hl.2.2 rfl
        split
        · rename_i st2 heq2
          rw [heq2] at hb
          exact hb.1.trans hlen
        · rename_i st2 heq2
          rw [heq2] at hb
          have hadv : st1.idx < st2.idx := hb.2.2 rfl hidx
          have hmono : st.idx ≤ st1.idx := hl.2.1
          exact ih st2 (by omega) (hb.1.trans hlen)
        · rename_i e heq2
          rw [heq2] at hb; exact hb
        · trivial
        · rename_i heq2
          rw [heq2] at hb; exact hb
      · rename_i e heq
        rw [heq] at hl; exact hl
      · trivial
      · rename_i heq
        rw [heq] at hl; exact hl
    · exact h2

theorem length_resize (output : List Nat) (n : Nat) : (resize output n).length = n := by
  simp only [resize, List.length_append, List.length_take, List.length_replicate]
  omega

/-- Claim C1. For every input stream, every content of the uninitialised locals, every initial
`output` and every `payload_size`, `decode_diet` ends: either it returns, and then the output
buffer has exactly `payload_size` bytes, or it stops at an out-of-range `output[source_idx]`. It
never throws and never runs out of the `payload_size + 1` passes of its outer loop. -/
theorem decode_diet_length (junk : Nat) (input : IStream) (output : List Nat)
    (payload_size : Nat) :
    (∃ out, decode_diet junk input output payload_size = .done out ∧
        out.length = payload_size) ∨
      decode_diet junk input output payload_size = .undefinedAccess := by
  have h := diet_loop_holds junk payload_size (payload_size + 1)
    { reader := DietBitReader.init input, output := resize output payload_size, idx := 0 }
    (by simp) (length_resize _ _)
  unfold decode_diet decode_diet_run
  generalize diet_loop junk payload_size (payload_size + 1) _ = o at h
  cases o with
  | done a => exact Or.inl ⟨a.output, rfl, h⟩
  | thrown e => exact h.elim
  | undefinedAccess => exact Or.inr rfl
  | timeout => exact h.elim

/-! ### LZW: the codeword reader and malformed codewords (C2) -/

/-- The fuel given to `refill` by `read_codeword` is enough: the loop ends because its
condition fails. -/
theorem LzwCodeWordReader.refill_condition_fails : ∀ (fuel : Nat) (r : LzwCodeWordReader),
    r.missing_bits < 8 * (fuel + 1) →
    (LzwCodeWordReader.refill fuel r).missing_bits < 8 ∨
      (LzwCodeWordReader.refill fuel r).stream.good = false := by
  intro fuel
  induction fuel with
  | zero =>
    intro r h
    exact Or.inl (by simpa [LzwCodeWordReader.refill] using h)
  | succ fuel ih =>
    intro r h
    unfold LzwCodeWordReader.refill
    split
    · rename_i hc
      split
      · exact ih _ (by simp only; omega)
      · exact ih _ (by simp only; omega)
    · rename_i hc
      by_cases h8 : r.missing_bits < 8
      · exact Or.inl h8
      · refine Or.inr ?_
        cases hg : r.stream.good
        · rfl
        · exact absurd ⟨Nat.le_of_not_lt h8, hg⟩ hc

theorem LzwCodeWordReader.read_codeword_refilled (r : LzwCodeWordReader) (nbit : Nat) :
    (r.read_codeword nbit).2.missing_bits < 8 ∨ (r.read_codeword nbit).2.stream.good = false := by
  unfold LzwCodeWordReader.read_codeword
  exact LzwCodeWordReader.refill_condition_fails _ _ (by simp only; omega)

theorem lzw_loop_succ (alt_lzw : Bool) (fuel : Nat) (st : LzwState) :
    lzw_loop alt_lzw (fuel + 1) st =
      if st.prev ≠ code_end alt_lzw then
        match lzw_body alt_lzw st with
        | .done st1 => lzw_loop alt_lzw fuel st1
        | .thrown e => .thrown e
        | .undefinedAccess => .undefinedAccess
        | .timeout => .timeout
      else .done st := rfl

theorem lzw_body_eq (alt_lzw : Bool) (st : LzwState) :
    lzw_body alt_lzw st =
      lzw_process alt_lzw (lzw_reset alt_lzw st) (lzw_codeword alt_lzw st)
        (lzw_reader_after alt_lzw st) := rfl

theorem lzw_reset_prev (alt_lzw : Bool) (st : LzwState) :
    (lzw_reset alt_lzw st).prev = st.prev := by
  unfold lzw_reset; split <;> rfl

theorem lzw_loop_after (alt_lzw : Bool) (fuel : Nat) : ∀ (k : Nat) (s0 st : LzwState),
    lzw_after alt_lzw k s0 = some st →
    lzw_loop alt_lzw (k + fuel) s0 = lzw_loop alt_lzw fuel st := by
  intro k
  induction k with
  | zero =>
    intro s0 st h
    simp only [lzw_after, Option.some.injEq] at h
    simp [h]
  | succ k ih =>
    intro s0 st h
    rw [Nat.add_right_comm, lzw_loop_succ]
    unfold lzw_after at h
    split at h
    · rename_i hp
      rw [if_pos hp]
      split at h
      · rename_i st1 hb
        simp only [hb]
        exact ih _ _ h
      · exact absurd h (by simp)
    · exact absurd h (by simp)

theorem lzw_body_invalid (alt_lzw : Bool) (st : LzwState)
    (hend : lzw_codeword alt_lzw st ≠ code_end alt_lzw)
    (hclear : lzw_codeword alt_lzw st ≠ code_clear alt_lzw)
    (hbad : (lzw_reset alt_lzw st).dictsize < lzw_codeword alt_lzw st ∨
      (lzw_codeword alt_lzw st = (lzw_reset alt_lzw st).dictsize ∧ st.prev = code_clear alt_lzw)) :
    lzw_body alt_lzw st = .thrown .invalidLzwData := by
  rw [lzw_body_eq]
  unfold lzw_process
  rw [if_pos ⟨hend, hclear⟩]
  have hnb : lzw_newbyte alt_lzw (lzw_reset alt_lzw st) (lzw_codeword alt_lzw st) =
      .thrown .invalidLzwData := by
    unfold lzw_newbyte
    rw [if_neg (by omega), if_pos]
    rw [lzw_reset_prev]
    rcases hbad with h | ⟨_, h⟩
    · exact Or.inr (Or.inr (by omega))
    · exact Or.inl h
  rw [hnb]

theorem read_header_ttf (junk b0 t l0 l1 : Nat) (body : List Nat) (ht : t % 256 ≠ 0x4C) :
    read_header junk (b0 :: t :: l0 :: l1 :: body) =
      .ttf ((((b0 % 256) &&& 0x0F) <<< 16) ||| (l0 % 256 + 256 * (l1 % 256))) (t % 256)
        { rest := body, good := true } := by
  have hsig : b0 % 256 + 256 * (t % 256) ≠ 0x4CB4 := by omega
  simp [read_header, IStream.read_u16, IStream.read_u8, IStream.read, hsig]

/-- Claim C2. Let `st` be the state of `decode_lzw` after `k` passes of its loop on any input, the
loop still running. If the codeword read in the next pass is neither sentinel and is above
`dictsize`, or equals `dictsize` right after a clear code (also at the very start), then that
pass throws "Invalid LZW data" (so no byte is emitted for the codeword and none is substituted),
`decode_lzw` throws it, and so does `unpack` on an LZW container with this payload: no buffer is
returned. -/
theorem lzw_invalid_codeword_throws (alt_lzw : Bool) (k fuel junk : Nat) (input : IStream)
    (output : List Nat) (st : LzwState)
    (hreach : lzw_after alt_lzw k (lzw_start alt_lzw junk input output) = some st)
    (hprev : st.prev ≠ code_end alt_lzw)
    (hend : lzw_codeword alt_lzw st ≠ code_end alt_lzw)
    (hclear : lzw_codeword alt_lzw st ≠ code_clear alt_lzw)
    (hbad : (lzw_reset alt_lzw st).dictsize < lzw_codeword alt_lzw st ∨
      (lzw_codeword alt_lzw st = (lzw_reset alt_lzw st).dictsize ∧
        st.prev = code_clear alt_lzw)) :
    lzw_body alt_lzw st = .thrown .invalidLzwData ∧
      decode_lzw alt_lzw (k + (fuel + 1)) junk input output = .thrown .invalidLzwData ∧
      (alt_lzw = false → output = [] → input.good = true → ∀ b0 l0 l1 : Nat,
        unpack (k + (fuel + 1)) junk (some (b0 :: 0x10 :: l0 :: l1 :: input.rest)) =
          .thrown .invalidLzwData) := by
  have hbody := lzw_body_invalid alt_lzw st hend hclear hbad
  have hdec : decode_lzw alt_lzw (k + (fuel + 1)) junk input output =
      .thrown .invalidLzwData := by
    unfold decode_lzw decode_lzw_run
    rw [lzw_loop_after alt_lzw (fuel + 1) k _ st hreach, lzw_loop_succ, if_pos hprev, hbody]
    rfl
  refine ⟨hbody, hdec, ?_⟩
  intro halt hout hgood b0 l0 l1
  subst halt hout
  obtain ⟨rest, good⟩ := input
  simp only at hgood
  subst hgood
  simp only [unpack, read_header_ttf junk b0 0x10 l0 l1 rest (by decide)]
  exact hdec

theorem lzw_invalid_codeword_throws_witness :
    lzw_codeword false
        ((lzw_after false 2 (lzw_start false 0 ⟨[0x20, 0x90, 0x60, 0x80], true⟩ [])).getD
          (lzw_start false 0 ⟨[], true⟩ [])) = 259 + 1 ∧
      decode_lzw false (2 + (0 + 1)) 0 ⟨[0x20, 0x90, 0x60, 0x80], true⟩ [] =
        .thrown .invalidLzwData ∧
      unpack (2 + (0 + 1)) 0 (some [0, 0x10, 3, 0, 0x20, 0x90, 0x60, 0x80]) =
        .thrown .invalidLzwData :=
  have h := lzw_invalid_codeword_throws false 2 0 0 ⟨[0x20, 0x90, 0x60, 0x80], true⟩ []
    ((lzw_after false 2 (lzw_start false 0 ⟨[0x20, 0x90, 0x60, 0x80], true⟩ [])).getD
      (lzw_start false 0 ⟨[], true⟩ []))
    (by decide) (by decide) (by decide) (by decide) (by decide)
  ⟨by decide, h.2.1, h.2.2 rfl rfl rfl 0 3 0⟩

/-! ### LZW: the dictionary invariant (C3) -/

theorem DictOk.mono {n m : Nat} {d : Dict} (h : DictOk n d) (hnm : n ≤ m) : DictOk m d :=
  ⟨fun p hp => Nat.lt_of_lt_of_le (h.1 p hp) hnm, h.2⟩

theorem DictOk.length_le {n : Nat} {d : Dict} (h : DictOk n d) : d.length ≤ n := by
  have hsub : (d.map Prod.fst).toFinset ⊆ Finset.range n := by
    intro x hx
    simp only [List.mem_toFinset, List.mem_map] at hx
    obtain ⟨p, hp, rfl⟩ := hx
    exact Finset.mem_range.mpr (h.1 p hp)
  have hcard := Finset.card_le_card hsub
  rw [List.toFinset_card_of_nodup h.2, Finset.card_range, List.length_map] at hcard
  exact hcard

theorem DictOk.index {n k : Nat} {d : Dict} (h : DictOk n d) (hk : k < n) :
    DictOk n (d.index k).2 := by
  unfold Dict.index
  split
  · exact h
  · rename_i hnone
    rw [List.lookup_eq_none_iff] at hnone
    refine ⟨?_, ?_⟩
    · intro p hp
      rcases List.mem_append.mp hp with hp | hp
      · exact h.1 p hp
      · simp only [List.mem_singleton] at hp
        subst hp; exact hk
    · simp only [List.map_append, List.map_cons, List.map_nil]
      refine List.Nodup.append h.2 (List.nodup_singleton _) ?_
      intro x hx hx2
      simp only [List.mem_singleton] at hx2
      subst hx2
      obtain ⟨p, hp, rfl⟩ := List.mem_map.mp hx
      simpa using hnone p hp

theorem DictOk.assign {n k : Nat} {d : Dict} (h : DictOk n d) (hk : k < n) (v : List Nat) :
    DictOk n (Dict.assign d k v) := by
  unfold Dict.assign
  split
  · refine ⟨?_, ?_⟩
    · intro p hp
      obtain ⟨q, hq, rfl⟩ := List.mem_map.mp hp
      split
      · exact hk
      · exact h.1 q hq
    · have hkeys : (d.map fun p => if p.1 = k then (k, v) else p).map Prod.fst =
          d.map Prod.fst := by
        rw [List.map_map]
        apply List.map_congr_left
        intro p _
        simp only [Function.comp]
        split
        · rename_i hpk; exact hpk.symm
        · rfl
      rw [hkeys]; exact h.2
  · rename_i hnone
    rw [List.lookup_eq_none_iff] at hnone
    refine ⟨?_, ?_⟩
    · intro p hp
      rcases List.mem_append.mp hp with hp | hp
      · exact h.1 p hp
      · simp only [List.mem_singleton] at hp
        subst hp; exact hk
    · simp only [List.map_append, List.map_cons, List.map_nil]
      refine List.Nodup.append h.2 (List.nodup_singleton _) ?_
      intro x hx hx2
      simp only [List.mem_singleton] at hx2
      subst hx2
      obtain ⟨p, hp, rfl⟩ := List.mem_map.mp hx
      simpa using hnone p hp

theorem initial_dict_keys : initial_dict.map Prod.fst = List.range 256 := by
  unfold initial_dict
  rw [List.map_map]
  exact List.map_id _

theorem initial_dict_ok : DictOk dict_size_initial initial_dict := by
  refine ⟨?_, ?_⟩
  · intro p hp
    have : p.1 ∈ initial_dict.map Prod.fst := List.mem_map_of_mem _ hp
    rw [initial_dict_keys, List.mem_range] at this
    unfold dict_size_initial; omega
  · rw [initial_dict_keys]; exact List.nodup_range 256


theorem lzw_reset_inv (alt_lzw : Bool) (st : LzwState) (h : LzwInv alt_lzw st) :
    LzwInv alt_lzw (lzw_reset alt_lzw st) := by
  unfold lzw_reset
  split
  · rename_i hp
    exact ⟨(by decide : dict_size_initial ≤ dict_limit), initial_dict_ok, Or.inl hp⟩
  · exact h

theorem lzw_newbyte_ok (alt_lzw : Bool) (st : LzwState) (cw b : Nat) (d : Dict)
    (h : LzwInv alt_lzw st) (hprev : st.prev ≠ code_end alt_lzw)
    (hnb : lzw_newbyte alt_lzw st cw = .done (b, d)) :
    DictOk st.dictsize d ∧
      (cw < st.dictsize ∨
        (cw = st.dictsize ∧ st.prev ≠ code_clear alt_lzw ∧ st.dictsize < dict_limit)) := by
  obtain ⟨_, hd, hp⟩ := h
  unfold lzw_newbyte at hnb
  split at hnb
  · rename_i hlt
    have hidx := hd.index hlt
    rcases hi : st.dict.index cw with ⟨v, d1⟩
    rw [hi] at hnb hidx
    cases v with
    | nil => simp [front, Outcome.map] at hnb
    | cons x xs =>
      simp only [front, Outcome.map, Outcome.done.injEq, Prod.mk.injEq] at hnb
      obtain ⟨_, rfl⟩ := hnb
      exact ⟨hidx, Or.inl hlt⟩
  · split at hnb
    · simp at hnb
    · rename_i hge hcond
      have hc : st.prev ≠ code_clear alt_lzw ∧ st.dictsize < dict_limit ∧ cw = st.dictsize := by
        refine ⟨fun hh => hcond (Or.inl hh), ?_, ?_⟩
        · exact Nat.lt_of_not_le fun hh => hcond (Or.inr (Or.inl hh))
        · exact Classical.not_not.mp fun hh => hcond (Or.inr (Or.inr hh))
      have hplt : st.prev < st.dictsize := by
        rcases hp with hp | hp | hp
        · exact absurd hp hc.1
        · exact absurd hp hprev
        · exact hp
      have hidx := hd.index hplt
      rcases hi : st.dict.index st.prev with ⟨v, d1⟩
      rw [hi] at hnb hidx
      cases v with
      | nil => simp [front, Outcome.map] at hnb
      | cons x xs =>
        simp only [front, Outcome.map, Outcome.done.injEq, Prod.mk.injEq] at hnb
        obtain ⟨_, rfl⟩ := hnb
        exact ⟨hidx, Or.inr ⟨hc.2.2, hc.1, hc.2.1⟩⟩

theorem lzw_learn_ok (alt_lzw : Bool) (st : LzwState) (b : Nat)
    (h : LzwInv alt_lzw st) (hprev : st.prev ≠ code_end alt_lzw) :
    LzwInv alt_lzw (lzw_learn alt_lzw st b) ∧
      st.dictsize ≤ (lzw_learn alt_lzw st b).dictsize ∧
      (st.prev ≠ code_clear alt_lzw → st.dictsize < dict_limit →
        (lzw_learn alt_lzw st b).dictsize = st.dictsize + 1) ∧
      (lzw_learn alt_lzw st b).prev = st.prev := by
  obtain ⟨hsz, hd, hp⟩ := h
  unfold lzw_learn
  split
  · rename_i hc
    have hplt : st.prev < st.dictsize := by
      rcases hp with hp | hp | hp
      · exact absurd hp hc.1
      · exact absurd hp hprev
      · exact hp
    have hidx := hd.index hplt
    rcases hi : st.dict.index st.prev with ⟨v, d1⟩
    rw [hi] at hidx
    have hass := (hidx.mono (Nat.le_succ _)).assign (Nat.lt_succ_self st.dictsize) (v ++ [b])
    have hlim : st.dictsize < dict_limit := hc.2
    refine ⟨⟨?_, hass, Or.inr (Or.inr ?_)⟩, ?_, fun _ _ => rfl, rfl⟩
    · show st.dictsize + 1 ≤ dict_limit
      omega
    · show st.prev < st.dictsize + 1
      omega
    · show st.dictsize ≤ st.dictsize + 1
      omega
  · rename_i hc
    exact ⟨⟨hsz, hd, hp⟩, le_refl _, fun h1 h2 => absurd ⟨h1, h2⟩ hc, rfl⟩

theorem lzw_process_inv (alt_lzw : Bool) (st st1 : LzwState) (cw : Nat) (rd : LzwCodeWordReader)
    (h : LzwInv alt_lzw st) (hprev : st.prev ≠ code_end alt_lzw)
    (hb : lzw_process alt_lzw st cw rd = .done st1) : LzwInv alt_lzw st1 := by
  unfold lzw_process at hb
  split at hb
  · split at hb
    · rename_i newbyte d hnb
      obtain ⟨hd, hcw⟩ := lzw_newbyte_ok alt_lzw st cw newbyte d h hprev hnb
      have hinv0 : LzwInv alt_lzw { st with dict := d } := ⟨h.1, hd, h.2.2⟩
      obtain ⟨hl, hmono, hgrow, _⟩ := lzw_learn_ok alt_lzw { st with dict := d } newbyte hinv0 hprev
      have hlt : cw < (lzw_learn alt_lzw { st with dict := d } newbyte).dictsize := by
        rcases hcw with hcw | ⟨h1, h2, h3⟩
        · exact Nat.lt_of_lt_of_le hcw hmono
        · have := hgrow h2 h3
          simp only at this
          omega
      have hidx := hl.2.1.index hlt
      rcases hi : (lzw_learn alt_lzw { st with dict := d } newbyte).dict.index cw with ⟨o, d2⟩
      rw [hi] at hidx
      simp only [hi, Outcome.done.injEq] at hb
      subst hb
      exact ⟨hl.1, hidx, Or.inr (Or.inr hlt)⟩
    · simp at hb
    · simp at hb
    · simp at hb
  · rename_i hc
    simp only [Outcome.done.injEq] at hb
    subst hb
    refine ⟨h.1, h.2.1, ?_⟩
    by_cases he : cw = code_end alt_lzw
    · exact Or.inr (Or.inl he)
    · by_cases hcl : cw = code_clear alt_lzw
      · exact Or.inl hcl
      · exact absurd ⟨he, hcl⟩ hc

theorem lzw_body_inv (alt_lzw : Bool) (st st1 : LzwState)
    (h : LzwInv alt_lzw st) (hprev : st.prev ≠ code_end alt_lzw)
    (hb : lzw_body alt_lzw st = .done st1) : LzwInv alt_lzw st1 := by
  rw [lzw_body_eq] at hb
  exact lzw_process_inv alt_lzw _ st1 _ _ (lzw_reset_inv alt_lzw st h)
    (by rw [lzw_reset_prev]; exact hprev) hb

theorem lzw_start_inv (alt_lzw : Bool) (junk : Nat) (input : IStream) (output : List Nat) :
    LzwInv alt_lzw (lzw_start alt_lzw junk input output) :=
  ⟨(by decide : dict_size_initial ≤ dict_limit), initial_dict_ok, Or.inl rfl⟩

theorem lzw_after_inv (alt_lzw : Bool) : ∀ (k : Nat) (s0 st : LzwState),
    LzwInv alt_lzw s0 → lzw_after alt_lzw k s0 = some st → LzwInv alt_lzw st := by
  intro k
  induction k with
  | zero =>
    intro s0 st h0 h
    simp only [lzw_after, Option.some.injEq] at h
    subst h; exact h0
  | succ k ih =>
    intro s0 st h0 h
    unfold lzw_after at h
    split at h
    · rename_i hp
      split at h
      · rename_i st1 hb
        exact ih st1 st (lzw_body_inv alt_lzw s0 st1 h0 hp hb) h
      · exact absurd h (by simp)
    · exact absurd h (by simp)


theorem LzwInv.bounds {alt_lzw : Bool} {st : LzwState} (h : LzwInv alt_lzw st) :
    st.dictsize ≤ 0x1000 ∧ st.dict.length ≤ 0x1000 :=
  ⟨h.1, Nat.le_trans h.2.1.length_le h.1⟩

/-- Claim C3. In every state that `decode_lzw` reaches on any input, at the head of a pass of
its loop and inside the pass, `dictsize` is at most 4096 and the dictionary holds at most 4096
entries. -/
theorem lzw_dictionary_bounded (alt_lzw : Bool) (junk k : Nat) (input : IStream)
    (output : List Nat) (st : LzwState)
    (hreach : lzw_after alt_lzw k (lzw_start alt_lzw junk input output) = some st) :
    ∀ s ∈ st :: lzw_pass_states alt_lzw st, s.dictsize ≤ 0x1000 ∧ s.dict.length ≤ 0x1000 := by
  have hinv := lzw_after_inv alt_lzw k _ st (lzw_start_inv alt_lzw junk input output) hreach
  have h0 := lzw_reset_inv alt_lzw st hinv
  intro s hs
  rcases List.mem_cons.mp hs with hs | hs
  · subst hs; exact hinv.bounds
  · unfold lzw_pass_states at hs
    simp only at hs
    split at hs
    · simp at hs
    · rename_i hprev
      have hprev0 : (lzw_reset alt_lzw st).prev ≠ code_end alt_lzw := by
        rw [lzw_reset_prev]; exact hprev
      split at hs
      · split at hs
        · rename_i newbyte d hnb
          obtain ⟨hd, _⟩ := lzw_newbyte_ok alt_lzw _ _ newbyte d h0 hprev0 hnb
          have hinv1 : LzwInv alt_lzw { lzw_reset alt_lzw st with dict := d } :=
            ⟨h0.1, hd, h0.2.2⟩
          simp only [List.mem_cons, List.mem_singleton, List.not_mem_nil, or_false] at hs
          rcases hs with hs | hs | hs
          · subst hs; exact h0.bounds
          · subst hs; exact hinv1.bounds
          · subst hs
            exact (lzw_learn_ok alt_lzw _ newbyte hinv1 hprev0).1.bounds
        · simp only [List.mem_singleton] at hs
          subst hs; exact h0.bounds
      · simp only [List.mem_singleton] at hs
        subst hs; exact h0.bounds

theorem lzw_dictionary_bounded_witness :
    lzw_after false 2 (lzw_start false 0 ⟨[0x20, 0x90, 0x60, 0x80], true⟩ []) =
        some ((lzw_after false 2 (lzw_start false 0 ⟨[0x20, 0x90, 0x60, 0x80], true⟩ [])).getD
          (lzw_start false 0 ⟨[], true⟩ [])) ∧
      ((lzw_after false 2 (lzw_start false 0 ⟨[0x20, 0x90, 0x60, 0x80], true⟩ [])).getD
          (lzw_start false 0 ⟨[], true⟩ [])).dictsize ≤ 0x1000 ∧
      ((lzw_after false 2 (lzw_start false 0 ⟨[0x20, 0x90, 0x60, 0x80], true⟩ [])).getD
          (lzw_start false 0 ⟨[], true⟩ [])).dict.length ≤ 0x1000 :=
  ⟨by decide,
    lzw_dictionary_bounded false 0 2 ⟨[0x20, 0x90, 0x60, 0x80], true⟩ []
      ((lzw_after false 2 (lzw_start false 0 ⟨[0x20, 0x90, 0x60, 0x80], true⟩ [])).getD
        (lzw_start false 0 ⟨[], true⟩ []))
      (by decide) _ (List.mem_cons_self _ _)⟩

/-! ### LZW: the reset on the clear code (C4) -/

theorem lookup_singletons (i : Nat) : ∀ (n s : Nat),
    ((List.range' s n).map fun j => (j, [j])).lookup i =
      if s ≤ i ∧ i < s + n then some [i] else none := by
  intro n
  induction n with
  | zero =>
    intro s
    rw [if_neg (by omega)]
    rfl
  | succ n ih =>
    intro s
    rw [List.range'_succ, List.map_cons, List.lookup_cons]
    by_cases h : i = s
    · subst h
      simp
    · have hne : (i == s) = false := by simpa using h
      rw [hne, ih]
      simp only
      by_cases h1 : s + 1 ≤ i ∧ i < s + 1 + n
      · rw [if_pos h1, if_pos (by omega)]
      · rw [if_neg h1, if_neg (by omega)]

theorem initial_dict_lookup (i : Nat) :
    initial_dict.lookup i = if i < 256 then some [i] else none := by
  unfold initial_dict
  rw [List.range_eq_range', lookup_singletons]
  simp

theorem initial_dict_length : initial_dict.length = 256 := by
  simp [initial_dict]

/-- Claim C4. Whatever the state of `decode_lzw` is, when `prev` is the clear code the next
codeword is read and processed in the reset state: `dictsize` is 258, `nbit` is 9 and the
dictionary is exactly the 256 singletons `i -> [i]`, `i < 256`, with no other entry. The loop is
entered with `prev` equal to the clear code, so this also holds at the very start. -/
theorem lzw_clear_resets (alt_lzw : Bool) (st : LzwState)
    (hprev : st.prev = code_clear alt_lzw) :
    (lzw_reset alt_lzw st).dictsize = 0x102 ∧ (lzw_reset alt_lzw st).nbit = 9 ∧
      (lzw_reset alt_lzw st).dict.length = 256 ∧
      (∀ i, (lzw_reset alt_lzw st).dict.lookup i = if i < 256 then some [i] else none) ∧
      lzw_body alt_lzw st =
        lzw_process alt_lzw
          { st with nbit := 9, dictsize := 0x102, dict := initial_dict }
          (st.reader.read_codeword 9).1 (st.reader.read_codeword 9).2 ∧
      ∀ junk input output, (lzw_start alt_lzw junk input output).prev = code_clear alt_lzw := by
  have hr : lzw_reset alt_lzw st =
      { st with nbit := 9, dictsize := 0x102, dict := initial_dict } := by
    unfold lzw_reset
    rw [if_pos hprev]
    rfl
  refine ⟨by rw [hr], by rw [hr], by rw [hr]; exact initial_dict_length,
    fun i => by rw [hr]; exact initial_dict_lookup i, ?_, fun _ _ _ => rfl⟩
  rw [lzw_body_eq, lzw_codeword, lzw_reader_after, hr]

theorem lzw_clear_resets_witness :
    (0x100 = code_clear false) ∧ (lzw_reset false
      { reader := ⟨⟨[], false⟩, 0, 3⟩, nbit := 11, dictsize := 1500, dict := [(7, [1, 2])],
        prev := 0x100, output := [] }).dictsize = 0x102 :=
  ⟨rfl, (lzw_clear_resets false
    { reader := ⟨⟨[], false⟩, 0, 3⟩, nbit := 11, dictsize := 1500, dict := [(7, [1, 2])],
      prev := 0x100, output := [] } rfl).1⟩

/-! ### LZW: an exhausted source (C5) -/

theorem Dict.index_lookup_some {d : Dict} {j : Nat} {x : List Nat} (k : Nat)
    (h : d.lookup j = some x) : (d.index k).2.lookup j = some x := by
  unfold Dict.index
  split
  · exact h
  · simp only [List.lookup_append, h, Option.or_some]

theorem lookup_map_replace (k j : Nat) (v : List Nat) (hjk : j ≠ k) : ∀ d : Dict,
    (d.map fun p => if p.1 = k then (k, v) else p).lookup j = d.lookup j := by
  intro d
  induction d with
  | nil => rfl
  | cons p d ih =>
    obtain ⟨a, w⟩ := p
    rw [List.map_cons, List.lookup_cons, List.lookup_cons, ih]
    by_cases hak : a = k
    · subst hak
      have hne : (j == a) = false := by simpa using hjk
      simp [hne]
    · simp [hak]

theorem Dict.assign_lookup_ne {d : Dict} {k j : Nat} (v : List Nat) (hjk : j ≠ k) :
    (Dict.assign d k v).lookup j = d.lookup j := by
  unfold Dict.assign
  split
  · exact lookup_map_replace k j v hjk d
  · have hne : (j == k) = false := by simpa using hjk
    simp [List.lookup_append, List.lookup_cons, hne]

theorem refill_exhausted : ∀ (fuel : Nat) (r : LzwCodeWordReader), r.stream.rest = [] →
    (LzwCodeWordReader.refill fuel r).buf24 = r.buf24 ∧
      (LzwCodeWordReader.refill fuel r).stream.rest = [] := by
  intro fuel
  induction fuel with
  | zero => intro r h; exact ⟨rfl, h⟩
  | succ fuel ih =>
    intro r h
    unfold LzwCodeWordReader.refill
    split
    · rename_i hc
      have hread : r.stream.read 1 = ([], { rest := [], good := false }) := by
        simp [IStream.read, hc.2, h]
      rw [hread]
      exact ih _ rfl
    · exact ⟨rfl, h⟩

theorem read_codeword_exhausted (r : LzwCodeWordReader) (nbit : Nat) (hb : r.buf24 = 0)
    (hs : r.stream.rest = []) :
    (r.read_codeword nbit).1 = 0 ∧ (r.read_codeword nbit).2.buf24 = 0 ∧
      (r.read_codeword nbit).2.stream.rest = [] := by
  unfold LzwCodeWordReader.read_codeword
  have h := refill_exhausted (r.missing_bits + nbit)
    { stream := r.stream, buf24 := (r.buf24 <<< nbit) &&& 0xFFFFFF,
      missing_bits := r.missing_bits + nbit } hs
  refine ⟨by simp [hb], ?_, h.2⟩
  rw [h.1]
  simp [hb]

theorem Dict.index_of_lookup {d : Dict} {k : Nat} {x : List Nat} (h : d.lookup k = some x) :
    d.index k = (x, d) := by
  unfold Dict.index
  rw [h]

theorem lzw_reset_reader (alt_lzw : Bool) (st : LzwState) :
    (lzw_reset alt_lzw st).reader = st.reader := by
  unfold lzw_reset; split <;> rfl

theorem lzw_reset_keeps_zero (alt_lzw : Bool) (st : LzwState)
    (hsz : 1 ≤ st.dictsize) (hd : ∃ b v, st.dict.lookup 0 = some (b :: v)) :
    1 ≤ (lzw_reset alt_lzw st).dictsize ∧
      ∃ b v, (lzw_reset alt_lzw st).dict.lookup 0 = some (b :: v) := by
  unfold lzw_reset
  split
  · exact ⟨(by decide : 1 ≤ dict_size_initial), 0, [], by
      show initial_dict.lookup 0 = some [0]
      rw [initial_dict_lookup]; rfl⟩
  · exact ⟨hsz, hd⟩

theorem lzw_learn_keeps_zero (alt_lzw : Bool) (st : LzwState) (newbyte : Nat)
    (hsz : 1 ≤ st.dictsize) (hd : ∃ b v, st.dict.lookup 0 = some (b :: v)) :
    1 ≤ (lzw_learn alt_lzw st newbyte).dictsize ∧
      ∃ b v, (lzw_learn alt_lzw st newbyte).dict.lookup 0 = some (b :: v) := by
  obtain ⟨b, v, hl⟩ := hd
  unfold lzw_learn
  split
  · rcases hi : st.dict.index st.prev with ⟨w, d1⟩
    have h1 : d1.lookup 0 = some (b :: v) := by
      have := Dict.index_lookup_some st.prev hl
      rw [hi] at this
      exact this
    refine ⟨Nat.le_succ_of_le hsz, b, v, ?_⟩
    show (Dict.assign d1 st.dictsize (w ++ [newbyte])).lookup 0 = some (b :: v)
    rw [Dict.assign_lookup_ne _ (by omega)]
    exact h1
  · exact ⟨hsz, b, v, hl⟩

theorem zero_not_sentinel (alt_lzw : Bool) :
    (0 : Nat) ≠ code_end alt_lzw ∧ (0 : Nat) ≠ code_clear alt_lzw := by
  cases alt_lzw <;> decide

/-- One pass of the loop of `decode_lzw` from a state in which the source is used up and the
24-bit buffer holds no set bit any more: the codeword is 0 and the state is again of this
kind. -/
theorem lzw_body_exhausted (alt_lzw : Bool) (st : LzwState)
    (hb : st.reader.buf24 = 0) (hs : st.reader.stream.rest = [])
    (hsz : 1 ≤ st.dictsize) (hd : ∃ b v, st.dict.lookup 0 = some (b :: v)) :
    ∃ st1, lzw_body alt_lzw st = .done st1 ∧ st1.reader.buf24 = 0 ∧
      st1.reader.stream.rest = [] ∧ 1 ≤ st1.dictsize ∧
      (∃ b v, st1.dict.lookup 0 = some (b :: v)) ∧ st1.prev = 0 := by
  have hrd := read_codeword_exhausted (lzw_reset alt_lzw st).reader (lzw_reset alt_lzw st).nbit
    (by rw [lzw_reset_reader]; exact hb) (by rw [lzw_reset_reader]; exact hs)
  obtain ⟨hsz0, b, v, hl0⟩ := lzw_reset_keeps_zero alt_lzw st hsz hd
  have hcw : lzw_codeword alt_lzw st = 0 := hrd.1
  rw [lzw_body_eq, hcw]
  unfold lzw_process
  rw [if_pos (zero_not_sentinel alt_lzw)]
  have hnb : lzw_newbyte alt_lzw (lzw_reset alt_lzw st) 0 =
      .done (b, (lzw_reset alt_lzw st).dict) := by
    unfold lzw_newbyte
    rw [if_pos (by omega), Dict.index_of_lookup hl0]
    rfl
  rw [hnb]
  obtain ⟨hsz1, b1, v1, hl1⟩ := lzw_learn_keeps_zero alt_lzw
    { lzw_reset alt_lzw st with dict := (lzw_reset alt_lzw st).dict } b hsz0 ⟨b, v, hl0⟩
  simp only [Dict.index_of_lookup hl1]
  exact ⟨_, rfl, hrd.2.1, hrd.2.2, hsz1, ⟨b1, v1, hl1⟩, rfl⟩

theorem lzw_loop_exhausted (alt_lzw : Bool) : ∀ (fuel : Nat) (st : LzwState),
    st.reader.buf24 = 0 → st.reader.stream.rest = [] → st.prev ≠ code_end alt_lzw →
    1 ≤ st.dictsize → (∃ b v, st.dict.lookup 0 = some (b :: v)) →
    lzw_loop alt_lzw fuel st = .timeout := by
  intro fuel
  induction fuel with
  | zero => intro st _ _ _ _ _; rfl
  | succ fuel ih =>
    intro st hb hs hp hsz hd
    obtain ⟨st1, hbody, hb1, hs1, hsz1, hd1, hp1⟩ := lzw_body_exhausted alt_lzw st hb hs hsz hd
    rw [lzw_loop_succ, if_pos hp, hbody]
    exact ih st1 hb1 hs1 (by rw [hp1]; exact (zero_not_sentinel alt_lzw).1) hsz1 hd1

/-- Claim C5 fails on the code. On the three-byte LZW stream `00 00 00`, which is used up
without an end code, `decode_lzw` neither returns nor throws, whatever the number of passes
allowed: every codeword read from the exhausted source is 0, a valid literal. The same holds
for `unpack` on the LZW container with this payload. -/
theorem decode_lzw_exhausted_never_returns (alt_lzw : Bool) (fuel junk : Nat)
    (output : List Nat) :
    decode_lzw alt_lzw fuel junk ⟨[0, 0, 0], true⟩ output = .timeout ∧
      unpack fuel junk (some [0, 0x10, 0, 0, 0, 0, 0]) = .timeout := by
  have h : ∀ a out, decode_lzw a fuel junk ⟨[0, 0, 0], true⟩ out = .timeout := by
    intro a out
    unfold decode_lzw decode_lzw_run
    have hp : code_clear a ≠ code_end a := by cases a <;> decide
    rw [lzw_loop_exhausted a fuel _ rfl rfl hp (by decide : 1 ≤ dict_size_initial)
      ⟨0, [], by
        show initial_dict.lookup 0 = some [0]
        rw [initial_dict_lookup]; rfl⟩]
    rfl
  refine ⟨h alt_lzw output, ?_⟩
  simp only [unpack, read_header_ttf junk 0 0x10 0 0 [0, 0, 0] (by decide)]
  exact h false []

/-! ### Huffman + RLE: the loop and its termination -/

theorem and_255_mod (cw : Nat) : (cw &&& 0x00FF) % 256 = cw &&& 0x00FF :=
  Nat.mod_eq_of_lt (Nat.lt_of_le_of_lt Nat.and_le_right (by decide))

theorem rle_loop_succ (tree : List Nat) (fuel : Nat) (st : RleState) :
    rle_loop tree (fuel + 1) st =
      match TtfHuffmanReader.read_codeword tree st.reader with
      | .done (none, r1) => .done { st with reader := r1 }
      | .done (some cw, r1) =>
        match rle_process tree st cw r1 with
        | .done (true, st1) => .done st1
        | .done (false, st1) => rle_loop tree fuel st1
        | .thrown e => .thrown e
        | .undefinedAccess => .undefinedAccess
        | .timeout => .timeout
      | .thrown e => .thrown e
      | .undefinedAccess => .undefinedAccess
      | .timeout => .timeout := rfl

theorem rle_process_literal (tree : List Nat) (st : RleState) (cw : Nat) (r : BitReader)
    (h : cw &&& 0xFF00 = 0) :
    rle_process tree st cw r =
      .done (false, { reader := r, last := cw &&& 0xFF, output := st.output ++ [cw &&& 0xFF] }) := by
  unfold rle_process
  simp only [h, if_true, and_255_mod]

theorem rle_process_run (tree : List Nat) (st : RleState) (cw : Nat) (r : BitReader)
    (h : cw &&& 0xFF00 ≠ 0) (hn : 2 ≤ cw &&& 0xFF) :
    rle_process tree st cw r =
      .done (false, { st with reader := r,
                              output := st.output ++ List.replicate (cw &&& 0xFF) st.last }) := by
  unfold rle_process
  simp only [h, if_false]
  have hc : rle_count tree r (cw &&& 0xFF) = .done (some (cw &&& 0xFF), r) := by
    unfold rle_count
    split
    · rename_i h0; omega
    · rename_i h1; omega
    · rfl
  rw [hc]

theorem BitReader.read_bit_bits_left (r : BitReader) (big_endian : Bool)
    (heof : r.is_eof = false) (hbit : r.bit ≤ 8) :
    (r.read_bit big_endian).2.bits_left + 1 = r.bits_left ∧
      (r.read_bit big_endian).2.bit ≤ 8 := by
  obtain ⟨⟨rest, good⟩, bit, cur⟩ := r
  unfold BitReader.read_bit BitReader.bits_left
  simp only [BitReader.is_eof, Bool.and_eq_false_imp, beq_iff_eq, Bool.not_eq_false'] at heof
  simp only at hbit ⊢
  by_cases h8 : bit = 8
  · have hg := heof h8
    subst h8 hg
    cases rest with
    | nil => simp [IStream.read_u8, IStream.read]
    | cons b t =>
      simp [IStream.read_u8, IStream.read]
      omega
  · rw [if_neg h8]
    simp only
    constructor
    · omega
    · omega


theorem read_codeword_loop_holds (tree : List Nat) : ∀ (fuel : Nat) (r : BitReader) (idx : Nat),
    r.bit ≤ 8 → r.bits_left < fuel →
    (read_codeword_loop tree fuel r idx).Holds fun p =>
      p.2.bit ≤ 8 ∧ p.2.bits_left ≤ r.bits_left ∧ (p.1.isSome → p.2.bits_left < r.bits_left) := by
  intro fuel
  induction fuel with
  | zero => intro r idx _ h; omega
  | succ fuel ih =>
    intro r idx hbit hfuel
    unfold read_codeword_loop
    split
    · exact ⟨hbit, le_refl _, fun h => absurd h (by simp)⟩
    · rename_i heof
      have heof2 : r.is_eof = false := by simpa using heof
      obtain ⟨hdec, hbit1⟩ := BitReader.read_bit_bits_left r true heof2 hbit
      rcases hrb : r.read_bit true with ⟨b, r1⟩
      rw [hrb] at hdec hbit1
      simp only at hdec hbit1 ⊢
      split
      · trivial
      · split
        · refine (ih r1 _ hbit1 (by omega)).imp ?_
          intro p hp
          exact ⟨hp.1, by omega, fun _ => by omega⟩
        · show r1.bit ≤ 8 ∧ r1.bits_left ≤ r.bits_left ∧ (_ → r1.bits_left < r.bits_left)
          exact ⟨hbit1, by omega, fun _ => by omega⟩

theorem read_codeword_holds (tree : List Nat) (r : BitReader) (hbit : r.bit ≤ 8) :
    (TtfHuffmanReader.read_codeword tree r).Holds fun p =>
      p.2.bit ≤ 8 ∧ p.2.bits_left ≤ r.bits_left ∧ (p.1.isSome → p.2.bits_left < r.bits_left) :=
  read_codeword_loop_holds tree _ r 0 hbit (Nat.lt_succ_self _)

theorem rle_count_holds (tree : List Nat) (r : BitReader) (lo : Nat) (hbit : r.bit ≤ 8) :
    (rle_count tree r lo).Holds fun p => p.2.bit ≤ 8 ∧ p.2.bits_left ≤ r.bits_left := by
  unfold rle_count
  split
  · have h1 := read_codeword_holds tree r hbit
    split
    · rename_i r1 heq; rw [heq] at h1; exact ⟨h1.1, h1.2.1⟩
    · rename_i cw r1 heq; rw [heq] at h1; exact ⟨h1.1, h1.2.1⟩
    · rename_i e heq; rw [heq] at h1; exact h1
    · trivial
    · rename_i heq; rw [heq] at h1; exact h1
  · have h1 := read_codeword_holds tree r hbit
    split
    · rename_i r1 heq; rw [heq] at h1; exact ⟨h1.1, h1.2.1⟩
    · rename_i cw1 r1 heq
      rw [heq] at h1
      have h2 := read_codeword_holds tree r1 h1.1
      have hle : r1.bits_left ≤ r.bits_left := h1.2.1
      simp only
      split
      · rename_i r2 heq2; rw [heq2] at h2; exact ⟨h2.1, Nat.le_trans h2.2.1 hle⟩
      · rename_i cw2 r2 heq2; rw [heq2] at h2; exact ⟨h2.1, Nat.le_trans h2.2.1 hle⟩
      · rename_i e heq2; rw [heq2] at h2; exact h2
      · trivial
      · rename_i heq2; rw [heq2] at h2; exact h2
    · rename_i e heq; rw [heq] at h1; exact h1
    · trivial
    · rename_i heq; rw [heq] at h1; exact h1
  · exact ⟨hbit, le_refl _⟩

theorem rle_process_holds (tree : List Nat) (st : RleState) (cw : Nat) (r : BitReader)
    (hbit : r.bit ≤ 8) :
    (rle_process tree st cw r).Holds fun p =>
      p.2.reader.bit ≤ 8 ∧ p.2.reader.bits_left ≤ r.bits_left := by
  unfold rle_process
  simp only
  split
  · exact ⟨hbit, le_refl _⟩
  · have hc := rle_count_holds tree r (cw &&& 0x00FF) hbit
    split
    · rename_i r1 heq; rw [heq] at hc; exact hc
    · rename_i count r1 heq; rw [heq] at hc; exact hc
    · rename_i e heq; rw [heq] at hc; exact hc
    · trivial
    · rename_i heq; rw [heq] at hc; exact hc

theorem rle_loop_holds (tree : List Nat) : ∀ (fuel : Nat) (st : RleState),
    st.reader.bit ≤ 8 → st.reader.bits_left < fuel →
    (rle_loop tree fuel st).Holds fun _ => True := by
  intro fuel
  induction fuel with
  | zero => intro st _ h; omega
  | succ fuel ih =>
    intro st hbit hfuel
    rw [rle_loop_succ]
    have h1 := read_codeword_holds tree st.reader hbit
    split
    · trivial
    · rename_i cw r1 heq
      rw [heq] at h1
      have hlt : r1.bits_left < st.reader.bits_left := h1.2.2 rfl
      have hp := rle_process_holds tree st cw r1 h1.1
      split
      · trivial
      · rename_i st1 heq2
        rw [heq2] at hp
        have hle : st1.reader.bits_left ≤ r1.bits_left := hp.2
        exact ih st1 hp.1 (by omega)
      · rename_i e heq2; rw [heq2] at hp; exact hp
      · trivial
      · rename_i heq2; rw [heq2] at hp; exact hp
    · rename_i e heq; rw [heq] at h1; exact h1
    · trivial
    · rename_i heq; rw [heq] at h1; exact h1

theorem decode_huffman_rle_holds (junk : Nat) (input : IStream) (output : List Nat) :
    (decode_huffman_rle junk input output).Holds fun _ => True := by
  unfold decode_huffman_rle decode_huffman_rle_run
  rw [Outcome.holds_map]
  exact rle_loop_holds _ _ _ (Nat.le_refl 8) (Nat.lt_succ_self _)

theorem leaf_facts : ∀ b < 256, is_parent_node (b + 256 * 128) = false ∧
    ((b + 256 * 128) &&& 0x7FFF) &&& 0xFF00 = 0 ∧ (((b + 256 * 128) &&& 0x7FFF) &&& 0x00FF) = b := by
  decide

theorem drain_length : ∀ (n : Nat) (r : BitReader), r.bit ≤ 8 → r.bits_left ≤ n →
    (BitReader.drain n r).length = r.bits_left := by
  intro n
  induction n with
  | zero =>
    intro r _ h
    simp only [BitReader.drain, List.length_nil]
    omega
  | succ n ih =>
    intro r hbit h
    unfold BitReader.drain
    split
    · rename_i heof
      simp only [BitReader.is_eof, Bool.and_eq_true, beq_iff_eq, Bool.not_eq_true'] at heof
      simp only [BitReader.bits_left, heof.1, heof.2, List.length_nil]
      rfl
    · rename_i heof
      have heof2 : r.is_eof = false := by simpa using heof
      obtain ⟨hdec, hbit1⟩ := BitReader.read_bit_bits_left r true heof2 hbit
      rcases hrb : r.read_bit true with ⟨b, r1⟩
      rw [hrb] at hdec hbit1
      simp only [List.length_cons]
      rw [ih r1 hbit1 (by simp only at hdec; omega)]
      exact hdec

theorem read_codeword_at_eof (tree : List Nat) (r : BitReader) (heof : r.is_eof = true) :
    TtfHuffmanReader.read_codeword tree r = .done (none, r) := by
  unfold TtfHuffmanReader.read_codeword read_codeword_loop
  rw [if_pos heof]

theorem read_codeword_two_leaves (a b : Nat) (ha : a < 256) (hb : b < 256) (r : BitReader)
    (heof : r.is_eof = false) :
    TtfHuffmanReader.read_codeword [a + 256 * 128, b + 256 * 128] r =
      .done (some ((if (r.read_bit true).1 then b + 256 * 128 else a + 256 * 128) &&& 0x7FFF),
        (r.read_bit true).2) := by
  unfold TtfHuffmanReader.read_codeword read_codeword_loop
  rw [if_neg (by simp [heof])]
  rcases r.read_bit true with ⟨x, r1⟩
  cases x
  · simp [(leaf_facts a ha).1]
  · simp [(leaf_facts b hb).1]

theorem rle_loop_two_leaves (a b : Nat) (ha : a < 256) (hb : b < 256) :
    ∀ (fuel : Nat) (st : RleState), st.reader.bit ≤ 8 → st.reader.bits_left < fuel →
    (rle_loop [a + 256 * 128, b + 256 * 128] fuel st).map (·.output) =
      .done (st.output ++
        (BitReader.drain fuel st.reader).map fun x => if x then b else a) := by
  intro fuel
  induction fuel with
  | zero => intro st _ h; omega
  | succ fuel ih =>
    intro st hbit hfuel
    rw [rle_loop_succ]
    unfold BitReader.drain
    by_cases heof : st.reader.is_eof = true
    · rw [read_codeword_at_eof _ _ heof, if_pos heof]
      simp [Outcome.map]
    · have heof2 : st.reader.is_eof = false := by simpa using heof
      rw [read_codeword_two_leaves a b ha hb _ heof2, if_neg heof]
      obtain ⟨hdec, hbit1⟩ := BitReader.read_bit_bits_left st.reader true heof2 hbit
      rcases hrb : st.reader.read_bit true with ⟨x, r1⟩
      rw [hrb] at hdec hbit1
      simp only at hdec hbit1 ⊢
      cases x
      · simp only [Bool.false_eq_true, if_false,
          rle_process_literal _ st _ r1 (leaf_facts a ha).2.1, (leaf_facts a ha).2.2]
        rw [ih _ hbit1 (by simp only; omega)]
        simp
      · simp only [if_true,
          rle_process_literal _ st _ r1 (leaf_facts b hb).2.1, (leaf_facts b hb).2.2]
        rw [ih _ hbit1 (by simp only; omega)]
        simp

theorem huffman_init_two_leaves (junk a b : Nat) (bits : List Nat) :
    TtfHuffmanReader.init junk ⟨0x04 :: 0x00 :: a :: 0x80 :: b :: 0x80 :: bits, true⟩ =
      { huffman_tree := [a % 256 + 256 * 128, b % 256 + 256 * 128],
        bit_reader := BitReader.init ⟨bits, true⟩ } := by
  have hpa := (leaf_facts (a % 256) (Nat.mod_lt _ (by decide))).1
  have hpb := (leaf_facts (b % 256) (Nat.mod_lt _ (by decide))).1
  simp [TtfHuffmanReader.init, IStream.read_u16, IStream.read, read_tree_nodes, hpa, hpb]

/-- Claim C6 fails on the code. With the two-leaf tree whose node 0 is the literal leaf `0x41`
and node 1 a literal leaf `b`, `decode_huffman_rle` does emit one byte per bit that the bit
reader delivers (`0x41` for a 0 bit, `b` for a 1 bit), but for a bitstream of `k` bytes the
reader delivers `8 * (k + 1)` bits, eight more than the stream holds: `is_eof` only becomes true
after a read has failed, and the failed read leaves `current_byte` as it was, so the bits of the
final byte are decoded a second time (with an empty bitstream the eight bits of the initial
`current_byte = 0` are decoded). The bitstream `00` yields sixteen bytes `0x41`, not eight. -/
theorem huffman_two_leaves_output (junk b : Nat) (bits : List Nat) :
    decode_huffman_rle junk ⟨0x04 :: 0x00 :: 0x41 :: 0x80 :: b :: 0x80 :: bits, true⟩ [] =
        .done ((BitReader.drain (8 * (bits.length + 1) + 1) (BitReader.init ⟨bits, true⟩)).map
          fun x => if x then b % 256 else 0x41) ∧
      (BitReader.drain (8 * (bits.length + 1) + 1) (BitReader.init ⟨bits, true⟩)).length =
        8 * (bits.length + 1) ∧
      decode_huffman_rle junk ⟨[0x04, 0x00, 0x41, 0x80, 0x42, 0x80, 0x00], true⟩ [] =
        .done (List.replicate 16 0x41) ∧
      decode_huffman_rle junk ⟨[0x04, 0x00, 0x41, 0x80, 0x42, 0x80, 0x80], true⟩ [] =
        .done (0x42 :: List.replicate 7 0x41 ++ 0x42 :: List.replicate 7 0x41) ∧
      decode_huffman_rle junk ⟨[0x04, 0x00, 0x41, 0x80, 0x42, 0x80], true⟩ [] =
        .done (List.replicate 8 0x41) := by
  have hleft : ∀ l : List Nat, (BitReader.init ⟨l, true⟩).bits_left = 8 * (l.length + 1) := by
    intro l
    simp [BitReader.init, BitReader.bits_left]
  have hgen : ∀ (c : Nat) (l : List Nat),
      decode_huffman_rle junk ⟨0x04 :: 0x00 :: 0x41 :: 0x80 :: c :: 0x80 :: l, true⟩ [] =
        .done ((BitReader.drain (8 * (l.length + 1) + 1) (BitReader.init ⟨l, true⟩)).map
          fun x => if x then c % 256 else 0x41) := by
    intro c l
    unfold decode_huffman_rle decode_huffman_rle_run
    rw [huffman_init_two_leaves]
    simp only
    rw [hleft]
    have h := rle_loop_two_leaves (0x41 % 256) (c % 256) (by decide) (Nat.mod_lt _ (by decide))
      (8 * (l.length + 1) + 1)
      { reader := BitReader.init ⟨l, true⟩, last := 0, output := [] }
      (Nat.le_refl 8) (by simp only [hleft]; omega)
    simpa using h
  refine ⟨hgen b bits, ?_, ?_, ?_, ?_⟩
  · rw [drain_length _ _ (Nat.le_refl 8) (by rw [hleft]; omega), hleft]
  · rw [hgen]; decide
  · rw [hgen]; decide
  · rw [hgen]; decide

/-! ### DIET: back-references at offset -1 (C8) -/

theorem diet_source_idx_minus_one (idx : Nat) (h1 : 1 ≤ idx) (h64 : idx < 2 ^ 64) :
    diet_source_idx idx 0xFF 0xFF = idx - 1 := by
  unfold diet_source_idx
  have hw : ((0xFF <<< 8) ||| 0xFF) % 65536 = 65535 := by decide
  simp only [hw]
  norm_num
  omega

theorem diet_copy_self_extend (n x : Nat) : ∀ (c : Nat) (out : List Nat) (idx : Nat),
    1 ≤ idx → idx + c ≤ n → n ≤ out.length → n < 2 ^ 64 → out[idx - 1]? = some x →
    diet_copy n c out idx (idx - 1) =
      .done (out.take idx ++ List.replicate c x ++ out.drop (idx + c), idx + c) := by
  intro c
  induction c with
  | zero =>
    intro out idx _ _ _ _ _
    simp [diet_copy]
  | succ c ih =>
    intro out idx h1 hle hlen h64 hx
    unfold diet_copy
    rw [if_pos (by omega), hx]
    simp only
    rw [if_pos (by omega)]
    have hsrc : (idx - 1 + 1) % 2 ^ 64 = (idx + 1) - 1 := by
      rw [Nat.mod_eq_of_lt (by omega)]; omega
    rw [hsrc, ih (out.set idx x) (idx + 1) (by omega) (by omega)
      (by rw [List.length_set]; exact hlen) h64
      (by simp only [Nat.add_sub_cancel]; rw [List.getElem?_set_self (by omega)])]
    have hlt : idx < out.length := by omega
    have htake : (out.set idx x).take (idx + 1) = out.take idx ++ [x] := by
      have hl : (out.take idx).length = idx := List.length_take_of_le (Nat.le_of_lt hlt)
      rw [List.set_eq_take_append_cons_drop, if_pos hlt, List.take_append_eq_append_take, hl,
        List.take_take, Nat.min_eq_right (Nat.le_succ idx), Nat.add_sub_cancel_left]
      rfl
    have hdrop : (out.set idx x).drop (idx + 1 + c) = out.drop (idx + (c + 1)) := by
      rw [List.drop_set_of_lt x out (by omega)]
      congr 1
      omega
    rw [htake, hdrop, List.replicate_succ]
    simp [Nat.add_assoc, Nat.add_comm 1 c]


/-- Claim C8 as amended. The self-extending copy from offset -1 is done by a long-form
back-reference (selector bit 1, offset bytes `0xFF`, `0xFF`, repeat count `2 + c`): decoded when
the last written byte is `x` (for instance `0x7A`) and at least `2 + c` bytes of payload remain,
it writes `2 + c` more bytes `x` and advances `idx` by `2 + c`. In short form (selector bit 0)
the offset bytes `0xFF`, `0xFF` with a clear following bit are the end-of-stream sentinel:
`decode_diet` returns, nothing is written and `idx` stays. -/
theorem diet_offset_minus_one (junk n : Nat) (st : DietState) (x c : Nat)
    (r1 r2 r3 r4 : DietBitReader)
    (hidx : 1 ≤ st.idx) (hlast : st.output[st.idx - 1]? = some x)
    (hlen : st.output.length = n) (h64 : n < 2 ^ 64) (hroom : st.idx + (2 + c) ≤ n)
    (hsel : st.reader.read_bit = (true, r1)) (hlo : r1.read_next_byte junk = (0xFF, r2))
    (hhi : read_hi_byte_varlen r2 = (0xFF, r3))
    (hcnt : read_repeat_count_varlen junk r3 = (c, r4)) :
    diet_backref junk n st =
        .done (false,
          { reader := r4,
            output := st.output.take st.idx ++ List.replicate (2 + c) x ++
              st.output.drop (st.idx + (2 + c)),
            idx := st.idx + (2 + c) }) ∧
      ∀ (s : DietState) (q1 q2 q3 : DietBitReader),
        s.reader.read_bit = (false, q1) → q1.read_next_byte junk = (0xFF, q2) →
        q2.read_bit = (false, q3) →
        diet_backref junk n s = .done (true, { s with reader := q3 }) := by
  constructor
  · unfold diet_backref
    rw [hsel]
    dsimp only
    rw [hlo]
    dsimp only
    rw [hhi]
    dsimp only
    rw [hcnt]
    dsimp only
    rw [diet_source_idx_minus_one st.idx hidx (by omega),
      diet_copy_self_extend n x (2 + c) st.output st.idx hidx hroom (by omega) h64 hlast]
    rfl
  · intro s q1 q2 q3 h1 h2 h3
    unfold diet_backref
    rw [h1]
    dsimp only
    rw [h2]
    dsimp only
    rw [h3]
    rfl

theorem diet_offset_minus_one_witness :
    diet_backref 0 4
        { reader := { stream := ⟨[0xFF], true⟩, bit := 2, current_word := 0x3D },
          output := [0x7A, 0, 0, 0], idx := 1 } =
      .done (false,
        { reader := { stream := ⟨[], true⟩, bit := 6, current_word := 0x3D },
          output := [0x7A, 0x7A, 0x7A, 0x7A], idx := 4 }) :=
  (diet_offset_minus_one 0 4
    { reader := { stream := ⟨[0xFF], true⟩, bit := 2, current_word := 0x3D },
      output := [0x7A, 0, 0, 0], idx := 1 } 0x7A 1
    { stream := ⟨[0xFF], true⟩, bit := 3, current_word := 0x3D }
    { stream := ⟨[], true⟩, bit := 3, current_word := 0x3D }
    { stream := ⟨[], true⟩, bit := 5, current_word := 0x3D }
    { stream := ⟨[], true⟩, bit := 6, current_word := 0x3D }
    (by decide) (by decide) (by decide) (by decide) (by decide) (by decide) (by decide)
    (by decide) (by decide)).1

/-- Counterexample to claim C8 as stated. A short-form code with offset -1 (bytes `0xFF`,
`0xFF`), read when the last written byte is `0x7A` and two bytes of payload remain, writes
nothing: it is the end-of-stream sentinel. -/
theorem diet_short_offset_minus_one_is_sentinel :
    diet_backref 0 3
        { reader := { stream := ⟨[0xFF], true⟩, bit := 2, current_word := 0x01 },
          output := [0x7A, 0, 0], idx := 1 } =
      .done (true,
        { reader := { stream := ⟨[], true⟩, bit := 4, current_word := 0x01 },
          output := [0x7A, 0, 0], idx := 1 }) ∧
      decode_diet 0 ⟨[0x01, 0x00, 0x7A, 0xFF], true⟩ [] 3 = .done [0x7A, 0, 0] := by
  constructor <;> decide

/-! ### Dispatcher: a declared payload size of zero -/

theorem DietBitReader.init_stream (s : IStream) :
    (DietBitReader.init s).stream = (s.read 2).2 := by
  unfold DietBitReader.init IStream.read_u16
  rcases s.read 2 with ⟨l, s1⟩
  rcases l with _ | ⟨a, _ | ⟨b, _ | ⟨c, l⟩⟩⟩ <;> rfl

theorem decode_diet_run_zero (junk : Nat) (body : IStream) :
    decode_diet_run junk body [] 0 =
      .done { reader := DietBitReader.init body, output := [], idx := 0 } := rfl

/-- Counterexample to claim C9 as stated. An LZW container and a Huffman+RLE container whose
headers declare `payload_size = 0` unpack to non-empty buffers, and the DIET decoder called with
`payload_size = 0` has consumed the first two bytes of the bitstream. -/
theorem zero_payload_ttf_output_not_empty :
    read_header 0 [0x00, 0x10, 0x00, 0x00, 0x20, 0xC0, 0x40] =
        .ttf 0 0x10 ⟨[0x20, 0xC0, 0x40], true⟩ ∧
      unpack 3 0 (some [0x00, 0x10, 0x00, 0x00, 0x20, 0xC0, 0x40]) = .done [0x41] ∧
      read_header 0 [0x00, 0x11, 0x00, 0x00, 4, 0, 0x41, 0x80, 0x42, 0x80, 0x00] =
        .ttf 0 0x11 ⟨[4, 0, 0x41, 0x80, 0x42, 0x80, 0x00], true⟩ ∧
      unpack 0 0 (some [0x00, 0x11, 0x00, 0x00, 4, 0, 0x41, 0x80, 0x42, 0x80, 0x00]) =
        .done (List.replicate 16 0x41) ∧
      decode_diet_run 0 ⟨[0x01, 0x00, 0x7A, 0xFF], true⟩ [] 0 =
        .done { reader := { stream := ⟨[0x7A, 0xFF], true⟩, bit := 0, current_word := 1 },
                output := [], idx := 0 } := by
  refine ⟨?_, ?_, ?_, ?_, ?_⟩ <;> decide

/-! ### Huffman + RLE: a missing run-length symbol -/

theorem shiftLeft16_or (a b : Nat) (hb : b < 65536) : (a <<< 16) ||| b = a * 65536 + b := by
  rw [Nat.shiftLeft_eq, Nat.mul_comm, show (2:Nat) ^ 16 = 65536 from rfl]
  exact (Nat.mul_add_lt_is_or (i := 16) hb a).symm

theorem le16_lt (l0 l1 : Nat) : l0 % 256 + 256 * (l1 % 256) < 65536 := by omega

theorem read_header_of_signature (junk b0 b1 : Nat) (rest : List Nat)
    (h0 : b0 % 256 = 0xB4) (h1 : b1 % 256 = 0x4C) :
    ∃ p body, read_header junk (b0 :: b1 :: rest) = .diet p body := by
  have hsig : (IStream.read_u16 ⟨b0 :: b1 :: rest, true⟩ junk).1 = 0x4CB4 := by
    simp [IStream.read_u16, IStream.read, h0, h1]
  unfold read_header
  simp only [hsig, if_true]
  exact ⟨_, _, rfl⟩

/-- Claim C11. For every file of at least 4 bytes, `unpack` takes the DIET branch exactly when
the first two bytes are `B4 4C` (the little-endian value `0x4CB4`); otherwise the file is read
as a TTF container whose payload starts at offset 4, and `unpack` runs `decode_lzw` exactly
when the byte at offset 1 is `0x10` and `decode_huffman_rle` for every other value. -/
theorem unpack_dispatch (fuel junk b0 b1 b2 b3 : Nat) (rest : List Nat) :
    if b0 % 256 = 0xB4 ∧ b1 % 256 = 0x4C then
      ∃ p body, read_header junk (b0 :: b1 :: b2 :: b3 :: rest) = .diet p body ∧
        unpack fuel junk (some (b0 :: b1 :: b2 :: b3 :: rest)) = decode_diet junk body [] p
    else
      read_header junk (b0 :: b1 :: b2 :: b3 :: rest) =
          .ttf ((((b0 % 256) &&& 0x0F) <<< 16) ||| (b2 % 256 + 256 * (b3 % 256))) (b1 % 256)
            { rest := rest, good := true } ∧
        unpack fuel junk (some (b0 :: b1 :: b2 :: b3 :: rest)) =
          if b1 % 256 = 0x10 then decode_lzw false fuel junk { rest := rest, good := true } []
          else decode_huffman_rle junk { rest := rest, good := true } [] := by
  split
  · rename_i h
    obtain ⟨p, body, hp⟩ := read_header_of_signature junk b0 b1 (b2 :: b3 :: rest) h.1 h.2
    exact ⟨p, body, hp, by simp only [unpack, hp]⟩
  · rename_i h
    have hsig : b0 % 256 + 256 * (b1 % 256) ≠ 0x4CB4 := by
      intro hh
      exact h ⟨by omega, by omega⟩
    have hh : read_header junk (b0 :: b1 :: b2 :: b3 :: rest) =
        .ttf ((((b0 % 256) &&& 0x0F) <<< 16) ||| (b2 % 256 + 256 * (b3 % 256))) (b1 % 256)
          { rest := rest, good := true } := by
      simp [read_header, IStream.read_u16, IStream.read_u8, IStream.read, hsig]
    exact ⟨hh, by simp only [unpack, hh]⟩

/-- Claim C13 as amended. In a DIET container (first two bytes `B4 4C`, at least 17 bytes),
`unpack` takes the size-high byte from file offset 14 and the little-endian size-low field from
offsets 15 and 16, and hands the DIET decoder the stream positioned at offset 17: `seekg(0)`
rewinds after the signature peek, so the 9 signature bytes, the skipped byte and the 4 checksum
bytes are the offsets 0 to 13. The bytes at offsets 2 to 13 do not enter the result. -/
theorem diet_header_offsets (fuel junk : Nat) (bytes : List Nat) (hlen : 17 ≤ bytes.length)
    (h0 : bytes.getD 0 0 % 256 = 0xB4) (h1 : bytes.getD 1 0 % 256 = 0x4C) :
    read_header junk bytes =
        .diet ((((bytes.getD 14 0 % 256) >>> 2) &&& 0x1F) * 65536 +
            (bytes.getD 15 0 % 256 + 256 * (bytes.getD 16 0 % 256)))
          { rest := bytes.drop 17, good := true } ∧
      unpack fuel junk (some bytes) =
        decode_diet junk { rest := bytes.drop 17, good := true } []
          ((((bytes.getD 14 0 % 256) >>> 2) &&& 0x1F) * 65536 +
            (bytes.getD 15 0 % 256 + 256 * (bytes.getD 16 0 % 256))) := by
  have hh : read_header junk bytes =
      .diet ((((bytes.getD 14 0 % 256) >>> 2) &&& 0x1F) * 65536 +
          (bytes.getD 15 0 % 256 + 256 * (bytes.getD 16 0 % 256)))
        { rest := bytes.drop 17, good := true } := by
    rcases bytes with _ | ⟨a0, _ | ⟨a1, _ | ⟨a2, _ | ⟨a3, _ | ⟨a4, _ | ⟨a5, _ | ⟨a6, _ | ⟨a7,
      _ | ⟨a8, _ | ⟨a9, _ | ⟨a10, _ | ⟨a11, _ | ⟨a12, _ | ⟨a13, _ | ⟨a14, _ | ⟨a15,
      _ | ⟨a16, t⟩⟩⟩⟩⟩⟩⟩⟩⟩⟩⟩⟩⟩⟩⟩⟩⟩ <;>
      simp only [List.length_cons, List.length_nil] at hlen <;> try omega
    simp only [List.getD_cons_zero, List.getD_cons_succ] at h0 h1
    have hsig : a0 % 256 + 256 * (a1 % 256) = 0x4CB4 := by omega
    simp [read_header, IStream.read_u16, IStream.read_u8, IStream.read, IStream.skip, hsig,
      shiftLeft16_or _ _ (le16_lt a15 a16)]
  exact ⟨hh, by simp only [unpack, hh]⟩

theorem diet_header_offsets_witness :
    read_header 0 [0xB4, 0x4C, 0, 0, 0, 0, 0, 0, 0, 0, 0, 0, 0, 0, 0x00, 0x03, 0x00, 0x01, 0x00,
        0x7A, 0xFF] =
      .diet 3 { rest := [0x01, 0x00, 0x7A, 0xFF], good := true } :=
  (diet_header_offsets 0 0
    [0xB4, 0x4C, 0, 0, 0, 0, 0, 0, 0, 0, 0, 0, 0, 0, 0x00, 0x03, 0x00, 0x01, 0x00, 0x7A, 0xFF]
    (by decide) (by decide) (by decide)).1

/-- Counterexample to claim C13 as stated. In this DIET file the bytes at offsets 14 to 16 give
the size 3 and the bytes at offsets 16 to 18 would give the size 1: `unpack` decodes 3 bytes
from the stream that starts at offset 17, not 1 byte from offset 19. -/
theorem diet_size_is_not_at_offset_16 :
    read_header 0 [0xB4, 0x4C, 0, 0, 0, 0, 0, 0, 0, 0, 0, 0, 0, 0, 0x00, 0x03, 0x00, 0x01, 0x00,
        0x7A, 0xFF] =
      .diet 3 { rest := [0x01, 0x00, 0x7A, 0xFF], good := true } ∧
    read_header 0 [0xB4, 0x4C, 0, 0, 0, 0, 0, 0, 0, 0, 0, 0, 0, 0, 0x00, 0x03, 0x00, 0x01, 0x00,
        0x7A, 0xFF] ≠
      .diet (((0x00 >>> 2) &&& 0x1F) * 65536 + (0x01 + 256 * 0x00))
        { rest := [0x7A, 0xFF], good := true } ∧
    unpack 0 0 (some [0xB4, 0x4C, 0, 0, 0, 0, 0, 0, 0, 0, 0, 0, 0, 0, 0x00, 0x03, 0x00, 0x01,
        0x00, 0x7A, 0xFF]) = .done [0x7A, 0, 0] := by
  refine ⟨?_, ?_, ?_⟩ <;> decide

/-! ### LZW: dictionary entries and the code that is not yet in the table (C14) -/

theorem sentinel_cases (alt_lzw : Bool) (k : Nat) :
    (k ≠ code_end alt_lzw ∧ k ≠ code_clear alt_lzw) ↔ (k ≠ 0x100 ∧ k ≠ 0x101) := by
  cases alt_lzw
  · simp only [code_end, code_clear, Bool.false_eq_true, if_false]
    omega
  · simp only [code_end, code_clear, if_true]

theorem lookup_map_replace_self (k : Nat) (v : List Nat) : ∀ (d : Dict) (w : List Nat),
    d.lookup k = some w → (d.map fun p => if p.1 = k then (k, v) else p).lookup k = some v := by
  intro d
  induction d with
  | nil => intro w h; simp at h
  | cons p d ih =>
    intro w h
    obtain ⟨a, x⟩ := p
    rw [List.map_cons, List.lookup_cons]
    rw [List.lookup_cons] at h
    by_cases hak : a = k
    · subst hak
      simp
    · have hne : (k == a) = false := by simpa using (Ne.symm hak)
      simp only [hak, if_false, hne] at h ⊢
      exact ih w h

theorem Dict.assign_lookup_self (d : Dict) (k : Nat) (v : List Nat) :
    (Dict.assign d k v).lookup k = some v := by
  unfold Dict.assign
  split
  · rename_i w hw
    exact lookup_map_replace_self k v d w hw
  · rename_i hnone
    simp [List.lookup_append, hnone]

theorem lzw_reset_entries (alt_lzw : Bool) (st : LzwState) (h : LzwEntries st) :
    LzwEntries (lzw_reset alt_lzw st) := by
  unfold lzw_reset
  split
  · rename_i hp
    refine ⟨Nat.le_refl _, ?_, ?_⟩
    · intro k hk h0 h1
      have hk2 : k < 258 := hk
      refine ⟨k, [], ?_⟩
      show initial_dict.lookup k = some [k]
      rw [initial_dict_lookup, if_pos (by omega)]
    · show st.prev < dict_size_initial
      rw [hp]
      cases alt_lzw <;> decide
  · exact h

theorem lzw_newbyte_known (alt_lzw : Bool) (st : LzwState) (cw b : Nat) (v : List Nat)
    (hlt : cw < st.dictsize) (hl : st.dict.lookup cw = some (b :: v)) :
    lzw_newbyte alt_lzw st cw = .done (b, st.dict) := by
  unfold lzw_newbyte
  rw [if_pos hlt, Dict.index_of_lookup hl]
  rfl

theorem lzw_newbyte_next (alt_lzw : Bool) (st : LzwState) (cw b : Nat) (v : List Nat)
    (hcw : cw = st.dictsize) (hclear : st.prev ≠ code_clear alt_lzw)
    (hlim : st.dictsize < dict_limit) (hl : st.dict.lookup st.prev = some (b :: v)) :
    lzw_newbyte alt_lzw st cw = .done (b, st.dict) := by
  unfold lzw_newbyte
  rw [if_neg (by omega), if_neg, Dict.index_of_lookup hl]
  · rfl
  · intro h
    rcases h with h | h | h
    · exact hclear h
    · omega
    · exact h hcw

theorem lzw_learn_entry (alt_lzw : Bool) (st : LzwState) (newbyte : Nat) (ps : List Nat)
    (hclear : st.prev ≠ code_clear alt_lzw) (hlim : st.dictsize < dict_limit)
    (hl : st.dict.lookup st.prev = some ps) :
    lzw_learn alt_lzw st newbyte =
      { st with dict := Dict.assign st.dict st.dictsize (ps ++ [newbyte]),
                dictsize := st.dictsize + 1,
                nbit := if st.dictsize + 1 = 1 <<< st.nbit ∧ st.nbit < 12 then st.nbit + 1
                        else st.nbit } := by
  unfold lzw_learn
  rw [if_pos ⟨hclear, hlim⟩, Dict.index_of_lookup hl]

theorem lzw_learn_skip (alt_lzw : Bool) (st : LzwState) (newbyte : Nat)
    (h : ¬(st.prev ≠ code_clear alt_lzw ∧ st.dictsize < dict_limit)) :
    lzw_learn alt_lzw st newbyte = st := by
  unfold lzw_learn
  rw [if_neg h]

/-- The pass of the loop of `decode_lzw` for the codeword `cw = dictsize` (the code that is not
yet in the table), from a state in which `prev` has the non-empty entry `b :: v`. -/
theorem lzw_process_next (alt_lzw : Bool) (st : LzwState) (cw b : Nat) (v : List Nat)
    (rd : LzwCodeWordReader)
    (hns : cw ≠ code_end alt_lzw ∧ cw ≠ code_clear alt_lzw)
    (hcw : cw = st.dictsize) (hclear : st.prev ≠ code_clear alt_lzw)
    (hlim : st.dictsize < dict_limit) (hl : st.dict.lookup st.prev = some (b :: v)) :
    lzw_process alt_lzw st cw rd =
      .done { reader := rd,
              nbit := if st.dictsize + 1 = 1 <<< st.nbit ∧ st.nbit < 12 then st.nbit + 1
                      else st.nbit,
              dictsize := st.dictsize + 1,
              dict := Dict.assign st.dict st.dictsize (b :: v ++ [b]),
              prev := cw,
              output := st.output ++ (b :: v ++ [b]) } := by
  unfold lzw_process
  rw [if_pos hns, lzw_newbyte_next alt_lzw st cw b v hcw hclear hlim hl]
  simp only
  rw [lzw_learn_entry alt_lzw _ b (b :: v) hclear hlim hl]
  simp only
  rw [Dict.index_of_lookup (by rw [hcw]; exact Dict.assign_lookup_self _ _ _)]

/-- The pass of the loop of `decode_lzw` for a codeword `cw < dictsize` with entry `b :: v`,
when a new entry is learned: `prev` is not the clear code, has the entry `ps`, and the
dictionary is not full. -/
theorem lzw_process_known_learn (alt_lzw : Bool) (st : LzwState) (cw b : Nat)
    (v ps : List Nat) (rd : LzwCodeWordReader)
    (hns : cw ≠ code_end alt_lzw ∧ cw ≠ code_clear alt_lzw)
    (hlt : cw < st.dictsize) (hl : st.dict.lookup cw = some (b :: v))
    (hclear : st.prev ≠ code_clear alt_lzw) (hlim : st.dictsize < dict_limit)
    (hp : st.dict.lookup st.prev = some ps) :
    lzw_process alt_lzw st cw rd =
      .done { reader := rd,
              nbit := if st.dictsize + 1 = 1 <<< st.nbit ∧ st.nbit < 12 then st.nbit + 1
                      else st.nbit,
              dictsize := st.dictsize + 1,
              dict := Dict.assign st.dict st.dictsize (ps ++ [b]),
              prev := cw,
              output := st.output ++ (b :: v) } := by
  unfold lzw_process
  rw [if_pos hns, lzw_newbyte_known alt_lzw st cw b v hlt hl]
  simp only
  rw [lzw_learn_entry alt_lzw _ b ps hclear hlim hp]
  simp only
  rw [Dict.index_of_lookup (by rw [Dict.assign_lookup_ne _ (by omega)]; exact hl)]

/-- The pass of the loop of `decode_lzw` for a codeword `cw < dictsize` with entry `b :: v`,
when nothing is learned: `prev` is the clear code or the dictionary is full. -/
theorem lzw_process_known_skip (alt_lzw : Bool) (st : LzwState) (cw b : Nat)
    (v : List Nat) (rd : LzwCodeWordReader)
    (hns : cw ≠ code_end alt_lzw ∧ cw ≠ code_clear alt_lzw)
    (hlt : cw < st.dictsize) (hl : st.dict.lookup cw = some (b :: v))
    (hskip : ¬(st.prev ≠ code_clear alt_lzw ∧ st.dictsize < dict_limit)) :
    lzw_process alt_lzw st cw rd =
      .done { st with reader := rd, prev := cw, output := st.output ++ (b :: v) } := by
  unfold lzw_process
  rw [if_pos hns, lzw_newbyte_known alt_lzw st cw b v hlt hl]
  simp only
  rw [lzw_learn_skip alt_lzw _ b hskip, Dict.index_of_lookup hl]


theorem lzw_process_entries (alt_lzw : Bool) (st st1 : LzwState) (cw : Nat)
    (rd : LzwCodeWordReader) (h : LzwEntries st) (hprev : st.prev ≠ code_end alt_lzw)
    (hb : lzw_process alt_lzw st cw rd = .done st1) : LzwEntries st1 := by
  obtain ⟨hsz, hent, hplt⟩ := h
  have hsz2 : 258 ≤ st.dictsize := hsz
  by_cases hns : cw ≠ code_end alt_lzw ∧ cw ≠ code_clear alt_lzw
  · have hns2 := (sentinel_cases alt_lzw cw).mp hns
    have hgrow : ∀ (ps : List Nat) (b : Nat) (pb : Nat) (pv : List Nat), ps = pb :: pv →
        ∀ k, k < st.dictsize + 1 → k ≠ 0x100 → k ≠ 0x101 →
          ∃ b1 v1, (Dict.assign st.dict st.dictsize (ps ++ [b])).lookup k = some (b1 :: v1) := by
      intro ps b pb pv hps k hk h0 h1
      by_cases hkd : k = st.dictsize
      · subst hkd
        exact ⟨pb, pv ++ [b], by rw [Dict.assign_lookup_self, hps]; rfl⟩
      · rw [Dict.assign_lookup_ne _ hkd]
        exact hent k (by omega) h0 h1
    by_cases hlt : cw < st.dictsize
    · obtain ⟨b, v, hl⟩ := hent cw hlt hns2.1 hns2.2
      by_cases hlearn : st.prev ≠ code_clear alt_lzw ∧ st.dictsize < dict_limit
      · have hp2 := (sentinel_cases alt_lzw st.prev).mp ⟨hprev, hlearn.1⟩
        obtain ⟨pb, pv, hp⟩ := hent st.prev hplt hp2.1 hp2.2
        rw [lzw_process_known_learn alt_lzw st cw b v (pb :: pv) rd hns hlt hl hlearn.1
          hlearn.2 hp] at hb
        simp only [Outcome.done.injEq] at hb
        subst hb
        exact ⟨by show 258 ≤ st.dictsize + 1; omega, hgrow (pb :: pv) b pb pv rfl,
          by show cw < st.dictsize + 1; omega⟩
      · rw [lzw_process_known_skip alt_lzw st cw b v rd hns hlt hl hlearn] at hb
        simp only [Outcome.done.injEq] at hb
        subst hb
        exact ⟨hsz, hent, hlt⟩
    · by_cases hcond : st.prev = code_clear alt_lzw ∨ st.dictsize ≥ dict_limit ∨
          cw ≠ st.dictsize
      · have hnb : lzw_newbyte alt_lzw st cw = .thrown .invalidLzwData := by
          unfold lzw_newbyte
          rw [if_neg hlt, if_pos hcond]
        unfold lzw_process at hb
        rw [if_pos hns, hnb] at hb
        exact absurd hb (by simp)
      · have hclear : st.prev ≠ code_clear alt_lzw := fun hh => hcond (Or.inl hh)
        have hlim : st.dictsize < dict_limit :=
          Nat.lt_of_not_le fun hh => hcond (Or.inr (Or.inl hh))
        have hcw : cw = st.dictsize :=
          Classical.not_not.mp fun hh => hcond (Or.inr (Or.inr hh))
        have hp2 := (sentinel_cases alt_lzw st.prev).mp ⟨hprev, hclear⟩
        obtain ⟨pb, pv, hp⟩ := hent st.prev hplt hp2.1 hp2.2
        rw [lzw_process_next alt_lzw st cw pb pv rd hns hcw hclear hlim hp] at hb
        simp only [Outcome.done.injEq] at hb
        subst hb
        exact ⟨by show 258 ≤ st.dictsize + 1; omega, hgrow (pb :: pv) pb pb pv rfl,
          by show cw < st.dictsize + 1; omega⟩
  · unfold lzw_process at hb
    rw [if_neg hns] at hb
    simp only [Outcome.done.injEq] at hb
    subst hb
    refine ⟨hsz, hent, ?_⟩
    show cw < st.dictsize
    have : cw = 0x100 ∨ cw = 0x101 := by
      by_cases h0 : cw = 0x100
      · exact Or.inl h0
      · by_cases h1 : cw = 0x101
        · exact Or.inr h1
        · exact absurd ((sentinel_cases alt_lzw cw).mpr ⟨h0, h1⟩) hns
    omega

theorem lzw_body_entries (alt_lzw : Bool) (st st1 : LzwState) (h : LzwEntries st)
    (hprev : st.prev ≠ code_end alt_lzw) (hb : lzw_body alt_lzw st = .done st1) :
    LzwEntries st1 := by
  rw [lzw_body_eq] at hb
  exact lzw_process_entries alt_lzw _ st1 _ _ (lzw_reset_entries alt_lzw st h)
    (by rw [lzw_reset_prev]; exact hprev) hb

theorem lzw_start_entries (alt_lzw : Bool) (junk : Nat) (input : IStream) (output : List Nat) :
    LzwEntries (lzw_start alt_lzw junk input output) := by
  refine ⟨Nat.le_refl _, ?_, ?_⟩
  · intro k hk h0 h1
    have hk2 : k < 258 := hk
    refine ⟨k, [], ?_⟩
    show initial_dict.lookup k = some [k]
    rw [initial_dict_lookup, if_pos (by omega)]
  · show code_clear alt_lzw < dict_size_initial
    cases alt_lzw <;> decide

theorem lzw_after_entries (alt_lzw : Bool) : ∀ (k : Nat) (s0 st : LzwState),
    LzwEntries s0 → lzw_after alt_lzw k s0 = some st → LzwEntries st := by
  intro k
  induction k with
  | zero =>
    intro s0 st h0 h
    simp only [lzw_after, Option.some.injEq] at h
    subst h; exact h0
  | succ k ih =>
    intro s0 st h0 h
    unfold lzw_after at h
    split at h
    · rename_i hp
      split at h
      · rename_i st1 hb
        exact ih st1 st (lzw_body_entries alt_lzw s0 st1 h0 hp hb) h
      · exact absurd h (by simp)
    · exact absurd h (by simp)

/-- Claim C14. Let `st` be a state that `decode_lzw` reaches at the head of its loop, with
`prev` neither sentinel and `dictsize < 4096`, and let the codeword read next equal `dictsize`.
Then `prev` has a non-empty dictionary string `b :: v`, the pass appends exactly
`b :: v ++ [b]` (the previous string followed by its first byte) to the output, registers that
same string as the entry of code `dictsize`, and `dictsize` grows by one. -/
theorem lzw_code_not_yet_in_table (alt_lzw : Bool) (junk k : Nat) (input : IStream)
    (output : List Nat) (st : LzwState)
    (hreach : lzw_after alt_lzw k (lzw_start alt_lzw junk input output) = some st)
    (hend : st.prev ≠ code_end alt_lzw) (hclear : st.prev ≠ code_clear alt_lzw)
    (hcw : lzw_codeword alt_lzw st = st.dictsize) (hlim : st.dictsize < 0x1000) :
    ∃ b v st1, st.dict.lookup st.prev = some (b :: v) ∧
      lzw_body alt_lzw st = .done st1 ∧
      st1.output = st.output ++ (b :: v ++ [b]) ∧
      st1.dict.lookup st.dictsize = some (b :: v ++ [b]) ∧
      st1.dictsize = st.dictsize + 1 ∧ st1.prev = st.dictsize := by
  have hent := lzw_after_entries alt_lzw k _ st (lzw_start_entries alt_lzw junk input output)
    hreach
  obtain ⟨hsz, hall, hplt⟩ := hent
  have hsz2 : 258 ≤ st.dictsize := hsz
  have hp2 := (sentinel_cases alt_lzw st.prev).mp ⟨hend, hclear⟩
  obtain ⟨b, v, hp⟩ := hall st.prev hplt hp2.1 hp2.2
  have hr : lzw_reset alt_lzw st = st := by
    unfold lzw_reset
    rw [if_neg hclear]
  have hns : lzw_codeword alt_lzw st ≠ code_end alt_lzw ∧
      lzw_codeword alt_lzw st ≠ code_clear alt_lzw := by
    rw [sentinel_cases, hcw]
    constructor <;> omega
  have hbody : lzw_body alt_lzw st =
      .done { reader := lzw_reader_after alt_lzw st,
              nbit := if st.dictsize + 1 = 1 <<< st.nbit ∧ st.nbit < 12 then st.nbit + 1
                      else st.nbit,
              dictsize := st.dictsize + 1,
              dict := Dict.assign st.dict st.dictsize (b :: v ++ [b]),
              prev := lzw_codeword alt_lzw st,
              output := st.output ++ (b :: v ++ [b]) } := by
    rw [lzw_body_eq, lzw_process_next alt_lzw (lzw_reset alt_lzw st) (lzw_codeword alt_lzw st)
      b v (lzw_reader_after alt_lzw st) hns (by rw [hr]; exact hcw) (by rw [hr]; exact hclear)
      (by rw [hr]; exact hlim) (by rw [hr]; exact hp), hr]
  exact ⟨b, v, _, hp, hbody, rfl, Dict.assign_lookup_self _ _ _, rfl, hcw⟩

theorem lzw_code_not_yet_in_table_witness :
    decode_lzw false 4 0 ⟨[0x20, 0xC0, 0xA0, 0x20], true⟩ [] = .done [0x41, 0x41, 0x41] ∧
    (lzw_body false
      ((lzw_after false 1 (lzw_start false 0 ⟨[0x20, 0xC0, 0xA0, 0x20], true⟩ [])).getD
        (lzw_start false 0 ⟨[], true⟩ []))).Holds
      (fun st1 => st1.dictsize = 258 + 1 ∧ st1.prev = 258) :=
  ⟨by decide,
    match lzw_code_not_yet_in_table false 0 1 ⟨[0x20, 0xC0, 0xA0, 0x20], true⟩ []
      ((lzw_after false 1 (lzw_start false 0 ⟨[0x20, 0xC0, 0xA0, 0x20], true⟩ [])).getD
        (lzw_start false 0 ⟨[], true⟩ []))
      (by decide) (by decide) (by decide) (by decide) (by decide) with
    | ⟨_, _, _, _, hb, _, _, hd, hp⟩ => by rw [hb]; exact ⟨hd, hp⟩⟩

/-! ### Huffman + RLE: escaped run lengths (C15, C16) -/

theorem shiftLeft8_or (a b : Nat) (hb : b < 256) : (a <<< 8) ||| b = a * 256 + b := by
  rw [Nat.shiftLeft_eq, Nat.mul_comm, show (2:Nat) ^ 8 = 256 from rfl]
  exact (Nat.mul_add_lt_is_or (i := 8) hb a).symm

theorem and_255_lt (cw : Nat) : cw &&& 0xFF < 256 :=
  Nat.lt_of_le_of_lt Nat.and_le_right (by decide)

/-- Claim C15 fails on the code. When a run symbol (high byte non-zero) has low byte 0,
`decode_huffman_rle` reads exactly one more symbol `s1` and appends `s1` copies of `last`:
the count is the whole 15-bit symbol (`count = cw`), not its low byte, so a following symbol
with a non-zero high byte gives a run of 256 or more. -/
theorem rle_one_symbol_count (tree : List Nat) (fuel : Nat) (st : RleState) (cw s1 : Nat)
    (r r1 : BitReader)
    (hcw : TtfHuffmanReader.read_codeword tree st.reader = .done (some cw, r))
    (hrun : cw &&& 0xFF00 ≠ 0) (hlo : cw &&& 0xFF = 0)
    (h1 : TtfHuffmanReader.read_codeword tree r = .done (some s1, r1)) :
    rle_loop tree (fuel + 1) st =
      rle_loop tree fuel
        { reader := r1, last := st.last, output := st.output ++ List.replicate s1 st.last } := by
  have hp : rle_process tree st cw r =
      .done (false, { st with reader := r1,
                              output := st.output ++ List.replicate s1 st.last }) := by
    unfold rle_process
    simp only [hrun, if_false, hlo]
    unfold rle_count
    simp only [h1]
  rw [rle_loop_succ, hcw]
  simp only [hp]

theorem rle_one_symbol_count_witness :
    rle_loop [0x8041, 0x8100] (13 + 1)
        { reader := { stream := ⟨[], true⟩, bit := 1, current_byte := 0x60 }, last := 0x41,
          output := [0x41] } =
      rle_loop [0x8041, 0x8100] 13
        { reader := { stream := ⟨[], true⟩, bit := 3, current_byte := 0x60 }, last := 0x41,
          output := [0x41] ++ List.replicate 0x0100 0x41 } :=
  rle_one_symbol_count [0x8041, 0x8100] 13
    { reader := { stream := ⟨[], true⟩, bit := 1, current_byte := 0x60 }, last := 0x41,
      output := [0x41] } 0x0100 0x0100
    { stream := ⟨[], true⟩, bit := 2, current_byte := 0x60 }
    { stream := ⟨[], true⟩, bit := 3, current_byte := 0x60 }
    (by decide) (by decide) (by decide) (by decide)

/-- The failing input of claim C15 evaluated: with the leaves `0x0041` and `0x0100` and the
bitstream `60`, the symbol after the first run symbol is `0x0100` again, whose low byte is 0;
the code appends 256 copies each time it meets the pair, 524 bytes in all. -/
theorem rle_escaped_count_not_masked :
    decode_huffman_rle 0 ⟨[0x04, 0x00, 0x41, 0x80, 0x00, 0x81, 0x60], true⟩ [] =
      .done (List.replicate 524 0x41) := by
  decide

/-! ### Huffman: parsing the serialized tree (C17) -/

theorem is_parent_node_eq (w : Nat) : is_parent_node w = !w.testBit 15 := by
  unfold is_parent_node
  have h : w &&& 0x8000 = if w.testBit 15 then 0x8000 else 0 := by
    apply Nat.eq_of_testBit_eq
    intro i
    have h2 : ∀ j, Nat.testBit 0x8000 j = decide (15 = j) := fun j =>
      Nat.testBit_two_pow (n := 15) (m := j)
    rw [Nat.testBit_and, h2]
    by_cases hi : 15 = i
    · subst hi
      cases hb : w.testBit 15
      · simp
      · simp only [if_true, h2]; simp
    · cases hb : w.testBit 15
      · simp [hi]
      · simp only [if_true, h2]; simp [hi]
  rw [h]
  cases w.testBit 15 <;> rfl

theorem read_u16_two (lo hi old : Nat) (rest : List Nat) :
    IStream.read_u16 ⟨lo :: hi :: rest, true⟩ old =
      (lo % 256 + 256 * (hi % 256), ⟨rest, true⟩) := by
  simp [IStream.read_u16, IStream.read]

theorem read_tree_nodes_eq (junk : Nat) : ∀ (n : Nat) (bytes : List Nat),
    2 * n ≤ bytes.length →
    read_tree_nodes junk n ⟨bytes, true⟩ =
      ((le16_words n bytes).map stored_node, ⟨bytes.drop (2 * n), true⟩) := by
  intro n
  induction n with
  | zero => intro bytes _; simp [read_tree_nodes, le16_words]
  | succ n ih =>
    intro bytes h
    rcases bytes with _ | ⟨lo, _ | ⟨hi, rest⟩⟩
    · simp at h
    · simp only [List.length_cons, List.length_nil] at h; omega
    · have hrest : 2 * n ≤ rest.length := by simp only [List.length_cons] at h; omega
      have hd : (lo :: hi :: rest).drop (2 * (n + 1)) = rest.drop (2 * n) := by
        rw [show 2 * (n + 1) = 2 * n + 1 + 1 from by omega]
        rfl
      unfold read_tree_nodes
      rw [read_u16_two]
      simp only [le16_words, List.map_cons, is_parent_node_eq, hd, ih rest hrest]
      unfold stored_node
      cases (lo % 256 + 256 * (hi % 256)).testBit 15 <;> simp


theorem le16_words_length : ∀ (n : Nat) (bytes : List Nat), 2 * n ≤ bytes.length →
    (le16_words n bytes).length = n := by
  intro n
  induction n with
  | zero => intro bytes _; cases bytes <;> rfl
  | succ n ih =>
    intro bytes h
    rcases bytes with _ | ⟨lo, _ | ⟨hi, rest⟩⟩
    · simp at h
    · simp only [List.length_cons, List.length_nil] at h; omega
    · simp only [le16_words, List.length_cons]
      rw [ih rest (by simp only [List.length_cons] at h; omega)]

theorem testBit_15_of_lt (w : Nat) (h : w < 65536) : w.testBit 15 = decide (0x8000 ≤ w) := by
  rw [Nat.testBit_to_div_mod]
  have : (2 : Nat) ^ 15 = 32768 := rfl
  rw [this]
  congr 1
  apply propext
  constructor <;> intro hh <;> omega

/-- Claim C17 as amended. When the serialized Huffman tree is parsed, the node count is the
16-bit byte count divided by 2 (rounded down), the nodes are the little-endian words that
follow, and each node is classified by its bit 15 alone: a node below `0x8000` is internal and
stored as `node >> 1`, a node from `0x8000` on is a leaf and stored as it is. The bit reader
starts right after the nodes. -/
theorem huffman_tree_parse (junk c0 c1 : Nat) (bytes : List Nat)
    (hlen : 2 * ((c0 % 256 + 256 * (c1 % 256)) / 2) ≤ bytes.length) :
    TtfHuffmanReader.init junk ⟨c0 :: c1 :: bytes, true⟩ =
        { huffman_tree :=
            (le16_words ((c0 % 256 + 256 * (c1 % 256)) / 2) bytes).map stored_node,
          bit_reader :=
            BitReader.init ⟨bytes.drop (2 * ((c0 % 256 + 256 * (c1 % 256)) / 2)), true⟩ } ∧
      (le16_words ((c0 % 256 + 256 * (c1 % 256)) / 2) bytes).length =
        (c0 % 256 + 256 * (c1 % 256)) / 2 ∧
      ∀ w, w < 65536 →
        stored_node w = (if w < 0x8000 then w / 2 else w) ∧
        is_parent_node w = decide (w < 0x8000) := by
  refine ⟨?_, le16_words_length _ _ hlen, ?_⟩
  · unfold TtfHuffmanReader.init
    rw [read_u16_two]
    simp only [Nat.shiftRight_eq_div_pow, Nat.pow_one]
    rw [read_tree_nodes_eq junk _ bytes hlen]
  · intro w hw
    have hb := testBit_15_of_lt w hw
    constructor
    · unfold stored_node
      rw [hb]
      by_cases h : w < 0x8000
      · rw [if_pos h, if_neg (by simp; omega), Nat.shiftRight_eq_div_pow]
      · rw [if_neg h, if_pos (by simp; omega)]
    · rw [is_parent_node_eq, hb]
      by_cases h : w < 0x8000
      · simp [h]
      · simp [h]; omega

theorem huffman_tree_parse_witness :
    TtfHuffmanReader.init 0 ⟨0x04 :: 0x00 :: [0x04, 0x00, 0x41, 0x80, 0xA5], true⟩ =
      { huffman_tree := [2, 0x8041], bit_reader := BitReader.init ⟨[0xA5], true⟩ } :=
  (huffman_tree_parse 0 0x04 0x00 [0x04, 0x00, 0x41, 0x80, 0xA5] (by decide)).1

/-- Counterexample to claim C17 as stated. The nodes `0x0002` and `0x8002` have the same low
bit, and so have `0x0003` and `0x8003`, yet the first of each pair is stored as internal
(`node >> 1`) and the second as a leaf: the low bit does not tell the kind of a node. -/
theorem huffman_node_kind_is_not_the_low_bit :
    (TtfHuffmanReader.init 0
        ⟨[0x08, 0x00, 0x02, 0x00, 0x02, 0x80, 0x03, 0x00, 0x03, 0x80], true⟩).huffman_tree =
      [0x0002 >>> 1, 0x8002, 0x0003 >>> 1, 0x8003] ∧
    is_parent_node 0x0002 = true ∧ is_parent_node 0x8002 = false ∧
    is_parent_node 0x0003 = true ∧ is_parent_node 0x8003 = false := by
  refine ⟨?_, ?_, ?_, ?_, ?_⟩ <;> decide

/-! ### DIET: the copy loop of a back-reference (C18) -/

theorem diet_source_idx_back (idx off_hi off_lo k : Nat) (hk1 : 1 ≤ k) (hk : k ≤ idx)
    (h64 : idx < 2 ^ 64) (hw : ((off_hi <<< 8) ||| off_lo) % 65536 = 65536 - k)
    (hneg : k ≤ 32768) :
    diet_source_idx idx off_hi off_lo = idx - k := by
  unfold diet_source_idx
  simp only [hw]
  rw [if_pos (by omega)]
  have : (2 : Nat) ^ 64 = 18446744073709551616 := by norm_num
  rw [this] at h64 ⊢
  omega

theorem diet_copy_back (ps k : Nat) (hk1 : 1 ≤ k) (h64 : ps < 2 ^ 64) :
    ∀ (c : Nat) (out : List Nat) (idx : Nat), k ≤ idx → ps ≤ out.length →
    ∃ out1, diet_copy ps c out idx (idx - k) = .done (out1, idx + min c (ps - idx)) ∧
      out1.length = out.length ∧
      (∀ j, j < idx → out1[j]? = out[j]?) ∧
      (∀ i, i < min c (ps - idx) → out1[idx + i]? = out1[idx + i - k]?) ∧
      (∀ j, idx + min c (ps - idx) ≤ j → out1[j]? = out[j]?) := by
  intro c
  induction c with
  | zero =>
    intro out idx _ _
    exact ⟨out, by simp [diet_copy], rfl, fun _ _ => rfl, fun i hi => by simp at hi,
      fun _ _ => rfl⟩
  | succ c ih =>
    intro out idx hk hlen
    unfold diet_copy
    by_cases hlt : idx < ps
    · rw [if_pos hlt]
      have hsrc : idx - k < out.length := by omega
      rw [List.getElem?_eq_getElem hsrc]
      simp only
      rw [if_pos (by omega)]
      have hnext : (idx - k + 1) % 2 ^ 64 = idx + 1 - k := by
        rw [Nat.mod_eq_of_lt (by omega)]; omega
      rw [hnext]
      obtain ⟨out1, hrun, hl1, hlow, hrec, hhigh⟩ :=
        ih (out.set idx out[idx - k]) (idx + 1) (by omega)
          (by rw [List.length_set]; exact hlen)
      have hmin : idx + 1 + min c (ps - (idx + 1)) = idx + min (c + 1) (ps - idx) := by omega
      refine ⟨out1, by rw [hrun, hmin], by rw [hl1, List.length_set], ?_, ?_, ?_⟩
      · intro j hj
        rw [hlow j (by omega), List.getElem?_set_ne (by omega)]
      · intro i hi
        cases i with
        | zero =>
          simp only [Nat.add_zero]
          rw [hlow idx (by omega), hlow (idx - k) (by omega),
            List.getElem?_set_self (by omega), List.getElem?_set_ne (by omega),
            List.getElem?_eq_getElem hsrc]
        | succ i =>
          have := hrec i (by omega)
          rw [show idx + (i + 1) = idx + 1 + i from by omega]
          exact this
      · intro j hj
        rw [hhigh j (by omega), List.getElem?_set_ne (by omega)]
    · rw [if_neg hlt]
      have hz : min (c + 1) (ps - idx) = 0 := by omega
      rw [hz]
      exact ⟨out, rfl, rfl, fun _ _ => rfl, fun i hi => by omega, fun _ _ => rfl⟩


theorem periodic_of_recurrence (out out1 : List Nat) (idx k m : Nat) (hk1 : 1 ≤ k)
    (hk : k ≤ idx) (hlow : ∀ j, j < idx → out1[j]? = out[j]?)
    (hrec : ∀ i, i < m → out1[idx + i]? = out1[idx + i - k]?) :
    ∀ i, i < m → out1[idx + i]? = out[idx - k + i % k]? := by
  intro i
  induction i using Nat.strong_induction_on with
  | _ i ih =>
    intro hi
    rw [hrec i hi]
    by_cases hik : i < k
    · rw [Nat.mod_eq_of_lt hik, hlow _ (by omega)]
      congr 1
      omega
    · have hstep := ih (i - k) (by omega) (by omega)
      rw [show idx + i - k = idx + (i - k) from by omega, hstep]
      congr 2
      have : i = i - k + k := by omega
      conv => rhs; rw [this, Nat.add_mod_right]

/-! ### DIET: the variable-length repeat count (C19) -/

theorem read_repeat_count_varlen_eq (junk : Nat) (r : DietBitReader) :
    read_repeat_count_varlen junk r = repeat_count_of_bits junk r := by
  rcases h1 : r.read_bit with ⟨b1, r1⟩
  rcases h2 : r1.read_bit with ⟨b2, r2⟩
  rcases h3 : r2.read_bit with ⟨b3, r3⟩
  rcases h4 : r3.read_bit with ⟨b4, r4⟩
  rcases h5 : r4.read_bit with ⟨b5, r5⟩
  rcases h6 : r5.read_bit with ⟨b6, r6⟩
  rcases h7 : r6.read_bit with ⟨b7, r7⟩
  rcases h8 : r7.read_bit with ⟨b8, r8⟩
  rcases h9 : r8.read_bit with ⟨b9, r9⟩
  cases b1 <;> cases b2 <;> cases b3 <;> cases b4 <;> cases b5 <;> cases b6 <;>
    simp [read_repeat_count_varlen, read_repeat_count_loop, repeat_count_of_bits,
      DietBitReader.read_bits, DietBitReader.read_3bit_value, DietBitReader.read_bits_loop,
      h1, h2, h3, h4, h5, h6, h7, h8, h9]
  cases b7 <;> cases b8 <;> cases b9 <;> rfl


theorem read_u8_lt (s : IStream) (old : Nat) : (s.read_u8 old).1 < 256 := by
  unfold IStream.read_u8 IStream.read
  split
  · rename_i b s1 heq
    split at heq
    · split at heq
      · simp only [Prod.mk.injEq] at heq
        have hmem : b ∈ List.map (· % 256) (List.take 1 s.rest) := by rw [heq.1]; simp
        obtain ⟨x, _, hx⟩ := List.mem_map.mp hmem
        rw [← hx]
        exact Nat.mod_lt _ (by decide)
      · simp only [Prod.mk.injEq] at heq
        have hmem : b ∈ List.map (· % 256) s.rest := by rw [heq.1]; simp
        obtain ⟨x, _, hx⟩ := List.mem_map.mp hmem
        rw [← hx]
        exact Nat.mod_lt _ (by decide)
    · simp at heq
  · exact Nat.mod_lt _ (by decide)

theorem read_next_byte_lt (junk : Nat) (r : DietBitReader) :
    (r.read_next_byte junk).1 < 256 := by
  unfold DietBitReader.read_next_byte
  exact read_u8_lt r.stream junk

/-- Claim C19. `read_repeat_count_varlen` returns `j` (1 to 4) when the first 1 bit is the
`j`-th bit read; after four 0 bits, 5 or 6 when the next bit is 1 and the one after it is 0 or
1; `7 + v` for the 3-bit MSB-first value `v` after the bits 0, 0; and `15 + B` for the next
raw byte `B` after the bits 0, 1; it uses up exactly these bits and this byte. Its result is
in 1..270, so a long-form repeat count is in 3..272. -/
theorem repeat_count_varlen_spec (junk : Nat) (r : DietBitReader) :
    read_repeat_count_varlen junk r = repeat_count_of_bits junk r ∧
      1 ≤ (read_repeat_count_varlen junk r).1 ∧ (read_repeat_count_varlen junk r).1 ≤ 270 ∧
      3 ≤ 2 + (read_repeat_count_varlen junk r).1 ∧
      2 + (read_repeat_count_varlen junk r).1 ≤ 272 := by
  have heq := read_repeat_count_varlen_eq junk r
  have hb : 1 ≤ (repeat_count_of_bits junk r).1 ∧ (repeat_count_of_bits junk r).1 ≤ 270 := by
    have hbyte := read_next_byte_lt junk (r.read_bits 6).2
    unfold repeat_count_of_bits
    split
    · simp
    · simp
    · simp
    · simp
    · rename_i b _ _
      cases b <;> simp
    · rename_i b1 b2 b3 _ _
      cases b1 <;> cases b2 <;> cases b3 <;> simp
    · simp only
      omega
    · rename_i hne1 hne2 hne3 hne4 hne5 hne6 hne7
      exfalso
      rcases h1 : r.read_bit with ⟨b1, r1⟩
      rcases h2 : r1.read_bit with ⟨b2, r2⟩
      rcases h3 : r2.read_bit with ⟨b3, r3⟩
      rcases h4 : r3.read_bit with ⟨b4, r4⟩
      rcases h5 : r4.read_bit with ⟨b5, r5⟩
      rcases h6 : r5.read_bit with ⟨b6, r6⟩
      rcases h7 : r6.read_bit with ⟨b7, r7⟩
      rcases h8 : r7.read_bit with ⟨b8, r8⟩
      rcases h9 : r8.read_bit with ⟨b9, r9⟩
      have hbits : (r.read_bits 9).1 = [b1, b2, b3, b4, b5, b6, b7, b8, b9] := by
        simp [DietBitReader.read_bits, h1, h2, h3, h4, h5, h6, h7, h8, h9]
      rw [hbits] at hne1 hne2 hne3 hne4 hne5 hne6 hne7
      cases b1
      · cases b2
        · cases b3
          · cases b4
            · cases b5
              · cases b6
                · exact hne6 _ _ _ _ rfl
                · exact hne7 _ rfl
              · exact hne5 _ _ rfl
            · exact hne4 _ rfl
          · exact hne3 _ rfl
        · exact hne2 _ rfl
      · exact hne1 _ rfl
  rw [heq]
  exact ⟨rfl, hb.1, hb.2, by omega, by omega⟩

/-! ### LZW: the codewords are the bits of the stream (C20) -/

theorem bits_value_testBit (bit : Nat → Bool) (p : Nat) : ∀ (n i : Nat),
    (bits_value bit p n).testBit i = (decide (i < n) && bit (p + n - 1 - i)) := by
  intro n
  induction n with
  | zero => intro i; simp [bits_value]
  | succ n ih =>
    intro i
    unfold bits_value
    cases i with
    | zero =>
      rw [Nat.testBit_zero]
      cases hb : bit (p + n) <;> simp [hb, Nat.add_mod]
    | succ i =>
      rw [Nat.testBit_succ]
      have hdiv : (2 * bits_value bit p n + (bit (p + n)).toNat) / 2 = bits_value bit p n := by
        cases bit (p + n)
        · simp [Bool.toNat]
        · simp only [Bool.toNat, cond_true]
          omega
      rw [hdiv, ih i]
      by_cases h : i < n
      · simp only [h, show i + 1 < n + 1 from by omega, decide_True, Bool.true_and]
        congr 1
        omega
      · simp [h]

theorem stream_bit_beyond (bytes : List Nat) (q : Nat) (h : 8 * bytes.length ≤ q) :
    stream_bit bytes q = false := by
  unfold stream_bit
  rw [List.getD_eq_default _ _ (by omega)]
  simp

theorem byte_testBit_ge (x j : Nat) (hx : x < 256) (hj : 8 ≤ j) : x.testBit j = false := by
  apply Nat.testBit_lt_two_pow
  calc x < 2 ^ 8 := hx
    _ ≤ 2 ^ j := Nat.pow_le_pow_right (by decide) hj


theorem drop_eq_cons (bytes : List Nat) (c b : Nat) (t : List Nat)
    (h : bytes.drop c = b :: t) : bytes.getD c 0 = b ∧ bytes.drop (c + 1) = t := by
  constructor
  · have h0 : (bytes.drop c)[0]? = some b := by rw [h]; simp
    rw [List.getElem?_drop, Nat.add_zero] at h0
    rw [List.getD_eq_getElem?_getD, h0]
    rfl
  · have : bytes.drop (c + 1) = (bytes.drop c).drop 1 := by
      rw [List.drop_drop, Nat.add_comm]
    rw [this, h]
    rfl

theorem read_one_cons (b : Nat) (t : List Nat) :
    IStream.read ⟨b :: t, true⟩ 1 = ([b % 256], ⟨t, true⟩) := by
  simp [IStream.read]

theorem read_one_nil : IStream.read ⟨[], true⟩ 1 = ([], ⟨[], false⟩) := by
  simp [IStream.read]

theorem refill_window (bytes : List Nat) (p : Nat) : ∀ (fuel : Nat) (r : LzwCodeWordReader),
    WindowInv bytes p r → WindowInv bytes p (LzwCodeWordReader.refill fuel r) := by
  intro fuel
  induction fuel with
  | zero => intro r h; exact h
  | succ fuel ih =>
    intro r h
    unfold LzwCodeWordReader.refill
    split
    · rename_i hc
      obtain ⟨hm8, hgood⟩ := hc
      rcases h with ⟨_, hm24, ⟨c, hrest, hc8⟩, hbuf⟩ | ⟨hbad, _, _⟩
      · obtain ⟨⟨rest, good⟩, buf, missing⟩ := r
        simp only at hm8 hgood hm24 hrest hc8 hbuf ⊢
        subst hgood
        cases rest with
        | nil =>
          rw [read_one_nil]
          apply ih
          right
          have hlen : bytes.length ≤ c := by
            have := congrArg List.length hrest
            simp only [List.length_nil, List.length_drop] at this
            omega
          refine ⟨rfl, by omega, ?_⟩
          intro i
          rw [hbuf i]
          by_cases h24 : i < 24
          · by_cases hmi : missing ≤ i
            · simp [h24, hmi]
            · have hb : stream_bit bytes (p + 23 - i) = false :=
                stream_bit_beyond bytes _ (by omega)
              simp [h24, hmi, hb]
          · simp [h24]
        | cons b t =>
          rw [read_one_cons]
          apply ih
          left
          obtain ⟨hb, ht⟩ := drop_eq_cons bytes c b t hrest.symm
          refine ⟨rfl, by simp only; omega, ⟨c + 1, ht.symm, by simp only; omega⟩, ?_⟩
          intro i
          simp only
          rw [Nat.testBit_or, Nat.testBit_shiftLeft, hbuf i]
          by_cases h24 : i < 24
          · by_cases hmi : missing ≤ i
            · have hz : (b % 256).testBit (i - (missing - 8)) = false :=
                byte_testBit_ge _ _ (Nat.mod_lt _ (by decide)) (by omega)
              simp [h24, hmi, hz, show missing - 8 ≤ i from by omega]
            · by_cases hm2 : missing - 8 ≤ i
              · have hq : stream_bit bytes (p + 23 - i) =
                    (b % 256).testBit (i - (missing - 8)) := by
                  unfold stream_bit
                  rw [show (p + 23 - i) / 8 = c from by omega, hb,
                    show 7 - (p + 23 - i) % 8 = i - (missing - 8) from by omega]
                simp [h24, hmi, hm2, hq]
              · simp [h24, hmi, hm2]
          · have hz : (b % 256).testBit (i - (missing - 8)) = false :=
              byte_testBit_ge _ _ (Nat.mod_lt _ (by decide)) (by omega)
            simp [h24, hz]
      · rw [hbad] at hgood
        exact absurd hgood (by simp)
    · exact h


theorem testBit_mask24 (i : Nat) : Nat.testBit 0xFFFFFF i = decide (i < 24) := by
  rw [show (0xFFFFFF : Nat) = 2 ^ 24 - 1 from rfl, Nat.testBit_two_pow_sub_one]

/-- One call `read_codeword(n)` from a reader that satisfies the window invariant at bit `p`
and has at most 7 missing bits while the stream is good: the codeword is the integer formed by
the bits `p ... p + n - 1`, and the invariant holds at bit `p + n` afterwards. -/
theorem read_codeword_window (bytes : List Nat) (p n : Nat) (r : LzwCodeWordReader)
    (hn : n ≤ 17) (h : WindowInv bytes p r)
    (hm : r.stream.good = true → r.missing_bits < 8) :
    (r.read_codeword n).1 = bits_value (stream_bit bytes) p n ∧
      WindowInv bytes (p + n) (r.read_codeword n).2 := by
  unfold LzwCodeWordReader.read_codeword
  simp only
  constructor
  · apply Nat.eq_of_testBit_eq
    intro i
    rw [Nat.testBit_shiftRight, bits_value_testBit]
    rcases h with ⟨hg, _, _, hbuf⟩ | ⟨_, _, hbuf⟩
    · have hm7 := hm hg
      rw [hbuf]
      by_cases hi : i < n
      · simp only [hi, show 24 - n + i < 24 from by omega,
          show r.missing_bits ≤ 24 - n + i from by omega, decide_True, Bool.true_and]
        congr 1
        omega
      · simp [hi, show ¬ (24 - n + i < 24) from by omega]
    · rw [hbuf]
      by_cases hi : i < n
      · simp only [hi, show 24 - n + i < 24 from by omega, decide_True, Bool.true_and]
        congr 1
        omega
      · simp [hi, show ¬ (24 - n + i < 24) from by omega]
  · apply refill_window
    rcases h with ⟨hg, hm24, ⟨c, hrest, hc8⟩, hbuf⟩ | ⟨hg, hlen, hbuf⟩
    · have hm7 := hm hg
      left
      refine ⟨hg, by simp only; omega, ⟨c, hrest, by simp only; omega⟩, ?_⟩
      intro i
      simp only
      rw [Nat.testBit_and, Nat.testBit_shiftLeft, testBit_mask24, hbuf]
      by_cases h24 : i < 24
      · by_cases hni : n ≤ i
        · by_cases hmi : r.missing_bits + n ≤ i
          · simp only [h24, hni, hmi, show i - n < 24 from by omega,
              show r.missing_bits ≤ i - n from by omega, ge_iff_le, decide_True, Bool.true_and,
              Bool.and_true]
            congr 1
            omega
          · simp [h24, hni, hmi, show ¬ (r.missing_bits ≤ i - n) from by omega]
        · simp [h24, hni, show ¬ (r.missing_bits + n ≤ i) from by omega]
      · simp [h24]
    · right
      refine ⟨hg, by omega, ?_⟩
      intro i
      simp only
      rw [Nat.testBit_and, Nat.testBit_shiftLeft, testBit_mask24, hbuf]
      by_cases h24 : i < 24
      · by_cases hni : n ≤ i
        · simp only [h24, hni, show i - n < 24 from by omega, ge_iff_le, decide_True,
            Bool.true_and, Bool.and_true]
          congr 1
          omega
        · have hb : stream_bit bytes (p + n + 23 - i) = false :=
            stream_bit_beyond bytes _ (by omega)
          simp [h24, hni, hb]
      · simp [h24]

theorem init_window (junk b0 b1 b2 : Nat) (rest : List Nat) :
    WindowInv (b0 :: b1 :: b2 :: rest) 0
        (LzwCodeWordReader.init junk ⟨b0 :: b1 :: b2 :: rest, true⟩) ∧
      (LzwCodeWordReader.init junk ⟨b0 :: b1 :: b2 :: rest, true⟩).missing_bits = 0 := by
  have hinit : LzwCodeWordReader.init junk ⟨b0 :: b1 :: b2 :: rest, true⟩ =
      { stream := ⟨rest, true⟩,
        buf24 := ((b0 % 256) <<< 16) ||| ((b1 % 256) <<< 8) ||| (b2 % 256),
        missing_bits := 0 } := by
    simp [LzwCodeWordReader.init, IStream.read_u8, IStream.read]
  rw [hinit]
  refine ⟨Or.inl ⟨rfl, by simp, ⟨3, rfl, rfl⟩, ?_⟩, rfl⟩
  intro i
  simp only [Nat.testBit_or, Nat.testBit_shiftLeft, Nat.zero_le, decide_True, Bool.and_true,
    Bool.true_and, Nat.zero_add]
  have h0 := fun j (hj : 8 ≤ j) => byte_testBit_ge (b0 % 256) j (Nat.mod_lt _ (by decide)) hj
  have h1 := fun j (hj : 8 ≤ j) => byte_testBit_ge (b1 % 256) j (Nat.mod_lt _ (by decide)) hj
  have h2 := fun j (hj : 8 ≤ j) => byte_testBit_ge (b2 % 256) j (Nat.mod_lt _ (by decide)) hj
  unfold stream_bit
  by_cases hi8 : i < 8
  · rw [show (23 - i) / 8 = 2 from by omega, show 7 - (23 - i) % 8 = i from by omega]
    simp [show ¬ (16 ≤ i) from by omega, show ¬ (8 ≤ i) from by omega,
      show i < 24 from by omega]
  · by_cases hi16 : i < 16
    · rw [show (23 - i) / 8 = 1 from by omega, show 7 - (23 - i) % 8 = i - 8 from by omega]
      simp [show ¬ (16 ≤ i) from by omega, show 8 ≤ i from by omega,
        show i < 24 from by omega, h2 i (by omega)]
    · by_cases hi24 : i < 24
      · rw [show (23 - i) / 8 = 0 from by omega, show 7 - (23 - i) % 8 = i - 16 from by omega]
        simp [show 16 ≤ i from by omega, show 8 ≤ i from by omega, hi24,
          h2 i (by omega), h1 (i - 8) (by omega)]
      · simp [hi24, h0 (i - 16) (by omega), h1 (i - 8) (by omega), h2 i (by omega)]


theorem read_codewords_window (bytes : List Nat) : ∀ (widths : List Nat) (p : Nat)
    (r : LzwCodeWordReader), WindowInv bytes p r →
    (r.stream.good = true → r.missing_bits < 8) → (∀ n ∈ widths, n ≤ 17) →
    (r.read_codewords widths).1 = codewords_of_bits bytes p widths ∧
      ((r.read_codewords widths).2.stream.good = true →
        (r.read_codewords widths).2.missing_bits < 8) := by
  intro widths
  induction widths with
  | nil =>
    intro p r _ hm _
    exact ⟨rfl, hm⟩
  | cons n ns ih =>
    intro p r h hm hw
    obtain ⟨hcw, hinv⟩ := read_codeword_window bytes p n r (hw n (List.mem_cons_self _ _)) h hm
    have hfill := LzwCodeWordReader.read_codeword_refilled r n
    rcases hrc : r.read_codeword n with ⟨cw, r1⟩
    rw [hrc] at hcw hinv hfill
    simp only at hcw hinv hfill
    have hm1 : r1.stream.good = true → r1.missing_bits < 8 := by
      intro hg
      rcases hfill with hf | hf
      · exact hf
      · rw [hf] at hg
        exact absurd hg (by simp)
    obtain ⟨hrest, hbound⟩ := ih (p + n) r1 hinv hm1
      (fun m hmem => hw m (List.mem_cons_of_mem _ hmem))
    unfold LzwCodeWordReader.read_codewords
    rw [hrc]
    simp only [codewords_of_bits]
    exact ⟨by rw [hcw, hrest], hbound⟩

/-- Claim C20. For every byte stream of at least 3 bytes and every list of widths between 9
and 12, the successive calls `read_codeword(n)` return the integers formed by the successive
groups of `n` bits of the bit string of the stream, taken MSB-first, the bits past the end of
the stream being 0; and after the calls `missing_bits` is at most 7 as long as the stream is
good, so the buffer holds at least 17 valid bits. -/
theorem read_codewords_are_stream_bits (junk b0 b1 b2 : Nat) (rest widths : List Nat)
    (hw : ∀ n ∈ widths, 9 ≤ n ∧ n ≤ 12) :
    ((LzwCodeWordReader.init junk ⟨b0 :: b1 :: b2 :: rest, true⟩).read_codewords widths).1 =
        codewords_of_bits (b0 :: b1 :: b2 :: rest) 0 widths ∧
      (((LzwCodeWordReader.init junk ⟨b0 :: b1 :: b2 :: rest, true⟩).read_codewords
            widths).2.stream.good = true →
        ((LzwCodeWordReader.init junk ⟨b0 :: b1 :: b2 :: rest, true⟩).read_codewords
            widths).2.missing_bits ≤ 7) := by
  obtain ⟨hinv, hm0⟩ := init_window junk b0 b1 b2 rest
  obtain ⟨h1, h2⟩ := read_codewords_window (b0 :: b1 :: b2 :: rest) widths 0 _ hinv
    (fun _ => by rw [hm0]; decide) (fun n hn => by have := (hw n hn).2; omega)
  exact ⟨h1, fun hg => Nat.le_of_lt_succ (h2 hg)⟩

theorem read_codewords_are_stream_bits_witness :
    ((LzwCodeWordReader.init 0 ⟨0x20 :: 0xC0 :: 0x40 :: [0x12, 0x34], true⟩).read_codewords
        [9, 9, 12]).1 =
      codewords_of_bits (0x20 :: 0xC0 :: 0x40 :: [0x12, 0x34]) 0 [9, 9, 12] ∧
    codewords_of_bits (0x20 :: 0xC0 :: 0x40 :: [0x12, 0x34]) 0 [9, 9, 12] =
      [0x41, 0x101, 0x004] :=
  ⟨(read_codewords_are_stream_bits 0 0x20 0xC0 0x40 [0x12, 0x34] [9, 9, 12] (by decide)).1,
    by decide⟩

/-! ### DIET: order of the selector bit and the offset low byte (C21) -/

theorem diet_backref_eq_tail (junk ps : Nat) (st : DietState) :
    diet_backref junk ps st =
      diet_backref_tail junk ps st.output st.idx st.reader.read_bit.1
        (st.reader.read_bit.2.read_next_byte junk).1
        (st.reader.read_bit.2.read_next_byte junk).2 := by
  unfold diet_backref diet_backref_tail diet_offset_and_count
  rcases st.reader.read_bit with ⟨bit, r1⟩
  dsimp only
  rcases DietBitReader.read_next_byte junk r1 with ⟨off_lo, r2⟩
  dsimp only
  cases bit
  · simp only [Bool.not_false, if_true]
    rcases r2.read_bit with ⟨c, r3⟩
    dsimp only
    cases c
    · simp only [Bool.false_eq_true, if_false]
      split <;> rfl
    · simp only [if_true]
  · simp only [Bool.not_true, Bool.false_eq_true, if_false]

theorem diet_read_bit_value (r : DietBitReader) :
    r.read_bit.1 = r.current_word.testBit r.bit := by
  have h : (r.current_word &&& 1 <<< r.bit != 0) = r.current_word.testBit r.bit := by
    rw [Nat.one_shiftLeft, Nat.and_two_pow]
    cases r.current_word.testBit r.bit <;> simp
  unfold DietBitReader.read_bit
  dsimp only
  split
  · exact h
  · exact h

theorem read_bit_at_15 (r : DietBitReader) (a b : Nat) (tl : List Nat) (h15 : r.bit = 15)
    (hs : r.stream = ⟨a :: b :: tl, true⟩) :
    r.read_bit = (r.current_word.testBit 15,
      { stream := ⟨tl, true⟩, bit := 0, current_word := a % 256 + 256 * (b % 256) }) := by
  have hv := diet_read_bit_value r
  rw [h15] at hv
  rw [← hv]
  unfold DietBitReader.read_bit
  rw [h15, hs, read_u16_two]
  rfl

theorem read_next_byte_cons (junk c bit w : Nat) (tl : List Nat) :
    DietBitReader.read_next_byte junk { stream := ⟨c :: tl, true⟩, bit := bit, current_word := w } =
      (c % 256, { stream := ⟨tl, true⟩, bit := bit, current_word := w }) := by
  simp [DietBitReader.read_next_byte, IStream.read_u8, IStream.read]

/-- Claim C21 (amended). In a back-reference of `decode_diet` the selector bit is read first
and the raw offset low byte is consumed after it, from the reader that the read of the selector
bit leaves. So when the selector bit is the 16th bit of the current word (`bit = 15`) and the
stream holds the bytes `a, b, c, ...`, reading the selector bit refills the bit word with
`a, b` and the offset low byte is `c`, the byte that follows the next bit word. -/
theorem diet_backref_selector_before_low_byte (junk ps : Nat) (st : DietState) (a b c : Nat)
    (tl : List Nat) (h15 : st.reader.bit = 15)
    (hs : st.reader.stream = ⟨a :: b :: c :: tl, true⟩) :
    diet_backref junk ps st =
        diet_backref_tail junk ps st.output st.idx st.reader.read_bit.1
          (st.reader.read_bit.2.read_next_byte junk).1
          (st.reader.read_bit.2.read_next_byte junk).2 ∧
      st.reader.read_bit = (st.reader.current_word.testBit 15,
        { stream := ⟨c :: tl, true⟩, bit := 0, current_word := a % 256 + 256 * (b % 256) }) ∧
      diet_backref junk ps st =
        diet_backref_tail junk ps st.output st.idx (st.reader.current_word.testBit 15) (c % 256)
          { stream := ⟨tl, true⟩, bit := 0, current_word := a % 256 + 256 * (b % 256) } := by
  have h1 := read_bit_at_15 st.reader a b (c :: tl) h15 hs
  refine ⟨diet_backref_eq_tail junk ps st, h1, ?_⟩
  rw [diet_backref_eq_tail, h1]
  dsimp only
  rw [read_next_byte_cons]

theorem diet_backref_selector_before_low_byte_witness :
    diet_backref 0 16
        { reader := { stream := ⟨[0xFE, 0x00, 0xFC], true⟩, bit := 15, current_word := 0x3FFF },
          output := [1, 2, 3, 4, 5, 6, 7, 8, 9, 10, 11, 12, 13, 14, 0, 0], idx := 14 } =
      diet_backref_tail 0 16 [1, 2, 3, 4, 5, 6, 7, 8, 9, 10, 11, 12, 13, 14, 0, 0] 14
        (Nat.testBit 0x3FFF 15) (0xFC % 256)
        { stream := ⟨[], true⟩, bit := 0, current_word := 0xFE % 256 + 256 * (0x00 % 256) } :=
  (diet_backref_selector_before_low_byte 0 16
    { reader := { stream := ⟨[0xFE, 0x00, 0xFC], true⟩, bit := 15, current_word := 0x3FFF },
      output := [1, 2, 3, 4, 5, 6, 7, 8, 9, 10, 11, 12, 13, 14, 0, 0], idx := 14 }
    0xFE 0x00 0xFC [] rfl rfl).2.2

/-- Counterexample to claim C21 as stated. The first bit word `0x3FFF` announces 14 literals
and ends the literal run with its 15th bit, so the selector bit is its 16th bit. The stream
continues with `0xFE, 0x00, 0xFC`: the offset low byte that the code uses is `0xFC` (the
bytes 11, 12 are copied, offset -4), the byte after the next bit word `0xFE, 0x00`, and not
`0xFE`, the byte that precedes the next bit word (offset -2 would copy 13, 14). -/
theorem diet_low_byte_follows_refilled_word :
    decode_diet 0
        ⟨[0xFF, 0x3F, 1, 2, 3, 4, 5, 6, 7, 8, 9, 10, 11, 12, 13, 14, 0xFE, 0x00, 0xFC], true⟩
        [] 16 =
      .done [1, 2, 3, 4, 5, 6, 7, 8, 9, 10, 11, 12, 13, 14, 11, 12] ∧
    (DietBitReader.read_next_byte 0
        (DietBitReader.read_bit
          { stream := ⟨[0xFE, 0x00, 0xFC], true⟩, bit := 15, current_word := 0x3FFF }).2).1 =
      0xFC := by
  constructor
  · decide
  · decide

/-! ### DIET: range of the back-reference offset (C26) -/

theorem shift_left_add_bit_eq (b : Nat) (x : Bool) :
    shift_left_add_bit b x = (2 * b + x.toNat) % 256 := by
  unfold shift_left_add_bit
  cases x
  · simp [Nat.shiftLeft_eq, Nat.mul_comm]
  · have h := Nat.mul_add_lt_is_or (show 1 < 2 ^ 1 by decide) b
    simp only [Nat.shiftLeft_eq, if_true, Bool.toNat_true]
    rw [Nat.mul_comm b, ← h]

theorem read_hi_byte_loop_succ (n b tmp : Nat) (r : DietBitReader) :
    read_hi_byte_loop (n + 1) b tmp r =
      if r.read_bit.1 then (b, tmp, r.read_bit.2)
      else read_hi_byte_loop n (shift_left_add_bit b r.read_bit.2.read_bit.1)
        ((tmp <<< 1) % 256) r.read_bit.2.read_bit.2 := rfl

theorem read_hi_byte_loop_zero (b tmp : Nat) (r : DietBitReader) :
    read_hi_byte_loop 0 b tmp r = (b, tmp, r) := rfl

theorem read_hi_byte_varlen_eq (r : DietBitReader) :
    read_hi_byte_varlen r =
      if !r.read_bit.2.read_bit.1 then
        (((read_hi_byte_loop 3 (shift_left_add_bit 0xFF r.read_bit.1) 2 r.read_bit.2.read_bit.2).1 + 256 -
          (read_hi_byte_loop 3 (shift_left_add_bit 0xFF r.read_bit.1) 2 r.read_bit.2.read_bit.2).2.1) % 256,
          (read_hi_byte_loop 3 (shift_left_add_bit 0xFF r.read_bit.1) 2 r.read_bit.2.read_bit.2).2.2)
      else (shift_left_add_bit 0xFF r.read_bit.1, r.read_bit.2.read_bit.2) := rfl

theorem read_hi_byte_loop_range (x : Bool) (r : DietBitReader) :
    0xE0 ≤ ((read_hi_byte_loop 3 (shift_left_add_bit 0xFF x) 2 r).1 + 256 -
        (read_hi_byte_loop 3 (shift_left_add_bit 0xFF x) 2 r).2.1) % 256 := by
  have hx : x.toNat ≤ 1 := Bool.toNat_le x
  rw [show (3 : Nat) = 0 + 1 + 1 + 1 from rfl]
  rw [read_hi_byte_loop_succ]
  split
  · dsimp only
    rw [shift_left_add_bit_eq]; omega
  · rw [read_hi_byte_loop_succ]
    generalize r.read_bit.2.read_bit.1 = x1
    generalize r.read_bit.2.read_bit.2 = r1
    have hx1 : x1.toNat ≤ 1 := Bool.toNat_le x1
    split
    · dsimp only
      simp only [shift_left_add_bit_eq, Nat.shiftLeft_eq]; omega
    · rw [read_hi_byte_loop_succ]
      generalize r1.read_bit.2.read_bit.1 = x2
      generalize r1.read_bit.2.read_bit.2 = r2
      have hx2 : x2.toNat ≤ 1 := Bool.toNat_le x2
      split
      · dsimp only
        simp only [shift_left_add_bit_eq, Nat.shiftLeft_eq]; omega
      · rw [read_hi_byte_loop_zero]
        generalize r2.read_bit.2.read_bit.1 = x3
        have hx3 : x3.toNat ≤ 1 := Bool.toNat_le x3
        dsimp only
        simp only [shift_left_add_bit_eq, Nat.shiftLeft_eq]; omega

theorem read_hi_byte_varlen_range (r : DietBitReader) :
    0xE0 ≤ (read_hi_byte_varlen r).1 ∧ (read_hi_byte_varlen r).1 ≤ 0xFF := by
  rw [read_hi_byte_varlen_eq]
  have hx : r.read_bit.1.toNat ≤ 1 := Bool.toNat_le _
  split
  · exact ⟨read_hi_byte_loop_range _ _, by dsimp only; omega⟩
  · dsimp only
    rw [shift_left_add_bit_eq]; omega


theorem read_3bit_value_lt (r : DietBitReader) : (r.read_3bit_value).1 < 8 := by
  unfold DietBitReader.read_3bit_value
  simp only [DietBitReader.read_bits_loop]
  rcases r.read_bit with ⟨b1, r1⟩
  dsimp only
  rcases r1.read_bit with ⟨b2, r2⟩
  dsimp only
  rcases r2.read_bit with ⟨b3, r3⟩
  dsimp only
  cases b1 <;> cases b2 <;> cases b3 <;> decide

theorem short_off_hi_range (v : Nat) (hv : v < 8) :
    0xF7 ≤ ((0xF8 ||| v) + 256 - 1) % 256 ∧ ((0xF8 ||| v) + 256 - 1) % 256 ≤ 0xFE := by
  interval_cases v <;> decide

theorem diet_offset_and_count_range (junk : Nat) (bit : Bool) (off_lo : Nat)
    (r r1 : DietBitReader) (off_hi n : Nat)
    (h : diet_offset_and_count junk bit off_lo r = (some (off_hi, n), r1)) :
    0xE0 ≤ off_hi ∧ off_hi ≤ 0xFF ∧ (bit = false → 0xF7 ≤ off_hi ∧ n = 2) ∧
      (bit = false → off_hi = 0xFF → off_lo ≠ 0xFF) := by
  unfold diet_offset_and_count at h
  cases bit
  · simp only [Bool.not_false, if_true] at h
    rcases hc : r.read_bit with ⟨c, r2⟩
    rw [hc] at h
    dsimp only at h
    cases c
    · simp only [Bool.false_eq_true, if_false] at h
      split at h
      · simp at h
      · rename_i hne
        simp only [Prod.mk.injEq, Option.some.injEq] at h
        obtain ⟨⟨h1, h2⟩, _⟩ := h
        subst h1 h2
        exact ⟨by decide, by decide, fun _ => ⟨by decide, rfl⟩, fun _ _ => hne⟩
    · simp only [if_true] at h
      have hv := read_3bit_value_lt r2
      rcases hv3 : r2.read_3bit_value with ⟨v, r3⟩
      rw [hv3] at h hv
      simp only [Prod.mk.injEq, Option.some.injEq] at h
      obtain ⟨⟨h1, h2⟩, _⟩ := h
      have hr := short_off_hi_range v hv
      subst h1 h2
      exact ⟨by omega, by omega, fun _ => ⟨hr.1, rfl⟩, fun _ h255 => by omega⟩
  · simp only [Bool.not_true, Bool.false_eq_true, if_false] at h
    have hr := read_hi_byte_varlen_range r
    rcases hh : read_hi_byte_varlen r with ⟨hi, r2⟩
    rw [hh] at h hr
    rcases hn : read_repeat_count_varlen junk r2 with ⟨c, r3⟩
    rw [hn] at h
    simp only [Prod.mk.injEq, Option.some.injEq] at h
    obtain ⟨⟨h1, h2⟩, _⟩ := h
    subst h1
    exact ⟨hr.1, hr.2, fun hb => by simp at hb, fun hb => by simp at hb⟩

theorem diet_backref_fields_eq (junk : Nat) (r : DietBitReader) :
    diet_backref_fields junk r =
      (r.read_bit.1, (r.read_bit.2.read_next_byte junk).1,
        diet_offset_and_count junk r.read_bit.1 (r.read_bit.2.read_next_byte junk).1
          (r.read_bit.2.read_next_byte junk).2) := by
  unfold diet_backref_fields
  rcases r.read_bit with ⟨bit, r1⟩
  dsimp only

theorem diet_offset_eq (off_hi off_lo : Nat) (hhi : 0x80 ≤ off_hi) (hhi2 : off_hi ≤ 0xFF)
    (hlo : off_lo < 256) :
    diet_offset off_hi off_lo = (off_hi : Int) * 256 + off_lo - 65536 := by
  have hw : ((off_hi <<< 8) ||| off_lo) % 65536 = off_hi * 256 + off_lo := by
    rw [shiftLeft8_or off_hi off_lo hlo]
    exact Nat.mod_eq_of_lt (by omega)
  unfold diet_offset
  simp only [hw]
  rw [if_pos (by omega)]
  push_cast
  rfl

theorem diet_source_idx_eq (idx off_hi off_lo : Nat) (hhi : 0x80 ≤ off_hi) (hhi2 : off_hi ≤ 0xFF)
    (hlo : off_lo < 256) :
    diet_source_idx idx off_hi off_lo =
      (idx + (2 ^ 64 - 65536 + (off_hi * 256 + off_lo))) % 2 ^ 64 := by
  have hw : ((off_hi <<< 8) ||| off_lo) % 65536 = off_hi * 256 + off_lo := by
    rw [shiftLeft8_or off_hi off_lo hlo]
    exact Nat.mod_eq_of_lt (by omega)
  unfold diet_source_idx
  simp only [hw]
  rw [if_pos (by omega)]

/-- Claim C26 (amended). For every reader state and every content of the uninitialised locals,
a back-reference of `decode_diet` that is copied (not the sentinel) has `off_hi` in
`0xF7..0xFF` in short form; `read_hi_byte_varlen` returns a value in `0xE0..0xFF` from every
reader, which is `off_hi` in long form; so the `int16_t` offset lies in `[-8192, -1]`. The
source position that the code computes is `(idx + offset) mod 2^64`: it is `idx + offset`,
strictly below the write position `idx`, when `-offset <= idx`, and it wraps to
`2^64 + idx + offset`, above `idx`, when `idx < -offset`. -/
theorem diet_offset_negative (junk : Nat) (r r1 : DietBitReader) (bit : Bool)
    (off_lo off_hi n idx : Nat)
    (h : diet_backref_fields junk r = (bit, off_lo, some (off_hi, n), r1)) :
    (bit = false → 0xF7 ≤ off_hi ∧ off_hi ≤ 0xFF) ∧
    (∀ r2 : DietBitReader,
      0xE0 ≤ (read_hi_byte_varlen r2).1 ∧ (read_hi_byte_varlen r2).1 ≤ 0xFF) ∧
    (bit = true → 0xE0 ≤ off_hi ∧ off_hi ≤ 0xFF) ∧
    -8192 ≤ diet_offset off_hi off_lo ∧ diet_offset off_hi off_lo ≤ -1 ∧
    (diet_source_idx idx off_hi off_lo : Int) = ((idx : Int) + diet_offset off_hi off_lo) % 2 ^ 64 ∧
    (-(diet_offset off_hi off_lo) ≤ idx → idx < 2 ^ 64 →
      (diet_source_idx idx off_hi off_lo : Int) = idx + diet_offset off_hi off_lo ∧
        diet_source_idx idx off_hi off_lo < idx) ∧
    ((idx : Int) < -(diet_offset off_hi off_lo) →
      (diet_source_idx idx off_hi off_lo : Int) = 2 ^ 64 + idx + diet_offset off_hi off_lo ∧
        idx < diet_source_idx idx off_hi off_lo) := by
  rw [diet_backref_fields_eq] at h
  simp only [Prod.mk.injEq] at h
  obtain ⟨hb, hl, hf⟩ := h
  have hlo : off_lo < 256 := by rw [← hl]; exact read_next_byte_lt junk _
  rw [hb, hl] at hf
  have hrange := diet_offset_and_count_range junk bit off_lo _ r1 off_hi n hf
  have hoff := diet_offset_eq off_hi off_lo (by omega) hrange.2.1 hlo
  have hsrc := diet_source_idx_eq idx off_hi off_lo (by omega) hrange.2.1 hlo
  have h64 : (2 : Nat) ^ 64 = 18446744073709551616 := by norm_num
  have h64i : (2 : Int) ^ 64 = 18446744073709551616 := by norm_num
  rw [h64] at hsrc
  rw [h64, h64i, hoff, hsrc]
  have hne := hrange.2.2.2
  refine ⟨fun hf => ⟨(hrange.2.2.1 hf).1, hrange.2.1⟩, read_hi_byte_varlen_range,
    fun _ => ⟨hrange.1, hrange.2.1⟩, by omega, by omega, ?_, ?_, ?_⟩
  · push_cast
    omega
  · intro hk h64'
    push_cast
    omega
  · intro hk
    push_cast
    omega


theorem diet_offset_negative_witness :
    (-8192 ≤ diet_offset 0xFF 0xF0 ∧ diet_offset 0xFF 0xF0 ≤ -1) ∧
      diet_source_idx 20 0xFF 0xF0 < 20 ∧ 3 < diet_source_idx 3 0xFF 0xF0 :=
  have h20 := diet_offset_negative 0 ⟨⟨[0xF0], true⟩, 0, 0⟩ ⟨⟨[], true⟩, 2, 0⟩ false 0xF0 0xFF 2 20
    (by decide)
  have h3 := diet_offset_negative 0 ⟨⟨[0xF0], true⟩, 0, 0⟩ ⟨⟨[], true⟩, 2, 0⟩ false 0xF0 0xFF 2 3
    (by decide)
  ⟨⟨h20.2.2.2.1, h20.2.2.2.2.1⟩, (h20.2.2.2.2.2.2.1 (by decide) (by decide)).2,
    (h3.2.2.2.2.2.2.2 (by decide)).2⟩

/-- Counterexample to claim C26 as stated. The stream byte `0xF0` after a bit word of zeros is
decoded as a short-form back-reference with `off_hi = 0xFF`, offset -16. At the write position
`idx = 3` the source position computed by `size_t source_idx = idx + offset` is
`2^64 - 13`, which is not below the write position. -/
theorem diet_source_idx_wraps_above_idx :
    diet_backref_fields 0 ⟨⟨[0xF0], true⟩, 0, 0⟩ =
        (false, 0xF0, some (0xFF, 2), ⟨⟨[], true⟩, 2, 0⟩) ∧
      diet_offset 0xFF 0xF0 = -16 ∧
      diet_source_idx 3 0xFF 0xF0 = 18446744073709551603 ∧
      ¬ diet_source_idx 3 0xFF 0xF0 < 3 := by
  refine ⟨by decide, by decide, by decide, by decide⟩

/-! ### DIET: termination (C27) -/

theorem diet_loop_succ (junk ps fuel : Nat) (st : DietState) :
    diet_loop junk ps (fuel + 1) st =
      if st.idx < ps then
        match diet_pass junk ps st with
        | .done (true, st2) => .done st2
        | .done (false, st2) => diet_loop junk ps fuel st2
        | .thrown e => .thrown e
        | .undefinedAccess => .undefinedAccess
        | .timeout => .timeout
      else .done st := by
  rw [diet_loop]
  unfold diet_pass
  split
  · rcases hl : diet_literal_run junk ps (ps + 1) st with ⟨⟨_ | _, st1⟩⟩ | e | _ | _
    · rfl
    · rfl
    · rfl
    · rfl
    · rfl
  · rfl

theorem diet_pass_holds (junk ps : Nat) (st : DietState) (h : st.idx < ps) :
    (diet_pass junk ps st).Holds fun p =>
      p.2.output.length = st.output.length ∧ (p.1 = true ∨ st.idx + 1 ≤ p.2.idx) := by
  unfold diet_pass
  have hl := diet_literal_run_holds junk ps (ps + 1) st h (by omega)
  split
  · rename_i st1 heq
    rw [heq] at hl
    exact ⟨hl.1, Or.inl rfl⟩
  · rename_i st1 heq
    rw [heq] at hl
    refine (diet_backref_holds junk ps st1).imp ?_
    intro p hp
    refine ⟨hp.1.trans hl.1, ?_⟩
    cases hp1 : p.1
    · right
      have h3 : st1.idx < p.2.idx := hp.2.2 hp1 (hl.2.2 rfl)
      have h4 : st.idx ≤ st1.idx := hl.2.1
      omega
    · left; rfl
  · rename_i e heq
    rw [heq] at hl; exact hl
  · trivial
  · rename_i heq
    rw [heq] at hl; exact hl

theorem diet_literal_run_succ (junk n : Nat) : ∀ (fuel : Nat) (st : DietState),
    st.idx < n → n < st.idx + fuel →
    diet_literal_run junk n (fuel + 1) st = diet_literal_run junk n fuel st := by
  intro fuel
  induction fuel with
  | zero => intro st h1 h2; omega
  | succ fuel ih =>
    intro st h1 h2
    conv_lhs => rw [diet_literal_run]
    conv_rhs => rw [diet_literal_run]
    rcases st.reader.read_bit with ⟨b, r1⟩
    dsimp only
    cases b
    · rfl
    · simp only [if_true]
      rcases DietBitReader.read_next_byte junk r1 with ⟨v, r2⟩
      dsimp only
      by_cases hlen : st.idx < st.output.length
      · simp only [hlen, if_true]
        by_cases hge : st.idx + 1 ≥ n
        · simp only [hge, if_true]
        · simp only [hge, if_false]
          exact ih _ (by simp only; omega) (by simp only; omega)
      · simp only [hlen, if_false]

theorem diet_literal_run_fuel (junk n : Nat) (st : DietState) (h : st.idx < n) :
    ∀ (d fuel : Nat), n < st.idx + fuel →
    diet_literal_run junk n (fuel + d) st = diet_literal_run junk n fuel st := by
  intro d
  induction d with
  | zero => intro fuel _; rfl
  | succ d ih =>
    intro fuel hf
    rw [← Nat.add_assoc, diet_literal_run_succ junk n (fuel + d) st h (by omega)]
    exact ih fuel hf

theorem diet_loop_fuel_succ (junk n : Nat) : ∀ (fuel : Nat) (st : DietState),
    n - st.idx < fuel →
    diet_loop junk n (fuel + 1) st = diet_loop junk n fuel st := by
  intro fuel
  induction fuel with
  | zero => intro st h; omega
  | succ fuel ih =>
    intro st h
    rw [diet_loop_succ junk n (fuel + 1), diet_loop_succ junk n fuel]
    by_cases hlt : st.idx < n
    · simp only [hlt, if_true]
      have hp := diet_pass_holds junk n st hlt
      rcases hpass : diet_pass junk n st with ⟨⟨_ | _, st2⟩⟩ | e | _ | _
      · rw [hpass] at hp
        have h2 : st.idx + 1 ≤ st2.idx := by
          rcases hp.2 with h3 | h3
          · exact absurd h3 (by simp)
          · exact h3
        exact ih st2 (by omega)
      · rfl
      · rfl
      · rfl
      · rfl
    · simp only [hlt, if_false]

theorem diet_loop_fuel (junk n : Nat) (st : DietState) :
    ∀ (d fuel : Nat), n - st.idx < fuel →
    diet_loop junk n (fuel + d) st = diet_loop junk n fuel st := by
  intro d
  induction d with
  | zero => intro fuel _; rfl
  | succ d ih =>
    intro fuel hf
    rw [← Nat.add_assoc, diet_loop_fuel_succ junk n (fuel + d) st (by omega)]
    exact ih fuel hf

/-- Claim C27. `decode_diet` terminates for every input stream, every content of the
uninitialised locals, every initial `output` and every `payload_size`: its run never ends in
`timeout`. Each pass of the outer loop entered with `idx < payload_size` ends (it does not
time out), and either the function returns during the pass or `idx` has increased by at least
1; `diet_loop` with fuel `k + 1` makes at most `k` passes, and with fuel `payload_size + 1`
(at most `payload_size` passes) its result is the result for every larger fuel; the inner
literal loop likewise makes at most `payload_size - idx` passes. -/
theorem decode_diet_terminates (junk : Nat) (input : IStream) (output : List Nat)
    (payload_size : Nat) :
    decode_diet junk input output payload_size ≠ .timeout ∧
    (∀ st : DietState, st.idx < payload_size →
      (diet_pass junk payload_size st).Holds fun p => p.1 = true ∨ st.idx + 1 ≤ p.2.idx) ∧
    (∀ (fuel : Nat) (st : DietState),
      diet_loop junk payload_size (fuel + 1) st =
        if st.idx < payload_size then
          match diet_pass junk payload_size st with
          | .done (true, st2) => .done st2
          | .done (false, st2) => diet_loop junk payload_size fuel st2
          | .thrown e => .thrown e
          | .undefinedAccess => .undefinedAccess
          | .timeout => .timeout
        else .done st) ∧
    (∀ (d : Nat) (st : DietState),
      diet_loop junk payload_size (payload_size + 1 + d) st =
        diet_loop junk payload_size (payload_size + 1) st) ∧
    (∀ (d : Nat) (st : DietState), st.idx < payload_size →
      diet_literal_run junk payload_size (payload_size + 1 + d) st =
        diet_literal_run junk payload_size (payload_size + 1) st) := by
  refine ⟨?_, fun st h => (diet_pass_holds junk payload_size st h).imp fun p hp => hp.2,
    fun fuel st => diet_loop_succ junk payload_size fuel st,
    fun d st => diet_loop_fuel junk payload_size st d _ (by omega),
    fun d st h => diet_literal_run_fuel junk payload_size st h d _ (by omega)⟩
  have h := diet_loop_holds junk payload_size (payload_size + 1)
    { reader := DietBitReader.init input, output := resize output payload_size, idx := 0 }
    (by simp) (length_resize _ _)
  unfold decode_diet decode_diet_run
  generalize diet_loop junk payload_size (payload_size + 1) _ = o at h
  cases o with
  | done a => simp [Outcome.map]
  | thrown e => exact h.elim
  | undefinedAccess => simp [Outcome.map]
  | timeout => exact h.elim


theorem decode_diet_terminates_witness :
    decode_diet 0 ⟨[0x00, 0x00, 0xFE], true⟩ [] 4 ≠ .timeout ∧
      (diet_pass 0 4
          { reader := DietBitReader.init ⟨[0x01, 0x00, 0x41, 0xFF], true⟩,
            output := [0, 0, 0, 0], idx := 0 }).Holds
        (fun p => p.1 = true ∨ 0 + 1 ≤ p.2.idx) :=
  ⟨(decode_diet_terminates 0 ⟨[0x00, 0x00, 0xFE], true⟩ [] 4).1,
   (decode_diet_terminates 0 ⟨[0x00, 0x00, 0xFE], true⟩ [] 4).2.1
      { reader := DietBitReader.init ⟨[0x01, 0x00, 0x41, 0xFF], true⟩,
        output := [0, 0, 0, 0], idx := 0 } (by decide)⟩

/-! ### DIET: accesses of the copy loop (C30) -/

theorem diet_backref_eq_fields (junk ps : Nat) (st : DietState) :
    diet_backref junk ps st =
      match diet_backref_fields junk st.reader with
      | (_, _, none, r1) => .done (true, { reader := r1, output := st.output, idx := st.idx })
      | (_, off_lo, some (off_hi, repeat_count), r1) =>
        (diet_copy ps repeat_count st.output st.idx (diet_source_idx st.idx off_hi off_lo)).map
          fun p => (false, { reader := r1, output := p.1, idx := p.2 }) := by
  rw [diet_backref_eq_tail, diet_backref_fields_eq]
  unfold diet_backref_tail
  rcases diet_offset_and_count junk st.reader.read_bit.1
    (st.reader.read_bit.2.read_next_byte junk).1
    (st.reader.read_bit.2.read_next_byte junk).2 with ⟨_ | ⟨hi, n⟩, r1⟩ <;> rfl

theorem diet_literal_run_done (junk n : Nat) : ∀ (fuel : Nat) (st : DietState),
    st.idx < n → n < st.idx + fuel → st.output.length = n →
    ∃ p, diet_literal_run junk n fuel st = .done p ∧
      p.2.output.length = n ∧ st.idx ≤ p.2.idx ∧ (p.1 = false → p.2.idx < n) := by
  intro fuel
  induction fuel with
  | zero => intro st h1 h2; omega
  | succ fuel ih =>
    intro st h1 h2 h3
    rw [diet_literal_run]
    rcases st.reader.read_bit with ⟨b, r1⟩
    dsimp only
    cases b
    · exact ⟨_, rfl, h3, le_refl _, fun _ => h1⟩
    · simp only [if_true]
      rcases DietBitReader.read_next_byte junk r1 with ⟨v, r2⟩
      dsimp only
      rw [if_pos (by omega)]
      by_cases hge : st.idx + 1 ≥ n
      · rw [if_pos hge]
        exact ⟨_, rfl, by simp [h3], by simp, fun hf => by simp at hf⟩
      · rw [if_neg hge]
        obtain ⟨p, hp, h4, h5, h6⟩ := ih
          { reader := r2, output := st.output.set st.idx v, idx := st.idx + 1 }
          (by simp only; omega) (by simp only; omega) (by simp [h3])
        exact ⟨p, hp, h4, by simp only at h5; omega, h6⟩

theorem diet_copy_accesses_back (ps k : Nat) (hk1 : 1 ≤ k) (h64 : ps < 2 ^ 64) :
    ∀ (n idx : Nat), k ≤ idx →
    ∀ a ∈ diet_copy_accesses ps n idx (idx - k), a.1 < a.2 ∧ a.2 < ps := by
  intro n
  induction n with
  | zero => intro idx _ a ha; simp [diet_copy_accesses] at ha
  | succ n ih =>
    intro idx hk a ha
    rw [diet_copy_accesses] at ha
    split at ha
    · rename_i hlt
      have hnext : (idx - k + 1) % 2 ^ 64 = idx + 1 - k := by
        rw [Nat.mod_eq_of_lt (by omega)]; omega
      rw [hnext] at ha
      rcases List.mem_cons.1 ha with h | h
      · subst h
        exact ⟨by simp only; omega, hlt⟩
      · exact ih (idx + 1) (by omega) a h
    · simp at ha

theorem diet_backref_fields_range (junk : Nat) (r r1 : DietBitReader) (bit : Bool)
    (off_lo off_hi n : Nat)
    (h : diet_backref_fields junk r = (bit, off_lo, some (off_hi, n), r1)) :
    off_lo < 256 ∧ 0xE0 ≤ off_hi ∧ off_hi ≤ 0xFF := by
  rw [diet_backref_fields_eq] at h
  simp only [Prod.mk.injEq] at h
  obtain ⟨hb, hl, hf⟩ := h
  have hlo : off_lo < 256 := by rw [← hl]; exact read_next_byte_lt junk _
  have hrange := diet_offset_and_count_range junk _ _ _ r1 off_hi n hf
  exact ⟨hlo, hrange.1, hrange.2.1⟩

theorem diet_backrefs_mem (junk ps : Nat) : ∀ (fuel : Nat) (st : DietState),
    ∀ b ∈ diet_backrefs junk ps fuel st,
      b.1 < ps ∧ b.2.2.1 < 256 ∧ 0xE0 ≤ b.2.1 ∧ b.2.1 ≤ 0xFF := by
  intro fuel
  induction fuel with
  | zero => intro st b hb; simp [diet_backrefs] at hb
  | succ fuel ih =>
    intro st b hb
    rw [diet_backrefs] at hb
    by_cases hlt : st.idx < ps
    · rw [if_pos hlt] at hb
      have hl := diet_literal_run_holds junk ps (ps + 1) st hlt (by omega)
      rcases hrun : diet_literal_run junk ps (ps + 1) st with ⟨⟨_ | _, st1⟩⟩ | e | _ | _
      · rw [hrun] at hb hl
        dsimp only at hb
        rcases hf : diet_backref_fields junk st1.reader with ⟨bit, lo, _ | ⟨hi, n⟩, r1⟩
        · rw [hf] at hb
          simp at hb
        · rw [hf] at hb
          dsimp only at hb
          rcases List.mem_cons.1 hb with h | h
          · subst h
            have hr := diet_backref_fields_range junk _ r1 bit lo hi n hf
            exact ⟨hl.2.2 rfl, hr⟩
          · rcases hbr : diet_backref junk ps st1 with ⟨⟨_ | _, st2⟩⟩ | e | _ | _
            · rw [hbr] at h
              exact ih st2 b h
            all_goals (rw [hbr] at h; simp at h)
      all_goals (rw [hrun] at hb; simp at hb)
    · rw [if_neg hlt] at hb
      simp at hb

theorem diet_source_idx_of_offset (idx off_hi off_lo : Nat) (hhi : 0xE0 ≤ off_hi)
    (hhi2 : off_hi ≤ 0xFF) (hlo : off_lo < 256) (h64 : idx < 2 ^ 64)
    (hk : -(diet_offset off_hi off_lo) ≤ (idx : Int)) :
    1 ≤ 65536 - (off_hi * 256 + off_lo) ∧ 65536 - (off_hi * 256 + off_lo) ≤ idx ∧
      diet_source_idx idx off_hi off_lo = idx - (65536 - (off_hi * 256 + off_lo)) := by
  rw [diet_offset_eq off_hi off_lo (by omega) hhi2 hlo] at hk
  rw [diet_source_idx_eq idx off_hi off_lo (by omega) hhi2 hlo]
  have h : (2 : Nat) ^ 64 = 18446744073709551616 := by norm_num
  rw [h] at h64 ⊢
  omega

theorem diet_loop_safe (junk ps : Nat) (h64 : ps < 2 ^ 64) : ∀ (fuel : Nat) (st : DietState),
    ps - st.idx < fuel → st.output.length = ps →
    (∀ b ∈ diet_backrefs junk ps fuel st, -(diet_offset b.2.1 b.2.2.1) ≤ (b.1 : Int)) →
    ∃ st1, diet_loop junk ps fuel st = .done st1 ∧ st1.output.length = ps := by
  intro fuel
  induction fuel with
  | zero => intro st h; omega
  | succ fuel ih =>
    intro st hfuel hlen hb
    rw [diet_loop]
    rw [diet_backrefs] at hb
    by_cases hlt : st.idx < ps
    · rw [if_pos hlt] at hb ⊢
      obtain ⟨p, hrun, hl1, hl2, hl3⟩ :=
        diet_literal_run_done junk ps (ps + 1) st hlt (by omega) hlen
      rw [hrun] at hb ⊢
      rcases p with ⟨_ | _, st1⟩
      · dsimp only at hb ⊢
        have hidx : st1.idx < ps := hl3 rfl
        have hlen1 : st1.output.length = ps := hl1
        have hmono : st.idx ≤ st1.idx := hl2
        have hbh := diet_backref_holds junk ps st1
        rw [diet_backref_eq_fields] at hbh ⊢
        rw [diet_backref_eq_fields] at hb
        rcases hf : diet_backref_fields junk st1.reader with ⟨bit, lo, _ | ⟨hi, n⟩, r1⟩
        · exact ⟨_, rfl, hl1⟩
        · rw [hf] at hb hbh
          dsimp only at hb hbh ⊢
          have hr := diet_backref_fields_range junk _ r1 bit lo hi n hf
          have hk := hb (st1.idx, hi, lo, n) (List.mem_cons_self _ _)
          obtain ⟨hk1, hk2, hsrc⟩ := diet_source_idx_of_offset st1.idx hi lo hr.2.1 hr.2.2 hr.1
            (by omega) hk
          rw [hsrc] at hb hbh ⊢
          obtain ⟨out1, hcopy, hlen2, -⟩ :=
            diet_copy_back ps _ hk1 h64 n st1.output st1.idx hk2 (by omega)
          rw [hcopy] at hb hbh ⊢
          simp only [Outcome.map] at hb hbh ⊢
          have hadv : st1.idx < st1.idx + min n (ps - st1.idx) := hbh.2.2 rfl hidx
          exact ih _ (by simp only; omega) (by simp only; omega)
            (fun b hmem => hb b (List.mem_cons_of_mem _ hmem))
      · exact ⟨_, rfl, hl1⟩
    · rw [if_neg hlt]
      exact ⟨_, rfl, hlen⟩

/-- Claim C30. Let `payload_size` be a `size_t` value and suppose that every back-reference
that `decode_diet` decodes and copies is decoded at a write position `idx` with
`-offset <= idx`. Then `decode_diet` returns, with an output of `payload_size` bytes (no access
of the run, read or write, is outside the buffer of `payload_size` bytes), and in every pass of
the copy loop of every back-reference the index read is strictly below the index written in
that pass, which is below `payload_size`. Without the hypothesis `source_idx` wraps: for the
stream `00 00 FE` (a back-reference with offset -2 as the very first token, at `idx = 0`)
the copy loop reads at `2^64 - 2` and the run stops at that out-of-range access. -/
theorem diet_accesses_in_bounds (junk : Nat) (input : IStream) (output : List Nat)
    (payload_size : Nat) (h64 : payload_size < 2 ^ 64)
    (h : ∀ b ∈ diet_backrefs junk payload_size (payload_size + 1)
        { reader := DietBitReader.init input, output := resize output payload_size, idx := 0 },
      -(diet_offset b.2.1 b.2.2.1) ≤ (b.1 : Int)) :
    (∃ out, decode_diet junk input output payload_size = .done out ∧
      out.length = payload_size) ∧
    (∀ b ∈ diet_backrefs junk payload_size (payload_size + 1)
        { reader := DietBitReader.init input, output := resize output payload_size, idx := 0 },
      ∀ a ∈ diet_copy_accesses payload_size b.2.2.2 b.1 (diet_source_idx b.1 b.2.1 b.2.2.1),
        a.1 < a.2 ∧ a.2 < payload_size) ∧
    (decode_diet 0 ⟨[0x00, 0x00, 0xFE], true⟩ [] 4 = .undefinedAccess ∧
      diet_backrefs 0 4 5
          { reader := DietBitReader.init ⟨[0x00, 0x00, 0xFE], true⟩, output := resize [] 4,
            idx := 0 } = [(0, 0xFF, 0xFE, 2)] ∧
      diet_copy_accesses 4 2 0 (diet_source_idx 0 0xFF 0xFE) =
        [(2 ^ 64 - 2, 0), (2 ^ 64 - 1, 1)]) := by
  refine ⟨?_, ?_, by decide, by decide, by decide⟩
  · obtain ⟨st1, hrun, hlen⟩ := diet_loop_safe junk payload_size h64 (payload_size + 1)
      { reader := DietBitReader.init input, output := resize output payload_size, idx := 0 }
      (by simp) (length_resize _ _) h
    refine ⟨st1.output, ?_, hlen⟩
    unfold decode_diet decode_diet_run
    rw [hrun]
    rfl
  · intro b hb a ha
    have hm := diet_backrefs_mem junk payload_size _ _ b hb
    obtain ⟨hk1, hk2, hsrc⟩ := diet_source_idx_of_offset b.1 b.2.1 b.2.2.1 hm.2.2.1 hm.2.2.2
      hm.2.1 (by omega) (h b hb)
    rw [hsrc] at ha
    exact diet_copy_accesses_back payload_size _ hk1 h64 b.2.2.2 b.1 hk2 a ha

theorem diet_accesses_in_bounds_witness :
    (decode_diet 0
        ⟨[0xFF, 0x3F, 1, 2, 3, 4, 5, 6, 7, 8, 9, 10, 11, 12, 13, 14, 0xFE, 0x00, 0xFC], true⟩
        [] 16).Holds (fun out => out.length = 16) ∧
      diet_backrefs 0 16 17
        { reader := DietBitReader.init
            ⟨[0xFF, 0x3F, 1, 2, 3, 4, 5, 6, 7, 8, 9, 10, 11, 12, 13, 14, 0xFE, 0x00, 0xFC], true⟩,
          output := resize [] 16, idx := 0 } = [(14, 0xFF, 0xFC, 2)] ∧
      diet_copy_accesses 16 2 14 (diet_source_idx 14 0xFF 0xFC) = [(10, 14), (11, 15)] :=
  ⟨match diet_accesses_in_bounds 0
      ⟨[0xFF, 0x3F, 1, 2, 3, 4, 5, 6, 7, 8, 9, 10, 11, 12, 13, 14, 0xFE, 0x00, 0xFC], true⟩
      [] 16 (by decide) (by decide) with
    | ⟨⟨_, hrun, hlen⟩, _⟩ => by rw [hrun]; exact hlen,
   by decide, by decide⟩

/-! ### LZW: one new entry per codeword (C22) -/

theorem lzw_reset_of_not_clear (alt_lzw : Bool) (st : LzwState)
    (h : st.prev ≠ code_clear alt_lzw) : lzw_reset alt_lzw st = st := by
  unfold lzw_reset
  rw [if_neg h]

theorem lzw_reset_of_clear (alt_lzw : Bool) (st : LzwState)
    (h : st.prev = code_clear alt_lzw) :
    lzw_reset alt_lzw st =
      { st with nbit := 9, dictsize := dict_size_initial, dict := initial_dict } := by
  unfold lzw_reset
  rw [if_pos h]

theorem DictOk.lookup_none {n : Nat} {d : Dict} (h : DictOk n d) : d.lookup n = none := by
  rw [List.lookup_eq_none_iff]
  intro p hp
  have := h.1 p hp
  simp only [bne_iff_ne, ne_eq]
  omega

theorem Dict.assign_length_of_none {d : Dict} {k : Nat} (v : List Nat)
    (h : d.lookup k = none) : (Dict.assign d k v).length = d.length + 1 := by
  unfold Dict.assign
  rw [h]
  simp

theorem lzw_reachable (alt_lzw : Bool) (junk k : Nat) (input : IStream) (output : List Nat)
    (st : LzwState)
    (hreach : lzw_after alt_lzw k (lzw_start alt_lzw junk input output) = some st) :
    LzwInv alt_lzw st ∧ LzwEntries st :=
  ⟨lzw_after_inv alt_lzw k _ st (lzw_start_inv alt_lzw junk input output) hreach,
   lzw_after_entries alt_lzw k _ st (lzw_start_entries alt_lzw junk input output) hreach⟩

/-- Claim C22. Take a state `st` that `decode_lzw` reaches at the head of a pass of its loop, the
loop going on, in which the codeword read is neither sentinel. If the previous codeword is not
the clear code, `dictsize < 4096` and the codeword is at most `dictsize` (otherwise the decoder
throws), then `prev` has an entry `ps`, the pass ends, and after it `dictsize` has increased by
exactly 1, the code `dictsize` (which had no entry) has the entry `ps ++ [c]` where `c` is the
first byte of the string `c :: w` of the current codeword (the string that is appended to the
output), every other code has the entry it had, and the dictionary holds exactly one entry
more. If the previous codeword is the clear code or `dictsize = 4096`, and the codeword read
is below `dictsize`, the pass ends with the dictionary and `dictsize` that were in place when
the codeword was read (after the reset block: those of `st` when `prev` is not the clear
code, the 256 single-byte entries and 258 when it is). -/
theorem lzw_one_entry_per_codeword (alt_lzw : Bool) (junk k : Nat) (input : IStream)
    (output : List Nat) (st : LzwState)
    (hreach : lzw_after alt_lzw k (lzw_start alt_lzw junk input output) = some st)
    (hend : st.prev ≠ code_end alt_lzw)
    (hns : lzw_codeword alt_lzw st ≠ code_end alt_lzw ∧
      lzw_codeword alt_lzw st ≠ code_clear alt_lzw) :
    (st.prev ≠ code_clear alt_lzw → st.dictsize < 0x1000 →
      lzw_codeword alt_lzw st ≤ st.dictsize →
      ∃ ps st1 c w, st.dict.lookup st.prev = some ps ∧ lzw_body alt_lzw st = .done st1 ∧
        st1.dictsize = st.dictsize + 1 ∧
        st.dict.lookup st.dictsize = none ∧
        st1.dict.lookup (lzw_codeword alt_lzw st) = some (c :: w) ∧
        st1.output = st.output ++ (c :: w) ∧
        st1.dict.lookup st.dictsize = some (ps ++ [c]) ∧
        (∀ j, j ≠ st.dictsize → st1.dict.lookup j = st.dict.lookup j) ∧
        st1.dict.length = st.dict.length + 1) ∧
    ((st.prev = code_clear alt_lzw ∨ st.dictsize = 0x1000) →
      lzw_codeword alt_lzw st < (lzw_reset alt_lzw st).dictsize →
      ∃ st1, lzw_body alt_lzw st = .done st1 ∧
        st1.dict = (lzw_reset alt_lzw st).dict ∧
        st1.dictsize = (lzw_reset alt_lzw st).dictsize ∧
        (st.prev ≠ code_clear alt_lzw → st1.dict = st.dict ∧ st1.dictsize = st.dictsize) ∧
        (st.prev = code_clear alt_lzw → st1.dict = initial_dict ∧ st1.dictsize = 0x102)) := by
  obtain ⟨hinv, hent⟩ := lzw_reachable alt_lzw junk k input output st hreach
  have hns2 := (sentinel_cases alt_lzw _).1 hns
  constructor
  · intro hclear hlim hle
    have hr := lzw_reset_of_not_clear alt_lzw st hclear
    have hp2 := (sentinel_cases alt_lzw _).1 ⟨hend, hclear⟩
    obtain ⟨pb, pv, hprev⟩ := hent.2.1 st.prev hent.2.2 hp2.1 hp2.2
    have hnone : st.dict.lookup st.dictsize = none := hinv.2.1.lookup_none
    rw [lzw_body_eq, hr]
    rcases Nat.lt_or_eq_of_le hle with hlt | heq
    · obtain ⟨b, v, hcw⟩ := hent.2.1 _ hlt hns2.1 hns2.2
      rw [lzw_process_known_learn alt_lzw st _ b v (pb :: pv) _ hns hlt hcw hclear hlim hprev]
      refine ⟨pb :: pv, _, b, v, hprev, rfl, rfl, hnone, ?_, rfl, ?_, ?_, ?_⟩
      · show (Dict.assign st.dict st.dictsize _).lookup _ = _
        rw [Dict.assign_lookup_ne _ (by omega)]
        exact hcw
      · exact Dict.assign_lookup_self _ _ _
      · intro j hj
        exact Dict.assign_lookup_ne _ hj
      · exact Dict.assign_length_of_none _ hnone
    · rw [lzw_process_next alt_lzw st _ pb pv _ hns heq hclear hlim hprev]
      refine ⟨pb :: pv, _, pb, pv ++ [pb], hprev, rfl, rfl, hnone, ?_, rfl, ?_, ?_, ?_⟩
      · show (Dict.assign st.dict st.dictsize _).lookup _ = _
        rw [heq]
        exact Dict.assign_lookup_self _ _ _
      · exact Dict.assign_lookup_self _ _ _
      · intro j hj
        exact Dict.assign_lookup_ne _ hj
      · exact Dict.assign_length_of_none _ hnone
  · intro hskip hlt
    have hent0 := lzw_reset_entries alt_lzw st hent
    obtain ⟨b, v, hcw⟩ := hent0.2.1 _ hlt hns2.1 hns2.2
    have hskip0 : ¬((lzw_reset alt_lzw st).prev ≠ code_clear alt_lzw ∧
        (lzw_reset alt_lzw st).dictsize < dict_limit) := by
      rw [lzw_reset_prev]
      rintro ⟨h1, h2⟩
      rcases hskip with h | h
      · exact h1 h
      · rw [lzw_reset_of_not_clear alt_lzw st h1, h] at h2
        exact absurd h2 (by decide)
    rw [lzw_body_eq,
      lzw_process_known_skip alt_lzw (lzw_reset alt_lzw st) _ b v _ hns hlt hcw hskip0]
    refine ⟨_, rfl, rfl, rfl, ?_, ?_⟩
    · intro h
      show (lzw_reset alt_lzw st).dict = st.dict ∧ (lzw_reset alt_lzw st).dictsize = st.dictsize
      rw [lzw_reset_of_not_clear alt_lzw st h]
      exact ⟨rfl, rfl⟩
    · intro h
      show (lzw_reset alt_lzw st).dict = initial_dict ∧ (lzw_reset alt_lzw st).dictsize = 0x102
      rw [lzw_reset_of_clear alt_lzw st h]
      exact ⟨rfl, rfl⟩


theorem lzw_one_entry_per_codeword_witness :
    (lzw_body false
        ((lzw_after false 1 (lzw_start false 0 ⟨[0x20, 0xC0, 0xA0, 0x20], true⟩ [])).getD
          (lzw_start false 0 ⟨[], true⟩ []))).Holds
      (fun st1 => st1.dictsize = 258 + 1 ∧ st1.dict.length = 256 + 1) ∧
    (lzw_body false (lzw_start false 0 ⟨[0x20, 0xC0, 0xA0, 0x20], true⟩ [])).Holds
      (fun st1 => st1.dict = initial_dict ∧ st1.dictsize = 0x102) :=
  ⟨match (lzw_one_entry_per_codeword false 0 1 ⟨[0x20, 0xC0, 0xA0, 0x20], true⟩ []
      ((lzw_after false 1 (lzw_start false 0 ⟨[0x20, 0xC0, 0xA0, 0x20], true⟩ [])).getD
        (lzw_start false 0 ⟨[], true⟩ []))
      (by decide) (by decide) (by decide)).1 (by decide) (by decide) (by decide) with
    | ⟨_, _, _, _, _, hb, hd, _, _, _, _, _, hlen⟩ => by rw [hb]; exact ⟨hd, hlen⟩,
   match (lzw_one_entry_per_codeword false 0 0 ⟨[0x20, 0xC0, 0xA0, 0x20], true⟩ []
      (lzw_start false 0 ⟨[0x20, 0xC0, 0xA0, 0x20], true⟩ [])
      rfl (by decide) (by decide)).2 (Or.inl rfl) (by decide) with
    | ⟨_, hb, _, _, _, hc⟩ => by rw [hb]; exact hc rfl⟩

/-! ### LZW: width of the codewords (C23) -/

/-- The outcomes of a pass of the loop of `decode_lzw` from a state with the entries of
`LzwEntries`: the pass throws, or it ends with the dictionary, `dictsize` and `nbit` it had,
or it ends with one new entry under the code `dictsize`. -/
theorem lzw_process_cases (alt_lzw : Bool) (st : LzwState) (cw : Nat)
    (rd : LzwCodeWordReader) (h : LzwEntries st) (hprev : st.prev ≠ code_end alt_lzw) :
    lzw_process alt_lzw st cw rd = .thrown .invalidLzwData ∨
    (∃ out, lzw_process alt_lzw st cw rd =
      .done { st with reader := rd, prev := cw, output := out }) ∨
    (∃ v out, st.prev ≠ code_clear alt_lzw ∧ st.dictsize < dict_limit ∧
      lzw_process alt_lzw st cw rd =
        .done { reader := rd,
                nbit := if st.dictsize + 1 = 1 <<< st.nbit ∧ st.nbit < 12 then st.nbit + 1
                        else st.nbit,
                dictsize := st.dictsize + 1,
                dict := Dict.assign st.dict st.dictsize v,
                prev := cw,
                output := out }) := by
  obtain ⟨hsz, hent, hplt⟩ := h
  by_cases hns : cw ≠ code_end alt_lzw ∧ cw ≠ code_clear alt_lzw
  · have hns2 := (sentinel_cases alt_lzw cw).mp hns
    by_cases hlt : cw < st.dictsize
    · obtain ⟨b, v, hl⟩ := hent cw hlt hns2.1 hns2.2
      by_cases hlearn : st.prev ≠ code_clear alt_lzw ∧ st.dictsize < dict_limit
      · have hp2 := (sentinel_cases alt_lzw st.prev).mp ⟨hprev, hlearn.1⟩
        obtain ⟨pb, pv, hp⟩ := hent st.prev hplt hp2.1 hp2.2
        exact Or.inr (Or.inr ⟨_, _, hlearn.1, hlearn.2,
          lzw_process_known_learn alt_lzw st cw b v (pb :: pv) rd hns hlt hl hlearn.1
            hlearn.2 hp⟩)
      · exact Or.inr (Or.inl ⟨_,
          lzw_process_known_skip alt_lzw st cw b v rd hns hlt hl hlearn⟩)
    · by_cases hcond : st.prev = code_clear alt_lzw ∨ st.dictsize ≥ dict_limit ∨
          cw ≠ st.dictsize
      · left
        have hnb : lzw_newbyte alt_lzw st cw = .thrown .invalidLzwData := by
          unfold lzw_newbyte
          rw [if_neg hlt, if_pos hcond]
        unfold lzw_process
        rw [if_pos hns, hnb]
      · have hclear : st.prev ≠ code_clear alt_lzw := fun hh => hcond (Or.inl hh)
        have hlim : st.dictsize < dict_limit :=
          Nat.lt_of_not_le fun hh => hcond (Or.inr (Or.inl hh))
        have hcw : cw = st.dictsize :=
          Classical.not_not.mp fun hh => hcond (Or.inr (Or.inr hh))
        have hp2 := (sentinel_cases alt_lzw st.prev).mp ⟨hprev, hclear⟩
        obtain ⟨pb, pv, hp⟩ := hent st.prev hplt hp2.1 hp2.2
        exact Or.inr (Or.inr ⟨_, _, hclear, hlim,
          lzw_process_next alt_lzw st cw pb pv rd hns hcw hclear hlim hp⟩)
  · right; left
    refine ⟨st.output, ?_⟩
    unfold lzw_process
    rw [if_neg hns]

theorem width_step (n d : Nat) (h9 : 9 ≤ n) (h12 : n ≤ 12) (hlo : 2 ^ (n - 1) ≤ d)
    (hhi : d < 2 ^ n ∨ (n = 12 ∧ d = 4096)) (hlim : d < 4096) :
    9 ≤ (if d + 1 = 1 <<< n ∧ n < 12 then n + 1 else n) ∧
      (if d + 1 = 1 <<< n ∧ n < 12 then n + 1 else n) ≤ 12 ∧
      2 ^ ((if d + 1 = 1 <<< n ∧ n < 12 then n + 1 else n) - 1) ≤ d + 1 ∧
      (d + 1 < 2 ^ (if d + 1 = 1 <<< n ∧ n < 12 then n + 1 else n) ∨
        ((if d + 1 = 1 <<< n ∧ n < 12 then n + 1 else n) = 12 ∧ d + 1 = 4096)) ∧
      ((if d + 1 = 1 <<< n ∧ n < 12 then n + 1 else n) =
        if d + 1 = 2 ^ n ∧ n < 12 then n + 1 else n) := by
  rw [Nat.one_shiftLeft]
  interval_cases n
  all_goals norm_num at hlo hhi ⊢
  all_goals first | omega | (split_ifs <;> omega)

theorem lzw_reset_width (alt_lzw : Bool) (st : LzwState) (h : LzwWidth st) :
    LzwWidth (lzw_reset alt_lzw st) := by
  unfold lzw_reset
  split
  · exact ⟨(by decide : 9 ≤ 9), (by decide : 9 ≤ 12),
      (by decide : 2 ^ (9 - 1) ≤ dict_size_initial),
      Or.inl (by decide : dict_size_initial < 2 ^ 9)⟩
  · exact h

theorem lzw_process_width (alt_lzw : Bool) (st st1 : LzwState) (cw : Nat)
    (rd : LzwCodeWordReader) (h : LzwEntries st) (hw : LzwWidth st)
    (hprev : st.prev ≠ code_end alt_lzw)
    (hb : lzw_process alt_lzw st cw rd = .done st1) :
    LzwWidth st1 ∧
      st1.nbit = (if st1.dictsize = 2 ^ st.nbit ∧ st.nbit < 12 then st.nbit + 1 else st.nbit) ∧
      (st1.dictsize = st.dictsize ∨ st1.dictsize = st.dictsize + 1) := by
  obtain ⟨h9, h12, hlo, hhi⟩ := hw
  rcases lzw_process_cases alt_lzw st cw rd h hprev with hc | ⟨out, hc⟩ | ⟨v, out, _, hlim, hc⟩
  · rw [hc] at hb
    exact absurd hb (by simp)
  · rw [hc] at hb
    simp only [Outcome.done.injEq] at hb
    subst hb
    refine ⟨⟨h9, h12, hlo, hhi⟩, ?_, Or.inl rfl⟩
    show st.nbit = if st.dictsize = 2 ^ st.nbit ∧ st.nbit < 12 then st.nbit + 1 else st.nbit
    rw [if_neg]
    rintro ⟨h1, h2⟩
    omega
  · rw [hc] at hb
    simp only [Outcome.done.injEq] at hb
    subst hb
    have hs := width_step st.nbit st.dictsize h9 h12 hlo hhi hlim
    exact ⟨⟨hs.1, hs.2.1, hs.2.2.1, hs.2.2.2.1⟩, hs.2.2.2.2, Or.inr rfl⟩

theorem lzw_body_width (alt_lzw : Bool) (st st1 : LzwState) (h : LzwEntries st)
    (hw : LzwWidth st) (hprev : st.prev ≠ code_end alt_lzw)
    (hb : lzw_body alt_lzw st = .done st1) : LzwWidth st1 := by
  rw [lzw_body_eq] at hb
  exact (lzw_process_width alt_lzw _ st1 _ _ (lzw_reset_entries alt_lzw st h)
    (lzw_reset_width alt_lzw st hw) (by rw [lzw_reset_prev]; exact hprev) hb).1

theorem lzw_after_width (alt_lzw : Bool) : ∀ (k : Nat) (s0 st : LzwState),
    LzwEntries s0 → LzwWidth s0 → lzw_after alt_lzw k s0 = some st → LzwWidth st := by
  intro k
  induction k with
  | zero =>
    intro s0 st _ hw h
    simp only [lzw_after, Option.some.injEq] at h
    subst h
    exact hw
  | succ k ih =>
    intro s0 st he hw h
    rw [lzw_after] at h
    split at h
    · rename_i hprev
      split at h
      · rename_i s1 hb
        exact ih s1 st (lzw_body_entries alt_lzw s0 s1 he hprev hb)
          (lzw_body_width alt_lzw s0 s1 he hw hprev hb) h
      · exact absurd h (by simp)
    · exact absurd h (by simp)

theorem lzw_start_width (alt_lzw : Bool) (junk : Nat) (input : IStream) (output : List Nat) :
    LzwWidth (lzw_start alt_lzw junk input output) :=
  ⟨(by decide : 9 ≤ 9), (by decide : 9 ≤ 12), (by decide : 2 ^ (9 - 1) ≤ dict_size_initial),
    Or.inl (by decide : dict_size_initial < 2 ^ 9)⟩

/-- Claim C23. In every state `st` that `decode_lzw` reaches at the head of a pass of its loop,
the codeword of the pass is read (after the reset block) with a width `nbit` such that
`9 <= nbit <= 12`, `2^(nbit-1) <= dictsize`, and `dictsize < 2^nbit` unless `nbit = 12` and
`dictsize = 4096`. When the pass ends, `dictsize` is what it was or one more, and `nbit` has
been incremented exactly when `dictsize` has reached `2^nbit` with `nbit < 12`. -/
theorem lzw_codeword_width (alt_lzw : Bool) (junk k : Nat) (input : IStream)
    (output : List Nat) (st : LzwState)
    (hreach : lzw_after alt_lzw k (lzw_start alt_lzw junk input output) = some st) :
    lzw_codeword alt_lzw st =
        ((lzw_reset alt_lzw st).reader.read_codeword (lzw_reset alt_lzw st).nbit).1 ∧
      9 ≤ (lzw_reset alt_lzw st).nbit ∧ (lzw_reset alt_lzw st).nbit ≤ 12 ∧
      2 ^ ((lzw_reset alt_lzw st).nbit - 1) ≤ (lzw_reset alt_lzw st).dictsize ∧
      ((lzw_reset alt_lzw st).dictsize < 2 ^ (lzw_reset alt_lzw st).nbit ∨
        ((lzw_reset alt_lzw st).nbit = 12 ∧ (lzw_reset alt_lzw st).dictsize = 4096)) ∧
      (st.prev ≠ code_end alt_lzw → ∀ st1, lzw_body alt_lzw st = .done st1 →
        (st1.dictsize = (lzw_reset alt_lzw st).dictsize ∨
          st1.dictsize = (lzw_reset alt_lzw st).dictsize + 1) ∧
        st1.nbit =
          if st1.dictsize = 2 ^ (lzw_reset alt_lzw st).nbit ∧ (lzw_reset alt_lzw st).nbit < 12
          then (lzw_reset alt_lzw st).nbit + 1 else (lzw_reset alt_lzw st).nbit) := by
  have he := lzw_after_entries alt_lzw k _ st (lzw_start_entries alt_lzw junk input output)
    hreach
  have hw := lzw_after_width alt_lzw k _ st (lzw_start_entries alt_lzw junk input output)
    (lzw_start_width alt_lzw junk input output) hreach
  have hw0 := lzw_reset_width alt_lzw st hw
  refine ⟨rfl, hw0.1, hw0.2.1, hw0.2.2.1, hw0.2.2.2, ?_⟩
  intro hprev st1 hb
  rw [lzw_body_eq] at hb
  have hp := lzw_process_width alt_lzw _ st1 _ _ (lzw_reset_entries alt_lzw st he) hw0
    (by rw [lzw_reset_prev]; exact hprev) hb
  exact ⟨hp.2.2, hp.2.1⟩


theorem lzw_codeword_width_witness :
    (lzw_reset false
        ((lzw_after false 2 (lzw_start false 0 ⟨[0x20, 0xC0, 0xA0, 0x20], true⟩ [])).getD
          (lzw_start false 0 ⟨[], true⟩ []))).dictsize = 259 ∧
      9 ≤ (lzw_reset false
        ((lzw_after false 2 (lzw_start false 0 ⟨[0x20, 0xC0, 0xA0, 0x20], true⟩ [])).getD
          (lzw_start false 0 ⟨[], true⟩ []))).nbit ∧
      (lzw_reset false
        ((lzw_after false 2 (lzw_start false 0 ⟨[0x20, 0xC0, 0xA0, 0x20], true⟩ [])).getD
          (lzw_start false 0 ⟨[], true⟩ []))).nbit ≤ 12 :=
  ⟨by decide,
   (lzw_codeword_width false 0 2 ⟨[0x20, 0xC0, 0xA0, 0x20], true⟩ []
      ((lzw_after false 2 (lzw_start false 0 ⟨[0x20, 0xC0, 0xA0, 0x20], true⟩ [])).getD
        (lzw_start false 0 ⟨[], true⟩ []))
      (by decide)).2.1,
   (lzw_codeword_width false 0 2 ⟨[0x20, 0xC0, 0xA0, 0x20], true⟩ []
      ((lzw_after false 2 (lzw_start false 0 ⟨[0x20, 0xC0, 0xA0, 0x20], true⟩ [])).getD
        (lzw_start false 0 ⟨[], true⟩ []))
      (by decide)).2.2.1⟩

/-! ### LZW: the entries that are looked up exist (C24) -/

theorem lzw_reset_no_sentinel (alt_lzw : Bool) (st : LzwState)
    (h : st.dict.lookup 0x100 = none ∧ st.dict.lookup 0x101 = none) :
    (lzw_reset alt_lzw st).dict.lookup 0x100 = none ∧
      (lzw_reset alt_lzw st).dict.lookup 0x101 = none := by
  unfold lzw_reset
  split
  · exact ⟨by simp only [initial_dict_lookup]; rfl, by simp only [initial_dict_lookup]; rfl⟩
  · exact h

theorem lzw_process_no_sentinel (alt_lzw : Bool) (st st1 : LzwState) (cw : Nat)
    (rd : LzwCodeWordReader) (h : LzwEntries st)
    (hs : st.dict.lookup 0x100 = none ∧ st.dict.lookup 0x101 = none)
    (hprev : st.prev ≠ code_end alt_lzw)
    (hb : lzw_process alt_lzw st cw rd = .done st1) :
    st1.dict.lookup 0x100 = none ∧ st1.dict.lookup 0x101 = none := by
  have hsz : 258 ≤ st.dictsize := h.1
  rcases lzw_process_cases alt_lzw st cw rd h hprev with hc | ⟨out, hc⟩ | ⟨v, out, _, hlim, hc⟩
  · rw [hc] at hb
    exact absurd hb (by simp)
  · rw [hc] at hb
    simp only [Outcome.done.injEq] at hb
    subst hb
    exact hs
  · rw [hc] at hb
    simp only [Outcome.done.injEq] at hb
    subst hb
    exact ⟨by show (Dict.assign _ _ _).lookup _ = _
              rw [Dict.assign_lookup_ne _ (by omega)]; exact hs.1,
           by show (Dict.assign _ _ _).lookup _ = _
              rw [Dict.assign_lookup_ne _ (by omega)]; exact hs.2⟩

theorem lzw_after_no_sentinel (alt_lzw : Bool) : ∀ (k : Nat) (s0 st : LzwState),
    LzwEntries s0 → (s0.dict.lookup 0x100 = none ∧ s0.dict.lookup 0x101 = none) →
    lzw_after alt_lzw k s0 = some st →
    st.dict.lookup 0x100 = none ∧ st.dict.lookup 0x101 = none := by
  intro k
  induction k with
  | zero =>
    intro s0 st _ hs h
    simp only [lzw_after, Option.some.injEq] at h
    subst h
    exact hs
  | succ k ih =>
    intro s0 st he hs h
    rw [lzw_after] at h
    split at h
    · rename_i hprev
      split at h
      · rename_i s1 hb
        refine ih s1 st (lzw_body_entries alt_lzw s0 s1 he hprev hb) ?_ h
        rw [lzw_body_eq] at hb
        exact lzw_process_no_sentinel alt_lzw _ s1 _ _ (lzw_reset_entries alt_lzw s0 he)
          (lzw_reset_no_sentinel alt_lzw s0 hs) (by rw [lzw_reset_prev]; exact hprev) hb
      · exact absurd h (by simp)
    · exact absurd h (by simp)

theorem lzw_body_defined (alt_lzw : Bool) (st : LzwState) (h : LzwEntries st)
    (hprev : st.prev ≠ code_end alt_lzw) :
    lzw_body alt_lzw st = .thrown .invalidLzwData ∨ ∃ st1, lzw_body alt_lzw st = .done st1 := by
  rw [lzw_body_eq]
  rcases lzw_process_cases alt_lzw _ (lzw_codeword alt_lzw st) (lzw_reader_after alt_lzw st)
    (lzw_reset_entries alt_lzw st h) (by rw [lzw_reset_prev]; exact hprev)
    with hc | ⟨out, hc⟩ | ⟨v, out, _, _, hc⟩
  · exact Or.inl hc
  · exact Or.inr ⟨_, hc⟩
  · exact Or.inr ⟨_, hc⟩

theorem lzw_loop_defined (alt_lzw : Bool) : ∀ (fuel : Nat) (st : LzwState), LzwEntries st →
    lzw_loop alt_lzw fuel st ≠ .undefinedAccess := by
  intro fuel
  induction fuel with
  | zero => intro st _; simp [lzw_loop]
  | succ fuel ih =>
    intro st he
    rw [lzw_loop_succ]
    split
    · rename_i hprev
      rcases lzw_body_defined alt_lzw st he hprev with hb | ⟨st1, hb⟩
      · rw [hb]; simp
      · rw [hb]
        exact ih st1 (lzw_body_entries alt_lzw st st1 he hprev hb)
    · simp

/-- Claim C24 (amended). In every state `st` that `decode_lzw` reaches at the head of a pass
of its loop, every code below `dictsize` other than the two sentinel codes 256 and 257 has a
non-empty entry, while 256 and 257 (which are below `dictsize`, at least 258) have no entry.
The codes that the decoder looks up are never sentinels: when the codeword `cw` read in the
pass is no sentinel and below `dictsize`, `dict[cw]` finds a non-empty entry, and when `prev`
is not the clear code, `dict[prev]` finds a non-empty entry, both leaving the dictionary as it
is (no empty entry is inserted). So a pass never ends at an access of an empty vector, and
neither does `decode_lzw`. -/
theorem lzw_lookups_defined (alt_lzw : Bool) (junk k : Nat) (input : IStream)
    (output : List Nat) (st : LzwState)
    (hreach : lzw_after alt_lzw k (lzw_start alt_lzw junk input output) = some st) :
    (∀ c, c < st.dictsize → c ≠ 0x100 → c ≠ 0x101 →
      ∃ b v, st.dict.lookup c = some (b :: v)) ∧
    0x102 ≤ st.dictsize ∧ st.dict.lookup 0x100 = none ∧ st.dict.lookup 0x101 = none ∧
    (st.prev ≠ code_end alt_lzw →
      (lzw_codeword alt_lzw st ≠ code_end alt_lzw →
        lzw_codeword alt_lzw st ≠ code_clear alt_lzw →
        lzw_codeword alt_lzw st < (lzw_reset alt_lzw st).dictsize →
        ∃ b v, (lzw_reset alt_lzw st).dict.index (lzw_codeword alt_lzw st) =
          (b :: v, (lzw_reset alt_lzw st).dict)) ∧
      (st.prev ≠ code_clear alt_lzw →
        ∃ b v, (lzw_reset alt_lzw st).dict.index (lzw_reset alt_lzw st).prev =
          (b :: v, (lzw_reset alt_lzw st).dict)) ∧
      lzw_body alt_lzw st ≠ .undefinedAccess) ∧
    ∀ fuel, decode_lzw alt_lzw fuel junk input output ≠ .undefinedAccess := by
  have hstart := lzw_start_entries alt_lzw junk input output
  have he := lzw_after_entries alt_lzw k _ st hstart hreach
  have hs := lzw_after_no_sentinel alt_lzw k _ st hstart
    ⟨by show initial_dict.lookup 0x100 = none
        simp only [initial_dict_lookup]; rfl,
     by show initial_dict.lookup 0x101 = none
        simp only [initial_dict_lookup]; rfl⟩ hreach
  have he0 := lzw_reset_entries alt_lzw st he
  refine ⟨he.2.1, he.1, hs.1, hs.2, ?_, ?_⟩
  · intro hprev
    refine ⟨?_, ?_, ?_⟩
    · intro h1 h2 hlt
      have hns := (sentinel_cases alt_lzw _).1 ⟨h1, h2⟩
      obtain ⟨b, v, hl⟩ := he0.2.1 _ hlt hns.1 hns.2
      exact ⟨b, v, Dict.index_of_lookup hl⟩
    · intro hclear
      have hp := (sentinel_cases alt_lzw _).1 ⟨hprev, hclear⟩
      rw [lzw_reset_prev]
      obtain ⟨b, v, hl⟩ := he0.2.1 st.prev (by rw [← lzw_reset_prev alt_lzw]; exact he0.2.2)
        hp.1 hp.2
      exact ⟨b, v, Dict.index_of_lookup hl⟩
    · rcases lzw_body_defined alt_lzw st he hprev with hb | ⟨st1, hb⟩
      · rw [hb]; simp
      · rw [hb]; simp
  · intro fuel
    have h := lzw_loop_defined alt_lzw fuel _ hstart
    unfold decode_lzw decode_lzw_run
    generalize lzw_loop alt_lzw fuel (lzw_start alt_lzw junk input output) = o at h
    cases o <;> simp_all [Outcome.map]

/-- Counterexample to claim C24 as stated. After two passes on the stream `20 C0 A0 20`
(codewords `0x41`, 258) `dictsize` is 259, and the codes 256 and 257, which are below
`dictsize`, have no entry in the dictionary. -/
theorem lzw_sentinel_codes_have_no_entry :
    ((lzw_after false 2 (lzw_start false 0 ⟨[0x20, 0xC0, 0xA0, 0x20], true⟩ [])).map
        fun st => (st.dictsize, st.dict.lookup 0x100, st.dict.lookup 0x101, st.dict.length)) =
      some (259, none, none, 257) := by
  decide

theorem lzw_lookups_defined_witness :
    (List.lookup 0x102
        ((lzw_after false 2 (lzw_start false 0 ⟨[0x20, 0xC0, 0xA0, 0x20], true⟩ [])).getD
          (lzw_start false 0 ⟨[], true⟩ [])).dict = some [0x41, 0x41]) ∧
      List.lookup 0x100
        ((lzw_after false 2 (lzw_start false 0 ⟨[0x20, 0xC0, 0xA0, 0x20], true⟩ [])).getD
          (lzw_start false 0 ⟨[], true⟩ [])).dict = none :=
  ⟨by decide,
   (lzw_lookups_defined false 0 2 ⟨[0x20, 0xC0, 0xA0, 0x20], true⟩ []
      ((lzw_after false 2 (lzw_start false 0 ⟨[0x20, 0xC0, 0xA0, 0x20], true⟩ [])).getD
        (lzw_start false 0 ⟨[], true⟩ []))
      (by decide)).2.2.1⟩

/-! ### Huffman: `read_codeword` is the traversal of the tree (C25) -/

theorem drain_succ (n : Nat) (r : BitReader) :
    BitReader.drain (n + 1) r =
      if r.is_eof then [] else (r.read_bit true).1 :: BitReader.drain n (r.read_bit true).2 := by
  rw [BitReader.drain]

theorem read_codeword_loop_succ (tree : List Nat) (fuel : Nat) (r : BitReader) (idx : Nat) :
    read_codeword_loop tree (fuel + 1) r idx =
      if r.is_eof then .done (none, r)
      else
        match tree[if (r.read_bit true).1 then idx + 1 else idx]? with
        | none => .undefinedAccess
        | some current_node =>
          if is_parent_node current_node then
            read_codeword_loop tree fuel (r.read_bit true).2 current_node
          else .done (some (current_node &&& 0x7FFF), (r.read_bit true).2) := by
  rw [read_codeword_loop]
  split
  · rfl
  · rcases r.read_bit true with ⟨b, r1⟩
    cases b <;> rfl

theorem read_codeword_loop_walk (tree : List Nat) : ∀ (fuel : Nat) (r : BitReader) (idx : Nat),
    r.bit ≤ 8 → r.bits_left < fuel →
    read_codeword_loop tree fuel r idx =
      match tree_walk tree (r.drain fuel) idx with
      | .leaf s d => .done (some s, r.advance d)
      | .exhausted => .done (none, r.advance (r.drain fuel).length)
      | .outOfRange => .undefinedAccess := by
  intro fuel
  induction fuel with
  | zero => intro r idx _ h; omega
  | succ fuel ih =>
    intro r idx hbit hfuel
    rw [read_codeword_loop_succ, drain_succ]
    by_cases heof : r.is_eof = true
    · rw [if_pos heof, if_pos heof]
      rfl
    · rw [if_neg heof, if_neg heof]
      have heof2 : r.is_eof = false := by simpa using heof
      obtain ⟨hdec, hbit1⟩ := BitReader.read_bit_bits_left r true heof2 hbit
      have hih := ih (r.read_bit true).2
      generalize (r.read_bit true).1 = b at *
      rw [tree_walk]
      rcases hnode : tree[if b = true then idx + 1 else idx]? with _ | node
      · rfl
      · dsimp only
        rw [is_parent_node_eq]
        cases htb : node.testBit 15
        · simp only [Bool.not_false, if_true, Bool.false_eq_true, if_false]
          rw [hih node hbit1 (by omega)]
          rcases tree_walk tree (BitReader.drain fuel (r.read_bit true).2) node with _ | _ | _
          · rfl
          · rfl
          · rfl
        · simp only [Bool.not_true, Bool.false_eq_true, if_false, if_true]
          have hmod : node &&& 0x7FFF = node % 0x8000 :=
            Nat.and_pow_two_sub_one_eq_mod node 15
          rw [hmod]
          rfl

theorem tree_walk_leaf (tree : List Nat) : ∀ (bits : List Bool) (idx s d : Nat),
    tree_walk tree bits idx = .leaf s d → s ≤ 0x7FFF ∧ 1 ≤ d ∧ d ≤ bits.length := by
  intro bits
  induction bits with
  | nil => intro idx s d h; simp [tree_walk] at h
  | cons b bs ih =>
    intro idx s d h
    rw [tree_walk] at h
    rcases hnode : tree[if b = true then idx + 1 else idx]? with _ | node
    · rw [hnode] at h; simp at h
    · rw [hnode] at h
      dsimp only at h
      cases htb : node.testBit 15
      · rw [htb] at h
        simp only [Bool.false_eq_true, if_false] at h
        rcases hw : tree_walk tree bs node with ⟨s1, d1⟩ | _ | _
        · rw [hw] at h
          simp only [Walk.leaf.injEq] at h
          have := ih node s1 d1 hw
          simp only [List.length_cons]
          omega
        · rw [hw] at h; simp at h
        · rw [hw] at h; simp at h
      · rw [htb] at h
        simp only [if_true, Walk.leaf.injEq] at h
        simp only [List.length_cons]
        omega

theorem tree_walk_in_range (tree : List Nat) (h : TreeInRange tree) :
    ∀ (bits : List Bool) (idx : Nat), idx + 1 < tree.length →
    tree_walk tree bits idx ≠ .outOfRange := by
  intro bits
  induction bits with
  | nil => intro idx _; simp [tree_walk]
  | cons b bs ih =>
    intro idx hidx
    rw [tree_walk]
    have hlt : (if b = true then idx + 1 else idx) < tree.length := by
      split <;> omega
    rw [List.getElem?_eq_getElem hlt]
    dsimp only
    cases htb : (tree[if b = true then idx + 1 else idx]).testBit 15
    · simp only [Bool.false_eq_true, if_false]
      have hmem : tree[if b = true then idx + 1 else idx] ∈ tree := List.getElem_mem _
      have hpar : is_parent_node (tree[if b = true then idx + 1 else idx]) = true := by
        rw [is_parent_node_eq, htb]; rfl
      have := ih _ (h.2 _ hmem hpar)
      rcases hw : tree_walk tree bs (tree[if b = true then idx + 1 else idx]) with _ | _ | _
      · simp
      · simp
      · exact absurd hw this
    · simp

theorem advance_bits_left : ∀ (d n : Nat) (r : BitReader), r.bit ≤ 8 →
    d ≤ (r.drain n).length →
    (r.advance d).bits_left + d = r.bits_left ∧ (r.advance d).bit ≤ 8 := by
  intro d
  induction d with
  | zero => intro n r hbit _; exact ⟨rfl, hbit⟩
  | succ d ih =>
    intro n r hbit hd
    cases n with
    | zero => simp [BitReader.drain] at hd
    | succ n =>
      rw [drain_succ] at hd
      by_cases heof : r.is_eof = true
      · rw [if_pos heof] at hd
        simp at hd
      · rw [if_neg heof] at hd
        have heof2 : r.is_eof = false := by simpa using heof
        obtain ⟨hdec, hbit1⟩ := BitReader.read_bit_bits_left r true heof2 hbit
        have := ih n (r.read_bit true).2 hbit1 (by simpa using hd)
        rw [BitReader.advance]
        omega

theorem is_eof_of_bits_left_zero (r : BitReader) (hbit : r.bit ≤ 8) (h : r.bits_left = 0) :
    r.is_eof = true := by
  unfold BitReader.bits_left at h
  unfold BitReader.is_eof
  cases hg : r.stream.good
  · have : r.bit = 8 := by omega
    simp [this]
  · rw [hg] at h
    simp at h

theorem read_codeword_loop_in_range (tree : List Nat) (h : TreeInRange tree) :
    ∀ (fuel : Nat) (r : BitReader) (idx : Nat), idx + 1 < tree.length →
    read_codeword_loop tree fuel r idx ≠ .undefinedAccess := by
  intro fuel
  induction fuel with
  | zero => intro r idx _; simp [read_codeword_loop]
  | succ fuel ih =>
    intro r idx hidx
    rw [read_codeword_loop_succ]
    split
    · simp
    · have hlt : (if (r.read_bit true).1 = true then idx + 1 else idx) < tree.length := by
        split <;> omega
      rw [List.getElem?_eq_getElem hlt]
      dsimp only
      by_cases hpar : is_parent_node (tree[if (r.read_bit true).1 = true then idx + 1 else idx])
          = true
      · rw [if_pos hpar]
        exact ih _ _ (h.2 _ (List.getElem_mem _) hpar)
      · rw [if_neg hpar]
        simp

theorem BitReader.read_bit_inside (r : BitReader) (hbit : r.bit < 8) :
    r.read_bit true = (r.current_byte.testBit (7 - r.bit), { r with bit := r.bit + 1 }) := by
  unfold BitReader.read_bit
  rw [if_neg (by omega)]
  simp only [if_true]
  have h : (r.current_byte &&& 1 <<< (7 - r.bit) != 0) = r.current_byte.testBit (7 - r.bit) := by
    rw [Nat.one_shiftLeft, Nat.and_two_pow]
    cases r.current_byte.testBit (7 - r.bit) <;> simp
  rw [h]

theorem BitReader.read_bit_fresh (r : BitReader) (b : Nat) (t : List Nat) (hbit : r.bit = 8)
    (hs : r.stream = ⟨b :: t, true⟩) :
    r.read_bit true =
      ((b % 256).testBit 7, { stream := ⟨t, true⟩, bit := 1, current_byte := b % 256 }) := by
  unfold BitReader.read_bit
  rw [if_pos hbit, hs]
  simp only [IStream.read_u8, read_one_cons, if_true]
  have h : ((b % 256) &&& 1 <<< (7 - 0) != 0) = (b % 256).testBit 7 := by
    rw [Nat.one_shiftLeft, Nat.and_two_pow]
    cases (b % 256).testBit 7 <;> simp
  rw [h]

theorem BitPos.read_bit {bytes : List Nat} {p : Nat} {r : BitReader} (h : BitPos bytes p r)
    (hp : p < 8 * bytes.length) :
    r.is_eof = false ∧ (r.read_bit true).1 = stream_bit bytes p ∧
      BitPos bytes (p + 1) (r.read_bit true).2 := by
  obtain ⟨hg, h8 | hin⟩ := h
  · obtain ⟨hbit, hmod, hrest⟩ := h8
    have hlt : p / 8 < bytes.length := by omega
    have hd : bytes.drop (p / 8) = bytes[p / 8] :: bytes.drop (p / 8 + 1) :=
      List.drop_eq_getElem_cons hlt
    have hs : r.stream = ⟨bytes[p / 8] :: bytes.drop (p / 8 + 1), true⟩ := by
      rcases hst : r.stream with ⟨rest, good⟩
      rw [hst] at hg hrest
      simp only at hg hrest
      rw [hg, hrest, hd]
    rw [BitReader.read_bit_fresh r _ _ hbit hs]
    have hget : bytes.getD (p / 8) 0 = bytes[p / 8] := by
      rw [List.getD_eq_getElem?_getD, List.getElem?_eq_getElem hlt]; rfl
    refine ⟨by simp [BitReader.is_eof, hg], ?_, rfl, Or.inr ⟨by simp, ?_, ?_, ?_⟩⟩
    · unfold stream_bit
      rw [hget, hmod]
    · show 1 = (p + 1) % 8
      omega
    · show bytes[p / 8] % 256 = bytes.getD ((p + 1) / 8) 0 % 256
      rw [show (p + 1) / 8 = p / 8 from by omega, hget]
    · show bytes.drop (p / 8 + 1) = bytes.drop ((p + 1) / 8 + 1)
      rw [show (p + 1) / 8 = p / 8 from by omega]
  · obtain ⟨hbit, hmod, hcur, hrest⟩ := hin
    rw [BitReader.read_bit_inside r hbit]
    refine ⟨by simp [BitReader.is_eof, hg], ?_, hg, ?_⟩
    · show r.current_byte.testBit (7 - r.bit) = stream_bit bytes p
      unfold stream_bit
      rw [hcur, hmod]
    · by_cases h7 : r.bit = 7
      · left
        refine ⟨by show r.bit + 1 = 8; omega, by omega, ?_⟩
        show r.stream.rest = bytes.drop ((p + 1) / 8)
        rw [hrest, show (p + 1) / 8 = p / 8 + 1 from by omega]
      · right
        refine ⟨by show r.bit + 1 < 8; omega, by show r.bit + 1 = (p + 1) % 8; omega, ?_, ?_⟩
        · show r.current_byte = bytes.getD ((p + 1) / 8) 0 % 256
          rw [hcur, show (p + 1) / 8 = p / 8 from by omega]
        · show r.stream.rest = bytes.drop ((p + 1) / 8 + 1)
          rw [hrest, show (p + 1) / 8 = p / 8 from by omega]

theorem drain_stream_bits (bytes : List Nat) : ∀ (n p : Nat) (r : BitReader),
    BitPos bytes p r → ∀ i, i < n → p + i < 8 * bytes.length →
    (r.drain n)[i]? = some (stream_bit bytes (p + i)) := by
  intro n
  induction n with
  | zero => intro p r _ i hi; omega
  | succ n ih =>
    intro p r h i hi hp
    obtain ⟨heof, hval, hnext⟩ := h.read_bit (by omega)
    rw [drain_succ, if_neg (by simp [heof])]
    cases i with
    | zero => simp [hval]
    | succ i =>
      rw [List.getElem?_cons_succ, ih (p + 1) _ hnext i (by omega) (by omega)]
      congr 2
      omega

theorem BitPos.init (bytes : List Nat) : BitPos bytes 0 (BitReader.init ⟨bytes, true⟩) :=
  ⟨rfl, Or.inl ⟨rfl, rfl, rfl⟩⟩

theorem drain_fuel_succ : ∀ (n : Nat) (r : BitReader), r.bit ≤ 8 → r.bits_left ≤ n →
    r.drain (n + 1) = r.drain n := by
  intro n
  induction n with
  | zero =>
    intro r hbit h
    have heof := is_eof_of_bits_left_zero r hbit (by omega)
    rw [drain_succ, if_pos heof]
    rfl
  | succ n ih =>
    intro r hbit h
    conv_lhs => rw [drain_succ]
    conv_rhs => rw [drain_succ]
    by_cases heof : r.is_eof = true
    · rw [if_pos heof, if_pos heof]
    · rw [if_neg heof, if_neg heof]
      have heof2 : r.is_eof = false := by simpa using heof
      obtain ⟨hdec, hbit1⟩ := BitReader.read_bit_bits_left r true heof2 hbit
      rw [ih _ hbit1 (by omega)]

theorem drain_fuel (r : BitReader) (hbit : r.bit ≤ 8) : ∀ (d n : Nat), r.bits_left ≤ n →
    r.drain (n + d) = r.drain n := by
  intro d
  induction d with
  | zero => intro n _; rfl
  | succ d ih =>
    intro n hn
    rw [← Nat.add_assoc, drain_fuel_succ (n + d) r hbit (by omega)]
    exact ih n hn

theorem drain_all (r : BitReader) (hbit : r.bit ≤ 8) (n : Nat) (hn : r.bits_left < n) :
    r.drain n = r.drain (r.bits_left + 1) := by
  have h := drain_fuel r hbit (n - (r.bits_left + 1)) (r.bits_left + 1) (by omega)
  rw [← h]
  congr 1
  omega

/-- Claim C25. Let the tree be well formed (its indices stay in range), and let the reader
deliver the bits `r.drain n` until `is_eof` holds (`n` exceeds their number; for a reader at
the start of a good stream they are the bits of the bytes, most significant bit first).
`read_codeword` is the traversal of the specification on these bits from child-pair index 0:
when the traversal reaches a leaf after `d` bits, `read_codeword` returns the low 15 bits of
the leaf, a value in `0..0x7FFF`, and has consumed exactly `d` bits (`1 <= d`); otherwise it
returns -1 (`none`), and it returns -1 only in that case, all bits being consumed and `is_eof`
holding. It never accesses a node out of range. -/
theorem read_codeword_walks_tree (tree : List Nat) (r : BitReader) (n : Nat)
    (hwf : TreeInRange tree) (hbit : r.bit ≤ 8) (hn : r.bits_left < n) :
    (TtfHuffmanReader.read_codeword tree r =
      match tree_walk tree (r.drain n) 0 with
      | .leaf s d => .done (some s, r.advance d)
      | .exhausted => .done (none, r.advance (r.drain n).length)
      | .outOfRange => .undefinedAccess) ∧
    tree_walk tree (r.drain n) 0 ≠ .outOfRange ∧
    (r.drain n).length = r.bits_left ∧
    (∀ s d, tree_walk tree (r.drain n) 0 = .leaf s d →
      s ≤ 0x7FFF ∧ 1 ≤ d ∧ d ≤ r.bits_left ∧ (r.advance d).bits_left + d = r.bits_left) ∧
    (∀ r1, TtfHuffmanReader.read_codeword tree r = .done (none, r1) →
      tree_walk tree (r.drain n) 0 = .exhausted ∧ r1 = r.advance r.bits_left ∧
        r1.is_eof = true) ∧
    (∀ (bytes : List Nat) (i : Nat), r = BitReader.init ⟨bytes, true⟩ →
      i < 8 * bytes.length → (r.drain n)[i]? = some (stream_bit bytes i)) := by
  have hlen : (r.drain n).length = r.bits_left := drain_length n r hbit (by omega)
  have hmain : TtfHuffmanReader.read_codeword tree r =
      match tree_walk tree (r.drain n) 0 with
      | .leaf s d => .done (some s, r.advance d)
      | .exhausted => .done (none, r.advance (r.drain n).length)
      | .outOfRange => .undefinedAccess := by
    rw [drain_all r hbit n hn]
    exact read_codeword_loop_walk tree _ r 0 hbit (Nat.lt_succ_self _)
  have hrange := tree_walk_in_range tree hwf (r.drain n) 0 (by have := hwf.1; omega)
  refine ⟨hmain, hrange, hlen, ?_, ?_, ?_⟩
  · intro s d hw
    have hl := tree_walk_leaf tree _ 0 s d hw
    have ha := advance_bits_left d n r hbit hl.2.2
    exact ⟨hl.1, hl.2.1, by omega, ha.1⟩
  · intro r1 hr
    rw [hmain] at hr
    rcases hw : tree_walk tree (r.drain n) 0 with ⟨s, d⟩ | _ | _
    · rw [hw] at hr
      simp at hr
    · rw [hw] at hr
      simp only [Outcome.done.injEq, Prod.mk.injEq, true_and] at hr
      rw [hlen] at hr
      have ha := advance_bits_left r.bits_left n r hbit (by omega)
      refine ⟨rfl, hr.symm, ?_⟩
      rw [← hr]
      exact is_eof_of_bits_left_zero _ ha.2 (by omega)
    · exact absurd hw hrange
  · intro bytes i hr hi
    subst hr
    have hbl : (BitReader.init ⟨bytes, true⟩).bits_left = 8 * (bytes.length + 1) := by
      simp [BitReader.bits_left, BitReader.init]
    have := drain_stream_bits bytes n 0 _ (BitPos.init bytes) i (by omega) (by omega)
    rw [this, Nat.zero_add]

theorem read_codeword_walks_tree_witness :
    TtfHuffmanReader.read_codeword [2, 0x8041, 0x8042, 0x8143]
        (BitReader.init ⟨[0x40], true⟩) =
      .done (some 0x143, (BitReader.init ⟨[0x40], true⟩).advance 2) ∧
    (BitReader.init ⟨[0x40], true⟩).drain 17 =
      [false, true, false, false, false, false, false, false,
       false, true, false, false, false, false, false, false] :=
  ⟨(read_codeword_walks_tree [2, 0x8041, 0x8042, 0x8143] (BitReader.init ⟨[0x40], true⟩) 17
      ⟨by decide, by decide⟩ (by decide) (by decide)).1.trans (by decide),
   by decide⟩

/-! ### Huffman: the accesses of the tree stay in range (C29) -/

theorem read_codeword_in_range (tree : List Nat) (h : TreeInRange tree) (r : BitReader) :
    TtfHuffmanReader.read_codeword tree r ≠ .undefinedAccess :=
  read_codeword_loop_in_range tree h _ r 0 (by have := h.1; omega)

theorem rle_count_in_range (tree : List Nat) (h : TreeInRange tree) (r : BitReader)
    (lo : Nat) : rle_count tree r lo ≠ .undefinedAccess := by
  unfold rle_count
  split
  · have h1 := read_codeword_in_range tree h r
    split
    · simp
    · simp
    · simp
    · rename_i heq; exact absurd heq h1
    · simp
  · have h1 := read_codeword_in_range tree h r
    split
    · simp
    · rename_i cw1 r1 heq
      have h2 := read_codeword_in_range tree h r1
      simp only
      split
      · simp
      · simp
      · simp
      · rename_i heq2; exact absurd heq2 h2
      · simp
    · simp
    · rename_i heq; exact absurd heq h1
    · simp
  · simp

theorem rle_process_in_range (tree : List Nat) (h : TreeInRange tree) (st : RleState)
    (cw : Nat) (r : BitReader) : rle_process tree st cw r ≠ .undefinedAccess := by
  unfold rle_process
  simp only
  split
  · simp
  · have hc := rle_count_in_range tree h r (cw &&& 0x00FF)
    split
    · simp
    · simp
    · simp
    · rename_i heq; exact absurd heq hc
    · simp

theorem rle_loop_in_range (tree : List Nat) (h : TreeInRange tree) :
    ∀ (fuel : Nat) (st : RleState), rle_loop tree fuel st ≠ .undefinedAccess := by
  intro fuel
  induction fuel with
  | zero => intro st; simp [rle_loop]
  | succ fuel ih =>
    intro st
    rw [rle_loop_succ]
    have h1 := read_codeword_in_range tree h st.reader
    split
    · simp
    · rename_i cw r1 heq
      have hp := rle_process_in_range tree h st cw r1
      split
      · simp
      · exact ih _
      · simp
      · rename_i heq2; exact absurd heq2 hp
      · simp
    · simp
    · rename_i heq; exact absurd heq h1
    · simp

/-- Claim C29. If the Huffman tree has at least 2 nodes and the stored index `c` of every
internal node has `c + 1` below the node count, then for every reader state, that is for every
bitstream, `read_codeword` never accesses `huffman_tree` out of range: its loop, entered with
any `node_idx` such that `node_idx + 1` is below the node count (it is entered with 0), never
ends at an out-of-range access, so `read_codeword` returns; and `decode_huffman_rle` on an
input whose parsed tree is such a tree never ends at an out-of-range access either. -/
theorem read_codeword_in_bounds (tree : List Nat) (r : BitReader) (h : TreeInRange tree) :
    (∀ (fuel node_idx : Nat), node_idx + 1 < tree.length →
      read_codeword_loop tree fuel r node_idx ≠ .undefinedAccess) ∧
    TtfHuffmanReader.read_codeword tree r ≠ .undefinedAccess ∧
    (r.bit ≤ 8 → ∃ p, TtfHuffmanReader.read_codeword tree r = .done p) ∧
    (∀ (junk : Nat) (input : IStream) (output : List Nat),
      (TtfHuffmanReader.init junk input).huffman_tree = tree →
      decode_huffman_rle junk input output ≠ .undefinedAccess) := by
  refine ⟨fun fuel idx hidx => read_codeword_loop_in_range tree h fuel r idx hidx,
    read_codeword_in_range tree h r, ?_, ?_⟩
  · intro hbit
    have hh := read_codeword_holds tree r hbit
    have hua := read_codeword_in_range tree h r
    rcases hrc : TtfHuffmanReader.read_codeword tree r with p | e | _ | _
    · exact ⟨p, rfl⟩
    · rw [hrc] at hh; exact hh.elim
    · exact absurd hrc hua
    · rw [hrc] at hh; exact hh.elim
  · intro junk input output htree
    unfold decode_huffman_rle decode_huffman_rle_run
    have hl := rle_loop_in_range tree h
      ((TtfHuffmanReader.init junk input).bit_reader.bits_left + 1)
      { reader := (TtfHuffmanReader.init junk input).bit_reader, last := 0, output := output }
    simp only [htree]
    generalize rle_loop tree _ _ = o at hl
    cases o <;> simp_all [Outcome.map]

theorem read_codeword_in_bounds_witness :
    TtfHuffmanReader.read_codeword [0, 0] (BitReader.init ⟨[0xA5], true⟩) ≠ .undefinedAccess ∧
      decode_huffman_rle 0 ⟨[0x08, 0x00, 0x04, 0x00, 0x41, 0x80, 0x42, 0x80, 0x43, 0x81, 0x40],
        true⟩ [] ≠ .undefinedAccess :=
  ⟨(read_codeword_in_bounds [0, 0] (BitReader.init ⟨[0xA5], true⟩)
      ⟨by decide, by decide⟩).2.1,
   (read_codeword_in_bounds [2, 0x8041, 0x8042, 0x8143] (BitReader.init ⟨[], true⟩)
      ⟨by decide, by decide⟩).2.2.2 0
      ⟨[0x08, 0x00, 0x04, 0x00, 0x41, 0x80, 0x42, 0x80, 0x43, 0x81, 0x40], true⟩ []
      (by decide)⟩

/-! ### Huffman + RLE: termination (C28) -/

theorem read_codeword_loop_fuel (tree : List Nat) (r : BitReader) (hbit : r.bit ≤ 8)
    (fuel : Nat) (hf : r.bits_left < fuel) :
    read_codeword_loop tree fuel r 0 = TtfHuffmanReader.read_codeword tree r := by
  unfold TtfHuffmanReader.read_codeword
  rw [read_codeword_loop_walk tree fuel r 0 hbit hf,
    read_codeword_loop_walk tree _ r 0 hbit (Nat.lt_succ_self _), drain_all r hbit fuel hf]

theorem rle_loop_fuel_succ (tree : List Nat) : ∀ (fuel : Nat) (st : RleState),
    st.reader.bit ≤ 8 → st.reader.bits_left < fuel →
    rle_loop tree (fuel + 1) st = rle_loop tree fuel st := by
  intro fuel
  induction fuel with
  | zero => intro st _ h; omega
  | succ fuel ih =>
    intro st hbit hfuel
    rw [rle_loop_succ tree (fuel + 1), rle_loop_succ tree fuel]
    have h1 := read_codeword_holds tree st.reader hbit
    rcases hrc : TtfHuffmanReader.read_codeword tree st.reader with ⟨_ | cw, r1⟩ | e | _ | _
    · rfl
    · rw [hrc] at h1
      have hlt : r1.bits_left < st.reader.bits_left := h1.2.2 rfl
      have hp := rle_process_holds tree st cw r1 h1.1
      dsimp only
      rcases hpr : rle_process tree st cw r1 with ⟨_ | _, st1⟩ | e | _ | _
      · rw [hpr] at hp
        have hle : st1.reader.bits_left ≤ r1.bits_left := hp.2
        exact ih st1 hp.1 (by omega)
      · rfl
      · rfl
      · rfl
      · rfl
    · rfl
    · rfl
    · rfl

theorem rle_loop_fuel (tree : List Nat) (st : RleState) (hbit : st.reader.bit ≤ 8) :
    ∀ (d fuel : Nat), st.reader.bits_left < fuel →
    rle_loop tree (fuel + d) st = rle_loop tree fuel st := by
  intro d
  induction d with
  | zero => intro fuel _; rfl
  | succ d ih =>
    intro fuel hf
    rw [← Nat.add_assoc, rle_loop_fuel_succ tree (fuel + d) st hbit (by omega)]
    exact ih fuel hf

/-- Claim C28. `decode_huffman_rle` terminates for every input stream and every content of the
uninitialised locals: its run never ends in `timeout` (nor does it throw), whatever tree was
parsed, and when the indices of the parsed tree stay in range it returns. Every pass of the
loop of `read_codeword` calls `read_bit` once, which takes exactly one of the `bits_left`
bits that the reader delivers before `is_eof` holds; once `is_eof` holds `read_codeword`
returns -1; a call that returns a symbol has consumed at least one bit. The fuel of the two
loops only has to exceed `bits_left`: a larger fuel gives the same result. A tree whose
internal nodes form a cycle is no exception: with the tree `[0, 0]` (both nodes internal, with
their own pair as stored index) the decoder returns the empty output. -/
theorem decode_huffman_rle_terminates (junk : Nat) (input : IStream) (output : List Nat) :
    decode_huffman_rle junk input output ≠ .timeout ∧
    (∀ e, decode_huffman_rle junk input output ≠ .thrown e) ∧
    (TreeInRange (TtfHuffmanReader.init junk input).huffman_tree →
      ∃ out, decode_huffman_rle junk input output = .done out) ∧
    (∀ r : BitReader, r.bit ≤ 8 → r.is_eof = false →
      (r.read_bit true).2.bits_left + 1 = r.bits_left) ∧
    (∀ (tree : List Nat) (r : BitReader), r.is_eof = true →
      TtfHuffmanReader.read_codeword tree r = .done (none, r)) ∧
    (∀ (tree : List Nat) (r : BitReader), r.bit ≤ 8 →
      (TtfHuffmanReader.read_codeword tree r).Holds fun p =>
        p.2.bits_left ≤ r.bits_left ∧ (p.1.isSome → p.2.bits_left < r.bits_left)) ∧
    (∀ (tree : List Nat) (r : BitReader) (d : Nat), r.bit ≤ 8 →
      read_codeword_loop tree (r.bits_left + 1 + d) r 0 =
        TtfHuffmanReader.read_codeword tree r) ∧
    (∀ d : Nat,
      rle_loop (TtfHuffmanReader.init junk input).huffman_tree
          ((TtfHuffmanReader.init junk input).bit_reader.bits_left + 1 + d)
          { reader := (TtfHuffmanReader.init junk input).bit_reader, last := 0,
            output := output } =
        rle_loop (TtfHuffmanReader.init junk input).huffman_tree
          ((TtfHuffmanReader.init junk input).bit_reader.bits_left + 1)
          { reader := (TtfHuffmanReader.init junk input).bit_reader, last := 0,
            output := output }) ∧
    (TreeInRange [0, 0] ∧
      decode_huffman_rle 0 ⟨[0x04, 0x00, 0x00, 0x00, 0x00, 0x00, 0xA5, 0x5A], true⟩ [] =
        .done []) := by
  have hh := decode_huffman_rle_holds junk input output
  have hinit : (TtfHuffmanReader.init junk input).bit_reader.bit ≤ 8 := by
    unfold TtfHuffmanReader.init
    rcases input.read_u16 junk with ⟨a, s1⟩
    dsimp only
    rcases read_tree_nodes junk (a >>> 1) s1 with ⟨t, s2⟩
    exact Nat.le_refl 8
  refine ⟨?_, ?_, ?_, ?_, ?_, ?_, ?_, ?_, ⟨by decide, by decide⟩, by decide⟩
  · intro h; rw [h] at hh; exact hh
  · intro e h; rw [h] at hh; exact hh
  · intro hwf
    have hua := (rle_loop_in_range _ hwf
      ((TtfHuffmanReader.init junk input).bit_reader.bits_left + 1)
      { reader := (TtfHuffmanReader.init junk input).bit_reader, last := 0, output := output })
    have hl := rle_loop_holds (TtfHuffmanReader.init junk input).huffman_tree
      ((TtfHuffmanReader.init junk input).bit_reader.bits_left + 1)
      { reader := (TtfHuffmanReader.init junk input).bit_reader, last := 0, output := output }
      hinit (Nat.lt_succ_self _)
    unfold decode_huffman_rle decode_huffman_rle_run
    dsimp only
    generalize rle_loop _ _ _ = o at hua hl
    cases o with
    | done a => exact ⟨a.output, rfl⟩
    | thrown e => exact hl.elim
    | undefinedAccess => exact absurd rfl hua
    | timeout => exact hl.elim
  · intro r hbit heof
    exact (BitReader.read_bit_bits_left r true heof hbit).1
  · intro tree r heof
    exact read_codeword_at_eof tree r heof
  · intro tree r hbit
    exact (read_codeword_holds tree r hbit).imp fun p hp => hp.2
  · intro tree r d hbit
    exact read_codeword_loop_fuel tree r hbit _ (by omega)
  · intro d
    exact rle_loop_fuel _ _ hinit d _ (Nat.lt_succ_self _)

theorem decode_huffman_rle_terminates_witness :
    decode_huffman_rle 0 ⟨[0x04, 0x00, 0x00, 0x00, 0x00, 0x00, 0xA5, 0x5A], true⟩ [] ≠
        .timeout ∧
      (decode_huffman_rle 0 ⟨[0x04, 0x00, 0x00, 0x00, 0x00, 0x00, 0xA5, 0x5A], true⟩ []).Holds
        (fun _ => True) :=
  ⟨(decode_huffman_rle_terminates 0
      ⟨[0x04, 0x00, 0x00, 0x00, 0x00, 0x00, 0xA5, 0x5A], true⟩ []).1,
   match (decode_huffman_rle_terminates 0
      ⟨[0x04, 0x00, 0x00, 0x00, 0x00, 0x00, 0xA5, 0x5A], true⟩ []).2.2.1
      ⟨by decide, by decide⟩ with
    | ⟨_, hrun⟩ => by rw [hrun]; exact trivial⟩

/-! ### Huffman + RLE: a literal followed by a run (C7) -/

theorem rle_process_extends (tree : List Nat) (st st1 : RleState) (cw : Nat) (r : BitReader)
    (fl : Bool) (h : rle_process tree st cw r = .done (fl, st1)) :
    ∃ tail, st1.output = st.output ++ tail := by
  unfold rle_process at h
  simp only at h
  split at h
  · simp only [Outcome.done.injEq, Prod.mk.injEq] at h
    exact ⟨_, by rw [← h.2]⟩
  · split at h
    · simp only [Outcome.done.injEq, Prod.mk.injEq] at h
      exact ⟨[], by rw [← h.2]; simp⟩
    · simp only [Outcome.done.injEq, Prod.mk.injEq] at h
      exact ⟨_, by rw [← h.2]⟩
    · simp at h
    · simp at h
    · simp at h

theorem rle_loop_extends (tree : List Nat) : ∀ (fuel : Nat) (st st1 : RleState),
    rle_loop tree fuel st = .done st1 → ∃ tail, st1.output = st.output ++ tail := by
  intro fuel
  induction fuel with
  | zero => intro st st1 h; simp [rle_loop] at h
  | succ fuel ih =>
    intro st st1 h
    rw [rle_loop_succ] at h
    rcases hrc : TtfHuffmanReader.read_codeword tree st.reader with ⟨_ | cw, r1⟩ | e | _ | _
    · rw [hrc] at h
      simp only [Outcome.done.injEq] at h
      exact ⟨[], by rw [← h]; simp⟩
    · rw [hrc] at h
      dsimp only at h
      rcases hp : rle_process tree st cw r1 with ⟨_ | _, st2⟩ | e | _ | _
      · rw [hp] at h
        dsimp only at h
        obtain ⟨t1, ht1⟩ := rle_process_extends tree st st2 cw r1 false hp
        obtain ⟨t2, ht2⟩ := ih st2 st1 h
        exact ⟨t1 ++ t2, by rw [ht2, ht1, List.append_assoc]⟩
      · rw [hp] at h
        simp only [Outcome.done.injEq] at h
        obtain ⟨t1, ht1⟩ := rle_process_extends tree st st2 cw r1 true hp
        exact ⟨t1, by rw [← h]; exact ht1⟩
      · rw [hp] at h; simp at h
      · rw [hp] at h; simp at h
      · rw [hp] at h; simp at h
    · rw [hrc] at h; simp at h
    · rw [hrc] at h; simp at h
    · rw [hrc] at h; simp at h

theorem rle_loop_end (tree : List Nat) (fuel : Nat) (st : RleState) (r1 : BitReader)
    (h : TtfHuffmanReader.read_codeword tree st.reader = .done (none, r1)) :
    rle_loop tree (fuel + 1) st = .done { st with reader := r1 } := by
  rw [rle_loop_succ, h]

/-- Claim C7. Let the loop of `decode_huffman_rle` be in any state `st`, and let the next two
symbols that `read_codeword` delivers be a literal `c1` (high byte 0, low byte `b`) and a run
symbol `c2` (high byte non-zero) whose low byte `n` is at least 2 (it is at most 255). Then the
pass for `c1` ends with `last = b` and `b` appended to the output, and the pass for `c2` ends
with exactly `n` further copies of `b` appended: after the two passes the output is the
output of `st` followed by `b` and `n` copies of `b`. Consequently the loop continues from that
state; whenever it returns, its output starts with the output of `st`, `b` and `n` copies of
`b`; with the fuel `bits_left + 1` of `decode_huffman_rle` it does not time out; and when the
next `read_codeword` returns -1 the loop returns exactly that output. -/
theorem rle_literal_then_run (tree : List Nat) (st : RleState) (c1 c2 : Nat)
    (r1 r2 : BitReader)
    (h1 : TtfHuffmanReader.read_codeword tree st.reader = .done (some c1, r1))
    (hlit : c1 &&& 0xFF00 = 0)
    (h2 : TtfHuffmanReader.read_codeword tree r1 = .done (some c2, r2))
    (hrun : c2 &&& 0xFF00 ≠ 0)
    (hn : 2 ≤ c2 &&& 0xFF) :
    (c2 &&& 0xFF) ≤ 255 ∧
    rle_process tree st c1 r1 =
      .done (false, { reader := r1, last := c1 &&& 0xFF,
                      output := st.output ++ [c1 &&& 0xFF] }) ∧
    rle_process tree
        { reader := r1, last := c1 &&& 0xFF, output := st.output ++ [c1 &&& 0xFF] } c2 r2 =
      .done (false, { reader := r2, last := c1 &&& 0xFF,
                      output := st.output ++
                        (c1 &&& 0xFF) :: List.replicate (c2 &&& 0xFF) (c1 &&& 0xFF) }) ∧
    (∀ fuel, rle_loop tree (fuel + 2) st =
      rle_loop tree fuel
        { reader := r2, last := c1 &&& 0xFF,
          output := st.output ++
            (c1 &&& 0xFF) :: List.replicate (c2 &&& 0xFF) (c1 &&& 0xFF) }) ∧
    (∀ fuel st1, rle_loop tree (fuel + 2) st = .done st1 →
      ∃ tail, st1.output =
        st.output ++ (c1 &&& 0xFF) :: List.replicate (c2 &&& 0xFF) (c1 &&& 0xFF) ++ tail) ∧
    (st.reader.bit ≤ 8 →
      (rle_loop tree (st.reader.bits_left + 1) st).Holds fun st1 =>
        ∃ tail, st1.output =
          st.output ++ (c1 &&& 0xFF) :: List.replicate (c2 &&& 0xFF) (c1 &&& 0xFF) ++ tail) ∧
    (∀ fuel r3, TtfHuffmanReader.read_codeword tree r2 = .done (none, r3) →
      rle_loop tree (fuel + 3) st =
        .done { reader := r3, last := c1 &&& 0xFF,
                output := st.output ++
                  (c1 &&& 0xFF) :: List.replicate (c2 &&& 0xFF) (c1 &&& 0xFF) }) := by
  have hp1 := rle_process_literal tree st c1 r1 hlit
  have hp2 := rle_process_run tree
    { reader := r1, last := c1 &&& 0xFF, output := st.output ++ [c1 &&& 0xFF] } c2 r2 hrun hn
  simp only [List.append_assoc, List.singleton_append] at hp2
  have hloop : ∀ fuel, rle_loop tree (fuel + 2) st =
      rle_loop tree fuel
        { reader := r2, last := c1 &&& 0xFF,
          output := st.output ++
            (c1 &&& 0xFF) :: List.replicate (c2 &&& 0xFF) (c1 &&& 0xFF) } := by
    intro fuel
    rw [rle_loop_succ, h1]
    simp only [hp1]
    rw [rle_loop_succ]
    simp only [h2, hp2]
  have hext : ∀ fuel st1, rle_loop tree (fuel + 2) st = .done st1 →
      ∃ tail, st1.output =
        st.output ++ (c1 &&& 0xFF) :: List.replicate (c2 &&& 0xFF) (c1 &&& 0xFF) ++ tail := by
    intro fuel st1 h
    rw [hloop] at h
    obtain ⟨tail, ht⟩ := rle_loop_extends tree fuel _ st1 h
    exact ⟨tail, ht⟩
  refine ⟨Nat.and_le_right, hp1, hp2, hloop, hext, ?_, ?_⟩
  · intro hbit
    have hh1 := read_codeword_holds tree st.reader hbit
    rw [h1] at hh1
    have hlt1 : r1.bits_left < st.reader.bits_left := hh1.2.2 rfl
    have hh2 := read_codeword_holds tree r1 hh1.1
    rw [h2] at hh2
    have hlt2 : r2.bits_left < r1.bits_left := hh2.2.2 rfl
    have hfuel : st.reader.bits_left + 1 = (st.reader.bits_left - 1) + 2 := by omega
    have hterm := rle_loop_holds tree (st.reader.bits_left - 1)
      { reader := r2, last := c1 &&& 0xFF,
        output := st.output ++
          (c1 &&& 0xFF) :: List.replicate (c2 &&& 0xFF) (c1 &&& 0xFF) } hh2.1
      (by show r2.bits_left < _; omega)
    have hx := hext (st.reader.bits_left - 1)
    rw [hfuel]
    rw [hloop] at hx ⊢
    generalize rle_loop tree (st.reader.bits_left - 1) _ = o at hterm hx
    cases o with
    | done a => exact hx a rfl
    | thrown e => exact hterm.elim
    | undefinedAccess => trivial
    | timeout => exact hterm.elim
  · intro fuel r3 h3
    rw [show fuel + 3 = (fuel + 1) + 2 from rfl, hloop]
    exact rle_loop_end tree fuel _ r3 h3

theorem rle_literal_then_run_witness :
    rle_loop [2, 4, 0x8005, 0x8103, 4, 4] (14 + 3)
        { reader := BitReader.init ⟨[0x1F], true⟩, last := 0, output := [] } =
      .done { reader := { stream := ⟨[], false⟩, bit := 8, current_byte := 0x1F }, last := 5,
              output := [5, 5, 5, 5] } ∧
    decode_huffman_rle 0
        ⟨[0x0C, 0x00, 0x04, 0x00, 0x08, 0x00, 0x05, 0x80, 0x03, 0x81, 0x08, 0x00, 0x08, 0x00,
          0x1F], true⟩ [] = .done [5, 5, 5, 5] :=
  ⟨(rle_literal_then_run [2, 4, 0x8005, 0x8103, 4, 4]
      { reader := BitReader.init ⟨[0x1F], true⟩, last := 0, output := [] } 0x0005 0x0103
      { stream := ⟨[], true⟩, bit := 2, current_byte := 0x1F }
      { stream := ⟨[], true⟩, bit := 4, current_byte := 0x1F }
      (by decide) (by decide) (by decide) (by decide) (by decide)).2.2.2.2.2.2 14
      { stream := ⟨[], false⟩, bit := 8, current_byte := 0x1F } (by decide),
   by decide⟩

/-! ### Huffman + RLE: the two-symbol run length (C16) -/

/-- Claim C16. Let `cw` be a run symbol (high byte non-zero) with low byte 1, read in any state
`st` of the loop of `decode_huffman_rle`, and let the next two symbols that `read_codeword`
delivers be `s1` and `s2`. The pass reads exactly these two symbols (the reader afterwards is
the one after `s2`), computes the count `(s1 & 0xFF) * 256 + (s2 & 0xFF)`, a number below
65536, and ends with that many copies of `last` appended to the output, `last` unchanged.
Consequently the loop continues from that state; whenever it returns, its output starts with
the output of `st` followed by the run; and when the next `read_codeword` returns -1 the loop
returns exactly that output. -/
theorem rle_two_symbol_count (tree : List Nat) (st : RleState) (cw s1 s2 : Nat)
    (r r1 r2 : BitReader)
    (hrun : cw &&& 0xFF00 ≠ 0) (hlo : cw &&& 0xFF = 1)
    (h1 : TtfHuffmanReader.read_codeword tree r = .done (some s1, r1))
    (h2 : TtfHuffmanReader.read_codeword tree r1 = .done (some s2, r2)) :
    rle_count tree r (cw &&& 0xFF) =
      .done (some ((s1 &&& 0xFF) * 256 + (s2 &&& 0xFF)), r2) ∧
    (s1 &&& 0xFF) * 256 + (s2 &&& 0xFF) < 65536 ∧
    rle_process tree st cw r =
      .done (false, { reader := r2, last := st.last,
                      output := st.output ++
                        List.replicate ((s1 &&& 0xFF) * 256 + (s2 &&& 0xFF)) st.last }) ∧
    (TtfHuffmanReader.read_codeword tree st.reader = .done (some cw, r) →
      (∀ fuel, rle_loop tree (fuel + 1) st =
        rle_loop tree fuel
          { reader := r2, last := st.last,
            output := st.output ++
              List.replicate ((s1 &&& 0xFF) * 256 + (s2 &&& 0xFF)) st.last }) ∧
      (∀ fuel st1, rle_loop tree (fuel + 1) st = .done st1 →
        ∃ tail, st1.output =
          st.output ++ List.replicate ((s1 &&& 0xFF) * 256 + (s2 &&& 0xFF)) st.last ++ tail) ∧
      (∀ fuel r3, TtfHuffmanReader.read_codeword tree r2 = .done (none, r3) →
        rle_loop tree (fuel + 2) st =
          .done { reader := r3, last := st.last,
                  output := st.output ++
                    List.replicate ((s1 &&& 0xFF) * 256 + (s2 &&& 0xFF)) st.last })) := by
  have hc : rle_count tree r (cw &&& 0xFF) =
      .done (some ((s1 &&& 0xFF) * 256 + (s2 &&& 0xFF)), r2) := by
    rw [hlo]
    unfold rle_count
    simp only [h1, h2, shiftLeft8_or _ _ (and_255_lt s2)]
  have hp : rle_process tree st cw r =
      .done (false, { reader := r2, last := st.last,
                      output := st.output ++
                        List.replicate ((s1 &&& 0xFF) * 256 + (s2 &&& 0xFF)) st.last }) := by
    unfold rle_process
    simp only [hrun, if_false, hc]
  have hlt : (s1 &&& 0xFF) * 256 + (s2 &&& 0xFF) < 65536 := by
    have := and_255_lt s1
    have := and_255_lt s2
    omega
  refine ⟨hc, hlt, hp, ?_⟩
  intro hcw
  have hloop : ∀ fuel, rle_loop tree (fuel + 1) st =
      rle_loop tree fuel
        { reader := r2, last := st.last,
          output := st.output ++
            List.replicate ((s1 &&& 0xFF) * 256 + (s2 &&& 0xFF)) st.last } := by
    intro fuel
    rw [rle_loop_succ, hcw]
    simp only [hp]
  refine ⟨hloop, ?_, ?_⟩
  · intro fuel st1 h
    rw [hloop] at h
    exact rle_loop_extends tree fuel _ st1 h
  · intro fuel r3 h3
    rw [show fuel + 2 = (fuel + 1) + 1 from rfl, hloop]
    exact rle_loop_end tree fuel _ r3 h3

theorem rle_two_symbol_count_witness :
    rle_process [0x8002, 0x8101]
        { reader := { stream := ⟨[], false⟩, bit := 5, current_byte := 0x04 }, last := 0x41,
          output := [0x41] } 0x0101
        { stream := ⟨[], false⟩, bit := 6, current_byte := 0x04 } =
      .done (false,
        { reader := { stream := ⟨[], false⟩, bit := 8, current_byte := 0x04 }, last := 0x41,
          output := [0x41] ++ List.replicate (2 * 256 + 2) 0x41 }) ∧
    rle_loop [0x8002, 0x8101] (0 + 2)
        { reader := { stream := ⟨[], false⟩, bit := 5, current_byte := 0x04 }, last := 0x41,
          output := [0x41] } =
      .done { reader := { stream := ⟨[], false⟩, bit := 8, current_byte := 0x04 }, last := 0x41,
              output := [0x41] ++ List.replicate (2 * 256 + 2) 0x41 } ∧
    decode_huffman_rle 0
        ⟨[0x10, 0x00, 0x04, 0x00, 0x08, 0x00, 0x41, 0x80, 0x01, 0x81, 0x02, 0x80, 0x0C, 0x00,
          0x0C, 0x00, 0x0C, 0x00, 0x1A, 0xFF], true⟩ [] =
      .done (List.replicate 515 0x41) :=
  have h := rle_two_symbol_count [0x8002, 0x8101]
    { reader := { stream := ⟨[], false⟩, bit := 5, current_byte := 0x04 }, last := 0x41,
      output := [0x41] } 0x0101 0x0002 0x0002
    { stream := ⟨[], false⟩, bit := 6, current_byte := 0x04 }
    { stream := ⟨[], false⟩, bit := 7, current_byte := 0x04 }
    { stream := ⟨[], false⟩, bit := 8, current_byte := 0x04 }
    (by decide) (by decide) (by decide) (by decide)
  ⟨h.2.2.1,
   (h.2.2.2 (by decide)).2.2 0 { stream := ⟨[], false⟩, bit := 8, current_byte := 0x04 }
     (by decide),
   by decide⟩

/-! ### DIET: the copy of a decoded back-reference (C18) -/

theorem diet_offset_and_count_two (junk : Nat) (bit : Bool) (off_lo : Nat)
    (r r1 : DietBitReader) (off_hi n : Nat)
    (h : diet_offset_and_count junk bit off_lo r = (some (off_hi, n), r1)) : 2 ≤ n := by
  unfold diet_offset_and_count at h
  cases bit
  · simp only [Bool.not_false, if_true] at h
    rcases hc : r.read_bit with ⟨c, r2⟩
    rw [hc] at h
    dsimp only at h
    cases c
    · simp only [Bool.false_eq_true, if_false] at h
      split at h
      · simp at h
      · simp only [Prod.mk.injEq, Option.some.injEq] at h
        omega
    · simp only [if_true] at h
      rcases hv3 : r2.read_3bit_value with ⟨v, r3⟩
      rw [hv3] at h
      simp only [Prod.mk.injEq, Option.some.injEq] at h
      omega
  · simp only [Bool.not_true, Bool.false_eq_true, if_false] at h
    rcases hh : read_hi_byte_varlen r with ⟨hi, r2⟩
    rw [hh] at h
    rcases hn : read_repeat_count_varlen junk r2 with ⟨c, r3⟩
    rw [hn] at h
    simp only [Prod.mk.injEq, Option.some.injEq] at h
    omega

/-- Claim C18. Let `decode_diet` decode, at write position `idx` of a buffer of `payload_size`
bytes, a back-reference that is not the sentinel, with the fields `off_hi`, `off_lo` and
`repeat_count = n`, and let its `int16_t` offset be `-k` with `k <= idx` (`1 <= k` always
holds). Then the back-reference part of the pass ends with `idx + min n (payload_size - idx)`
as new `idx` and with a buffer `out1` of the same length such that
`out1[idx + i] = out1[idx + i - k]` for every `i < min n (payload_size - idx)`: the copy loop
runs from source index `idx - k`, byte by byte in increasing order of `i`, so the copied
bytes are `out[idx - k + i % k]`, the periodic extension of the `k` bytes before `idx`. The
bytes below `idx` and those from the new `idx` on are unchanged. -/
theorem diet_backref_copy (junk ps : Nat) (st : DietState) (bit : Bool)
    (off_lo off_hi n k : Nat) (r1 : DietBitReader)
    (hf : diet_backref_fields junk st.reader = (bit, off_lo, some (off_hi, n), r1))
    (hoff : diet_offset off_hi off_lo = -(k : Int))
    (hk : k ≤ st.idx) (hidx : st.idx ≤ ps) (hlen : st.output.length = ps)
    (h64 : ps < 2 ^ 64) :
    1 ≤ k ∧ 2 ≤ n ∧
    diet_source_idx st.idx off_hi off_lo = st.idx - k ∧
    diet_backref junk ps st =
      (diet_copy ps n st.output st.idx (st.idx - k)).map
        (fun p => (false, { reader := r1, output := p.1, idx := p.2 })) ∧
    ∃ out1,
      diet_backref junk ps st =
        .done (false, { reader := r1, output := out1,
                        idx := st.idx + min n (ps - st.idx) }) ∧
      out1.length = ps ∧
      (∀ i, i < min n (ps - st.idx) → out1[st.idx + i]? = out1[st.idx + i - k]?) ∧
      (∀ i, i < min n (ps - st.idx) → out1[st.idx + i]? = st.output[st.idx - k + i % k]?) ∧
      (∀ j, j < st.idx → out1[j]? = st.output[j]?) ∧
      (∀ j, st.idx + min n (ps - st.idx) ≤ j → out1[j]? = st.output[j]?) := by
  have hr := diet_backref_fields_range junk _ r1 bit off_lo off_hi n hf
  have hoe := diet_offset_eq off_hi off_lo (by omega) hr.2.2 hr.1
  have hkeq : 65536 - (off_hi * 256 + off_lo) = k := by
    rw [hoe] at hoff
    omega
  obtain ⟨hk1, hk2, hsrc⟩ := diet_source_idx_of_offset st.idx off_hi off_lo hr.2.1 hr.2.2 hr.1
    (by omega) (by rw [hoff]; omega)
  rw [hkeq] at hk1 hsrc
  have hn : 2 ≤ n := by
    rw [diet_backref_fields_eq] at hf
    simp only [Prod.mk.injEq] at hf
    obtain ⟨hb, hl, hfc⟩ := hf
    have := diet_offset_and_count_two junk _ _ _ r1 off_hi n hfc
    exact this
  have hbr : diet_backref junk ps st =
      (diet_copy ps n st.output st.idx (st.idx - k)).map
        (fun p => (false, { reader := r1, output := p.1, idx := p.2 })) := by
    rw [diet_backref_eq_fields, hf]
    dsimp only
    rw [hsrc]
  obtain ⟨out1, hrun, hl, hlow, hrec, hhigh⟩ :=
    diet_copy_back ps k hk1 h64 n st.output st.idx hk (by omega)
  refine ⟨hk1, hn, hsrc, hbr, out1, ?_, by rw [hl, hlen], hrec,
    periodic_of_recurrence st.output out1 st.idx k _ hk1 hk hlow hrec, hlow, hhigh⟩
  rw [hbr, hrun]
  rfl

theorem diet_backref_copy_witness :
    diet_backref 0 8
        { reader := { stream := ⟨[0xFD], true⟩, bit := 0, current_word := 0x0087 },
          output := [1, 2, 3, 0, 0, 0, 0, 0], idx := 3 } =
      .done (false,
        { reader := { stream := ⟨[], true⟩, bit := 9, current_word := 0x0087 },
          output := [1, 2, 3, 1, 2, 3, 1, 2], idx := 8 }) ∧
    (diet_backref 0 8
        { reader := { stream := ⟨[0xFD], true⟩, bit := 0, current_word := 0x0087 },
          output := [1, 2, 3, 0, 0, 0, 0, 0], idx := 3 }).Holds
      (fun p => p.2.idx = 3 + min 7 (8 - 3) ∧ p.2.output.length = 8 ∧
        p.2.output[3 + 4]? = p.2.output[3 + 4 - 3]?) :=
  ⟨by decide,
   match diet_backref_copy 0 8
      { reader := { stream := ⟨[0xFD], true⟩, bit := 0, current_word := 0x0087 },
        output := [1, 2, 3, 0, 0, 0, 0, 0], idx := 3 } true 0xFD 0xFF 7 3
      { stream := ⟨[], true⟩, bit := 9, current_word := 0x0087 }
      (by decide) (by decide) (by decide) (by decide) (by decide) (by decide) with
    | ⟨_, _, _, _, _, hrun, hl, hrec, _⟩ => by rw [hrun]; exact ⟨rfl, hl, hrec 4 (by decide)⟩⟩

/-! ### Dispatcher: the declared size of a TTF container (C9) -/

theorem read_header_not_diet (junk b0 b1 b2 b3 : Nat) (rest : List Nat)
    (h : ¬(b0 % 256 = 0xB4 ∧ b1 % 256 = 0x4C)) :
    read_header junk (b0 :: b1 :: b2 :: b3 :: rest) =
      .ttf ((((b0 % 256) &&& 0x0F) <<< 16) ||| (b2 % 256 + 256 * (b3 % 256))) (b1 % 256)
        { rest := rest, good := true } := by
  have hsig : b0 % 256 + 256 * (b1 % 256) ≠ 0x4CB4 := by
    intro hh
    exact h ⟨by omega, by omega⟩
  simp [read_header, IStream.read_u16, IStream.read_u8, IStream.read, hsig]

/-- Claim C9 as amended. For a DIET container whose header declares `payload_size = 0`,
`unpack` returns an empty buffer; the bit reader is primed all the same, so the first word of
the bitstream (two bytes, or what is left) has been read. For a TTF container, that is a file
of at least 4 bytes that does not start with the DIET signature `B4 4C`, the declared size
does not enter the decoding: `unpack` is `decode_lzw` (type byte `0x10`) or
`decode_huffman_rle` (any other type byte) of the payload from offset 4, so two TTF
containers with the same type byte and the same payload unpack to the same result whatever
their byte 0 and bytes 2 and 3, which hold the size fields. -/
theorem zero_payload (fuel junk : Nat) (bytes : List Nat) (body : IStream)
    (b0 c0 t l0 l1 m0 m1 : Nat) (rest : List Nat)
    (hdiet : read_header junk bytes = .diet 0 body)
    (hb : ¬(b0 % 256 = 0xB4 ∧ t % 256 = 0x4C)) (hc : ¬(c0 % 256 = 0xB4 ∧ t % 256 = 0x4C)) :
    unpack fuel junk (some bytes) = .done [] ∧
      decode_diet_run junk body [] 0 =
        .done { reader := DietBitReader.init body, output := [], idx := 0 } ∧
      (DietBitReader.init body).stream = (body.read 2).2 ∧
      unpack fuel junk (some (b0 :: t :: l0 :: l1 :: rest)) =
        (if t % 256 = 0x10 then decode_lzw false fuel junk { rest := rest, good := true } []
         else decode_huffman_rle junk { rest := rest, good := true } []) ∧
      unpack fuel junk (some (b0 :: t :: l0 :: l1 :: rest)) =
        unpack fuel junk (some (c0 :: t :: m0 :: m1 :: rest)) := by
  have hu : ∀ a x y, ¬(a % 256 = 0xB4 ∧ t % 256 = 0x4C) →
      unpack fuel junk (some (a :: t :: x :: y :: rest)) =
        (if t % 256 = 0x10 then decode_lzw false fuel junk { rest := rest, good := true } []
         else decode_huffman_rle junk { rest := rest, good := true } []) := by
    intro a x y ha
    simp only [unpack, read_header_not_diet junk a t x y rest ha]
  refine ⟨?_, decode_diet_run_zero junk body, DietBitReader.init_stream body, hu b0 l0 l1 hb, ?_⟩
  · simp only [unpack, hdiet, decode_diet, decode_diet_run_zero, Outcome.map]
  · rw [hu b0 l0 l1 hb, hu c0 m0 m1 hc]

theorem zero_payload_witness :
    unpack 0 0 (some ([0xB4, 0x4C, 0, 0, 0, 0, 0, 0, 0, 0, 0, 0, 0, 0, 0, 0, 0, 0x01, 0x00,
        0x7A, 0xFF])) = .done [] ∧
      (DietBitReader.init ⟨[0x01, 0x00, 0x7A, 0xFF], true⟩).stream =
        (IStream.read ⟨[0x01, 0x00, 0x7A, 0xFF], true⟩ 2).2 ∧
      unpack 0 0 (some (0xB0 :: 0x4C :: 0x00 :: 0x00 :: [4, 0, 0x41, 0x80, 0x42, 0x80, 0x00])) =
        unpack 0 0 (some (0x0F :: 0x4C :: 0xFF :: 0xFF :: [4, 0, 0x41, 0x80, 0x42, 0x80, 0x00])) :=
  have h := zero_payload 0 0
    [0xB4, 0x4C, 0, 0, 0, 0, 0, 0, 0, 0, 0, 0, 0, 0, 0, 0, 0, 0x01, 0x00, 0x7A, 0xFF]
    ⟨[0x01, 0x00, 0x7A, 0xFF], true⟩ 0xB0 0x0F 0x4C 0x00 0x00 0xFF 0xFF
    [4, 0, 0x41, 0x80, 0x42, 0x80, 0x00] (by decide) (by decide) (by decide)
  ⟨h.1, h.2.2.1, h.2.2.2.2⟩

/-! ### Exhausted sources (C10) -/

end Sqz
